import Mathlib

/-!
The scanner and the bytecode execution loop of loxc: a shallow embedding of
`src/src/scanner.c` and `src/src/vm.c`.

Conventions of the embedding.

* A C `char` is modelled by its integer value (`Int`).  The scanner only ever
  compares characters, and C compares them after promotion to `int`, so a
  statement quantified over all `Int` values covers both a signed and an
  unsigned `char`.  The character constant `'a'` of the C text is `ch 'a'`.
* The source buffer is the list of the characters that precede its terminating
  NUL; reading at the index of the terminator (or past it) yields `0`.  A list
  that holds a `0` stands for a buffer whose string ends there, so a statement
  that speaks of the end of a text assumes that the text holds no `0`.
* `const char *` cursors into the buffer are offsets (`Nat`); a token's `start`
  is either such an offset or a pointer to a string literal of the program.
* The C `int` fields (`line`, `length`) are unbounded integers: no input of
  fewer than 2^31 characters makes them overflow.
* Every `while` loop of the scanner advances the cursor by one character per
  iteration and stops at the terminator at the latest, so each loop is given
  `source.length - current` iterations of fuel; the lemmas `*_loop_exit` show
  that the loop condition is false in the state the loop returns.
-/

namespace Loxc

/-- Integer value of a C character constant. -/
def ch (c : Char) : Int := c.toNat

/-- The characters of a C string literal (without the terminating NUL). -/
def cstr (s : String) : List Int := s.toList.map ch

namespace Scanner

/-- Token kinds named in `scanner.c` (the enumeration itself is declared in `scanner.h`). -/
inductive token_kind_t
  | TOKEN_LEFT_PAREN | TOKEN_RIGHT_PAREN | TOKEN_LEFT_BRACE | TOKEN_RIGHT_BRACE
  | TOKEN_COMMA | TOKEN_DOT | TOKEN_MINUS | TOKEN_PLUS | TOKEN_SEMICOLON
  | TOKEN_SLASH | TOKEN_STAR
  | TOKEN_BANG | TOKEN_BANG_EQUAL | TOKEN_EQUAL | TOKEN_EQUAL_EQUAL
  | TOKEN_GREATER | TOKEN_GREATER_EQUAL | TOKEN_LESS | TOKEN_LESS_EQUAL
  | TOKEN_IDENTIFIER | TOKEN_STRING | TOKEN_NUMBER
  | TOKEN_AND | TOKEN_CLASS | TOKEN_ELSE | TOKEN_FALSE | TOKEN_FOR | TOKEN_FUN
  | TOKEN_IF | TOKEN_NIL | TOKEN_OR | TOKEN_PRINT | TOKEN_RETURN | TOKEN_SUPER
  | TOKEN_THIS | TOKEN_TRUE | TOKEN_VAR | TOKEN_WHILE
  | TOKEN_ERROR | TOKEN_EOF
  deriving DecidableEq, Repr

open token_kind_t

/-- A `const char *` held by a token: an offset into the source buffer, or a string literal. -/
inductive char_ptr
  | source (offset : Nat)
  | literal (text : String)
  deriving DecidableEq, Repr

/-- The `token_t` record filled by `make_token` and `error_token`. -/
structure token_t where
  kind : token_kind_t
  start : char_ptr
  length : Int
  line : Int
  deriving DecidableEq, Repr

/-- The `scanner_t` record, together with the buffer its cursors point into. -/
structure scanner_t where
  source : List Int
  start : Nat
  current : Nat
  line : Int
  deriving DecidableEq, Repr

/-- The character stored at offset `i` of the NUL-terminated buffer. -/
def char_at (s : scanner_t) (i : Nat) : Int := s.source.getD i 0

def init_scanner (source : List Int) : scanner_t :=
  { source := source, start := 0, current := 0, line := 1 }

def is_at_end (s : scanner_t) : Bool := char_at s s.current == 0

def make_token (s : scanner_t) (kind : token_kind_t) : token_t :=
  { kind := kind, start := char_ptr.source s.start,
    length := (s.current : Int) - (s.start : Int), line := s.line }

def error_token (s : scanner_t) (errmsg : String) : token_t :=
  { kind := TOKEN_ERROR, start := char_ptr.literal errmsg,
    length := (errmsg.length : Int), line := s.line }

def advance (s : scanner_t) : Int × scanner_t :=
  (char_at s s.current, { s with current := s.current + 1 })

def match_ (s : scanner_t) (expected : Int) : Bool × scanner_t :=
  if is_at_end s then (false, s)
  else if char_at s s.current ≠ expected then (false, s)
  else (true, { s with current := s.current + 1 })

def peek (s : scanner_t) : Int := char_at s s.current

def peek_next (s : scanner_t) : Int :=
  if is_at_end s then 0 else char_at s (s.current + 1)

def is_digit (c : Int) : Bool := decide (c ≥ ch '0') && decide (c ≤ ch '9')

def is_alpha (c : Int) : Bool :=
  (decide (c ≥ ch 'a') && decide (c ≤ ch 'z'))
    || (decide (c ≥ ch 'A') && decide (c ≥ ch 'Z'))
    || decide (c = ch '_')

/-- Fuel of a scanner loop: the number of characters between the cursor and the terminator. -/
def remaining (s : scanner_t) : Nat := s.source.length - s.current

/-- The inner loop of `skip_whitespace`: `while (peek() != '\n' && !is_at_end()) advance();`. -/
def comment_loop : Nat → scanner_t → scanner_t
  | 0, s => s
  | fuel + 1, s =>
    if peek s ≠ ch '\n' && !is_at_end s then comment_loop fuel (advance s).2 else s

/-- The `while (true)` loop of `skip_whitespace`. -/
def skip_whitespace_loop : Nat → scanner_t → scanner_t
  | 0, s => s
  | fuel + 1, s =>
    let c := peek s
    if c = ch ' ' ∨ c = ch '\r' ∨ c = ch '\t' then
      skip_whitespace_loop fuel (advance s).2
    else if c = ch '\n' then
      skip_whitespace_loop fuel (advance { s with line := s.line + 1 }).2
    else if c = ch '/' then
      if peek_next s = ch '/' then
        skip_whitespace_loop fuel (comment_loop (remaining s) s)
      else s
    else s

def skip_whitespace (s : scanner_t) : scanner_t :=
  skip_whitespace_loop (remaining s) s

/-- The loop of `string`. -/
def string_loop : Nat → scanner_t → scanner_t
  | 0, s => s
  | fuel + 1, s =>
    if peek s ≠ ch '"' && !is_at_end s then
      let s1 := if peek s = ch '\n' then { s with line := s.line + 1 } else s
      string_loop fuel (advance s1).2
    else s

def string (s : scanner_t) : token_t × scanner_t :=
  let s1 := string_loop (remaining s) s
  if is_at_end s1 then (error_token s1 "Unterminated string.", s1)
  else
    let s2 := (advance s1).2
    (make_token s2 TOKEN_STRING, s2)

/-- The loop `while (is_digit(peek())) advance();` that `number` runs twice. -/
def digits_loop : Nat → scanner_t → scanner_t
  | 0, s => s
  | fuel + 1, s => if is_digit (peek s) then digits_loop fuel (advance s).2 else s

def number (s : scanner_t) : token_t × scanner_t :=
  let s1 := digits_loop (remaining s) s
  let s2 :=
    if peek s1 = ch '.' && is_digit (peek_next s1) then
      let s3 := (advance s1).2
      digits_loop (remaining s3) s3
    else s1
  (make_token s2 TOKEN_NUMBER, s2)

/-- The test `memcmp(scanner.start + start, rest, length) == 0`. -/
def memcmp_eq (s : scanner_t) (offset : Nat) (rest : String) (length : Nat) : Bool :=
  (List.range length).all fun i => char_at s (offset + i) == (cstr rest).getD i 0

def check_keyword (s : scanner_t) (start length : Nat) (rest : String)
    (type : token_kind_t) : token_kind_t :=
  if (s.current : Int) - (s.start : Int) = (start : Int) + (length : Int)
      && memcmp_eq s (s.start + start) rest length then type
  else TOKEN_IDENTIFIER

def identifier_type (s : scanner_t) : token_kind_t :=
  let c0 := char_at s s.start
  if c0 = ch 'a' then check_keyword s 1 2 "nd" TOKEN_AND
  else if c0 = ch 'c' then check_keyword s 1 4 "lass" TOKEN_CLASS
  else if c0 = ch 'e' then check_keyword s 1 3 "lse" TOKEN_ELSE
  else if c0 = ch 'f' then
    if (s.current : Int) - (s.start : Int) > 1 then
      let c1 := char_at s (s.start + 1)
      if c1 = ch 'a' then check_keyword s 2 3 "lse" TOKEN_FALSE
      else if c1 = ch 'o' then check_keyword s 2 1 "r" TOKEN_FOR
      else if c1 = ch 'u' then check_keyword s 2 1 "n" TOKEN_FUN
      else TOKEN_IDENTIFIER
    else TOKEN_IDENTIFIER
  else if c0 = ch 'i' then check_keyword s 1 1 "f" TOKEN_IF
  else if c0 = ch 'n' then check_keyword s 1 2 "il" TOKEN_NIL
  else if c0 = ch 'o' then check_keyword s 1 1 "r" TOKEN_OR
  else if c0 = ch 'p' then check_keyword s 1 4 "rint" TOKEN_PRINT
  else if c0 = ch 'r' then check_keyword s 1 5 "eturn" TOKEN_RETURN
  else if c0 = ch 's' then check_keyword s 1 4 "uper" TOKEN_SUPER
  else if c0 = ch 't' then
    if (s.current : Int) - (s.start : Int) > 1 then
      let c1 := char_at s (s.start + 1)
      if c1 = ch 'h' then check_keyword s 2 2 "is" TOKEN_THIS
      else if c1 = ch 'r' then check_keyword s 2 2 "ue" TOKEN_TRUE
      else TOKEN_IDENTIFIER
    else TOKEN_IDENTIFIER
  else if c0 = ch 'v' then check_keyword s 1 2 "ar" TOKEN_VAR
  else if c0 = ch 'w' then check_keyword s 1 4 "hile" TOKEN_WHILE
  else TOKEN_IDENTIFIER

/-- The loop of `identifier`. -/
def identifier_loop : Nat → scanner_t → scanner_t
  | 0, s => s
  | fuel + 1, s =>
    if is_alpha (peek s) || is_digit (peek s) then identifier_loop fuel (advance s).2 else s

def identifier (s : scanner_t) : token_t × scanner_t :=
  let s1 := identifier_loop (remaining s) s
  (make_token s1 (identifier_type s1), s1)

def scan_token (s0 : scanner_t) : token_t × scanner_t :=
  let s1 := skip_whitespace s0
  let s2 := { s1 with start := s1.current }
  if is_at_end s2 then (make_token s2 TOKEN_EOF, s2)
  else
    let c := (advance s2).1
    let s := (advance s2).2
    if is_digit c then number s
    else if is_alpha c then identifier s
    else if c = ch '(' then (make_token s TOKEN_LEFT_PAREN, s)
    else if c = ch ')' then (make_token s TOKEN_RIGHT_PAREN, s)
    else if c = ch '\x7b' then (make_token s TOKEN_LEFT_BRACE, s)
    else if c = ch '\x7d' then (make_token s TOKEN_RIGHT_BRACE, s)
    else if c = ch ';' then (make_token s TOKEN_SEMICOLON, s)
    else if c = ch ',' then (make_token s TOKEN_COMMA, s)
    else if c = ch '.' then (make_token s TOKEN_DOT, s)
    else if c = ch '-' then (make_token s TOKEN_MINUS, s)
    else if c = ch '+' then (make_token s TOKEN_PLUS, s)
    else if c = ch '/' then (make_token s TOKEN_SLASH, s)
    else if c = ch '*' then (make_token s TOKEN_STAR, s)
    else if c = ch '!' then
      let m := match_ s (ch '=')
      (make_token m.2 (if m.1 then TOKEN_BANG_EQUAL else TOKEN_BANG), m.2)
    else if c = ch '=' then
      let m := match_ s (ch '=')
      (make_token m.2 (if m.1 then TOKEN_EQUAL_EQUAL else TOKEN_EQUAL), m.2)
    else if c = ch '<' then
      let m := match_ s (ch '=')
      (make_token m.2 (if m.1 then TOKEN_LESS_EQUAL else TOKEN_LESS), m.2)
    else if c = ch '>' then
      let m := match_ s (ch '=')
      (make_token m.2 (if m.1 then TOKEN_GREATER_EQUAL else TOKEN_GREATER), m.2)
    else if c = ch '"' then string s
    else (error_token s "Unexpected character.", s)

/-- The characters a token's `start`/`length` pair designates. -/
def lexeme (source : List Int) (t : token_t) : List Int :=
  match t.start with
  | char_ptr.source offset => (source.drop offset).take t.length.toNat
  | char_ptr.literal text => (cstr text).take t.length.toNat

/-- The scanner after `n` calls of `scan_token` on a freshly initialised `source`. -/
def scan_state (source : List Int) : Nat → scanner_t
  | 0 => init_scanner source
  | n + 1 => (scan_token (scan_state source n)).2

/-- The token returned by call number `n` (counted from 0) of `scan_token` on `source`. -/
def nth_token (source : List Int) (n : Nat) : token_t :=
  (scan_token (scan_state source n)).1

/-- The tokens returned by successive calls of `scan_token`, up to and including the first
`TOKEN_EOF`; at most `fuel` calls are made. -/
def scan_all : Nat → scanner_t → List token_t
  | 0, _ => []
  | fuel + 1, s =>
    if (scan_token s).1.kind = TOKEN_EOF then [(scan_token s).1]
    else (scan_token s).1 :: scan_all fuel (scan_token s).2

/-- Kind, lexeme and line of a token of `source`. -/
def token_view (source : List Int) (t : token_t) : token_kind_t × List Int × Int :=
  (t.kind, lexeme source t, t.line)

/-- Number of newline characters in a stretch of source text. -/
def count_newlines (l : List Int) : Int := ((l.filter fun c => c = ch '\n').length : Int)

/-- The literal form of the spec: one or more digits, optionally followed by a `.` and one or
more digits. -/
def is_number_literal (l : List Int) : Bool :=
  let fraction := l.dropWhile is_digit
  !(l.takeWhile is_digit).isEmpty
    && (fraction.isEmpty
      || (fraction.head? == some (ch '.') && !fraction.tail.isEmpty
        && fraction.tail.all is_digit))

/-- The spelling of each of the sixteen keywords. -/
def keyword_spelling : token_kind_t → Option String
  | TOKEN_AND => some "and"
  | TOKEN_CLASS => some "class"
  | TOKEN_ELSE => some "else"
  | TOKEN_FALSE => some "false"
  | TOKEN_FOR => some "for"
  | TOKEN_FUN => some "fun"
  | TOKEN_IF => some "if"
  | TOKEN_NIL => some "nil"
  | TOKEN_OR => some "or"
  | TOKEN_PRINT => some "print"
  | TOKEN_RETURN => some "return"
  | TOKEN_SUPER => some "super"
  | TOKEN_THIS => some "this"
  | TOKEN_TRUE => some "true"
  | TOKEN_VAR => some "var"
  | TOKEN_WHILE => some "while"
  | _ => none

/-- Exact-match classification of a lexeme: the kind of the keyword it spells, else
`TOKEN_IDENTIFIER`. -/
def classify (l : List Int) : token_kind_t :=
  if l = cstr "and" then TOKEN_AND
  else if l = cstr "class" then TOKEN_CLASS
  else if l = cstr "else" then TOKEN_ELSE
  else if l = cstr "false" then TOKEN_FALSE
  else if l = cstr "for" then TOKEN_FOR
  else if l = cstr "fun" then TOKEN_FUN
  else if l = cstr "if" then TOKEN_IF
  else if l = cstr "nil" then TOKEN_NIL
  else if l = cstr "or" then TOKEN_OR
  else if l = cstr "print" then TOKEN_PRINT
  else if l = cstr "return" then TOKEN_RETURN
  else if l = cstr "super" then TOKEN_SUPER
  else if l = cstr "this" then TOKEN_THIS
  else if l = cstr "true" then TOKEN_TRUE
  else if l = cstr "var" then TOKEN_VAR
  else if l = cstr "while" then TOKEN_WHILE
  else TOKEN_IDENTIFIER

/-- The line counter agrees with the text consumed so far: the cursor lies in the buffer and
`line` is 1 plus the number of newlines in front of the cursor. -/
def line_inv (s : scanner_t) : Prop :=
  s.current ≤ s.source.length ∧ s.line = 1 + count_newlines (s.source.take s.current)

/-- The scanner `s1` is the scanner `s` moved forward: same buffer, same `start`, a cursor that
has not moved back, and a line counter that still agrees with the text consumed. -/
def adv (s s1 : scanner_t) : Prop :=
  s1.source = s.source ∧ s1.start = s.start ∧ s.current ≤ s1.current
    ∧ (line_inv s → line_inv s1)

/-- The exit condition of the loop of `skip_whitespace`: the character under the cursor is not
a blank, and it does not begin a line comment. -/
def at_token (s : scanner_t) : Prop :=
  peek s ≠ ch ' ' ∧ peek s ≠ ch '\r' ∧ peek s ≠ ch '\t' ∧ peek s ≠ ch '\n'
    ∧ (peek s = ch '/' → peek_next s ≠ ch '/')

/-- The line recorded in a token of `source` that is not an error token: the line of its first
character, and for a string literal the line of its closing quote. -/
def token_line_spec (source : List Int) (t : token_t) : Prop :=
  t.kind ≠ TOKEN_ERROR →
    ∃ offset, t.start = char_ptr.source offset
      ∧ (t.kind ≠ TOKEN_STRING → t.line = 1 + count_newlines (source.take offset))
      ∧ (t.kind = TOKEN_STRING →
          t.line = 1 + count_newlines (source.take (offset + t.length.toNat)))

/-- The result `r` of a call of `scan_token` that found the scanner `s` in front of a token:
the line counter still agrees with the text and the token carries the line of the spec. -/
def scan_ok (s : scanner_t) (r : token_t × scanner_t) : Prop :=
  line_inv r.2 ∧ r.2.source = s.source ∧ token_line_spec s.source r.1

/-- The scanner `s` seen in a buffer that has the text `p` in front of it and in which `d`
more newlines have been counted. -/
def shift (p : List Int) (d : Int) (s : scanner_t) : scanner_t :=
  { source := p ++ s.source, start := p.length + s.start, current := p.length + s.current,
    line := s.line + d }

/-- The token `t` seen in a buffer with `n` more characters and `d` more lines in front. -/
def shift_token (n : Nat) (d : Int) (t : token_t) : token_t :=
  { kind := t.kind,
    start := match t.start with
      | char_ptr.source offset => char_ptr.source (n + offset)
      | char_ptr.literal text => char_ptr.literal text,
    length := t.length, line := t.line + d }

/-- The result of a call of `scan_token` seen behind the text `p` and `d` more lines. -/
def shift_result (p : List Int) (d : Int) (r : token_t × scanner_t) : token_t × scanner_t :=
  (shift_token p.length d r.1, shift p d r.2)

/-- The result `r` of the part of `scan_token` that runs once a character has been consumed,
the scanner then being `s`: the token is not `TOKEN_EOF` and the scanner has only moved
forward. -/
def scan_adv (s : scanner_t) (r : token_t × scanner_t) : Prop :=
  r.1.kind ≠ TOKEN_EOF ∧ adv s r.2

/-- A read of the character at offset `i` of the buffer.  The buffer holds the characters of
the source and the terminator behind them, at offset `source.length`; a read behind the
terminator fails. -/
def read (s : scanner_t) (i : Nat) : Option Int :=
  if i ≤ s.source.length then some (char_at s i) else none

/-- A move of the cursor to offset `i`; a move behind the terminator fails. -/
def move (s : scanner_t) (i : Nat) : Option scanner_t :=
  if i ≤ s.source.length then some { s with current := i } else none

/-- The function `is_at_end` with its read checked. -/
def is_at_end_checked (s : scanner_t) : Option Bool :=
  (read s s.current).map fun c => c == 0

/-- The function `advance` with its move and its read checked:
`scanner.current++; return scanner.current[-1];`. -/
def advance_checked (s : scanner_t) : Option (Int × scanner_t) :=
  (move s (s.current + 1)).bind fun s1 =>
    (read s1 (s1.current - 1)).map fun c => (c, s1)

/-- The function `match` with its reads and its move checked. -/
def match_checked (s : scanner_t) (expected : Int) : Option (Bool × scanner_t) :=
  (is_at_end_checked s).bind fun e =>
    if e then some (false, s)
    else (read s s.current).bind fun c =>
      if c ≠ expected then some (false, s)
      else (move s (s.current + 1)).map fun s1 => (true, s1)

/-- The function `peek` with its read checked. -/
def peek_checked (s : scanner_t) : Option Int := read s s.current

/-- The function `peek_next` with its reads checked. -/
def peek_next_checked (s : scanner_t) : Option Int :=
  (is_at_end_checked s).bind fun e => if e then some 0 else read s (s.current + 1)

/-- The inner loop of `skip_whitespace` with every access checked; the loop condition is
evaluated at every round, the one that leaves the loop included, and running out of fuel is a
failure. -/
def comment_loop_checked : Nat → scanner_t → Option scanner_t
  | 0, _ => none
  | fuel + 1, s =>
    (peek_checked s).bind fun c =>
      if c ≠ ch '\n' then
        (is_at_end_checked s).bind fun e =>
          if !e then (advance_checked s).bind fun a => comment_loop_checked fuel a.2
          else some s
      else some s

/-- The `while (true)` loop of `skip_whitespace` with every access checked. -/
def skip_whitespace_loop_checked : Nat → scanner_t → Option scanner_t
  | 0, _ => none
  | fuel + 1, s =>
    (peek_checked s).bind fun c =>
      if c = ch ' ' ∨ c = ch '\r' ∨ c = ch '\t' then
        (advance_checked s).bind fun a => skip_whitespace_loop_checked fuel a.2
      else if c = ch '\n' then
        (advance_checked { s with line := s.line + 1 }).bind fun a =>
          skip_whitespace_loop_checked fuel a.2
      else if c = ch '/' then
        (peek_next_checked s).bind fun n =>
          if n = ch '/' then
            (comment_loop_checked (remaining s + 1) s).bind fun s1 =>
              skip_whitespace_loop_checked fuel s1
          else some s
      else some s

def skip_whitespace_checked (s : scanner_t) : Option scanner_t :=
  skip_whitespace_loop_checked (remaining s + 1) s

/-- The loop of `string` with every access checked. -/
def string_loop_checked : Nat → scanner_t → Option scanner_t
  | 0, _ => none
  | fuel + 1, s =>
    (peek_checked s).bind fun c =>
      if c ≠ ch '"' then
        (is_at_end_checked s).bind fun e =>
          if !e then
            (peek_checked s).bind fun c1 =>
              (advance_checked (if c1 = ch '\n' then { s with line := s.line + 1 } else s)).bind
                fun a => string_loop_checked fuel a.2
          else some s
      else some s

def string_checked (s : scanner_t) : Option (token_t × scanner_t) :=
  (string_loop_checked (remaining s + 1) s).bind fun s1 =>
    (is_at_end_checked s1).bind fun e =>
      if e then some (error_token s1 "Unterminated string.", s1)
      else (advance_checked s1).map fun a => (make_token a.2 TOKEN_STRING, a.2)

/-- The loop `while (is_digit(peek())) advance();` with every access checked. -/
def digits_loop_checked : Nat → scanner_t → Option scanner_t
  | 0, _ => none
  | fuel + 1, s =>
    (peek_checked s).bind fun c =>
      if is_digit c then (advance_checked s).bind fun a => digits_loop_checked fuel a.2
      else some s

def number_checked (s : scanner_t) : Option (token_t × scanner_t) :=
  (digits_loop_checked (remaining s + 1) s).bind fun s1 =>
    (peek_checked s1).bind fun c =>
      if c = ch '.' then
        (peek_next_checked s1).bind fun n =>
          if is_digit n then
            (advance_checked s1).bind fun a =>
              (digits_loop_checked (remaining a.2 + 1) a.2).map fun s2 =>
                (make_token s2 TOKEN_NUMBER, s2)
          else some (make_token s1 TOKEN_NUMBER, s1)
      else some (make_token s1 TOKEN_NUMBER, s1)

/-- The call `memcmp(scanner.start + start, rest, length) == 0` with the read of each of the
`length` characters of the buffer checked. -/
def memcmp_checked (s : scanner_t) (offset : Nat) (rest : String) (length : Nat) :
    Option Bool :=
  (List.range length).foldr
    (fun i acc =>
      (read s (offset + i)).bind fun c => acc.map fun b => (c == (cstr rest).getD i 0) && b)
    (some true)

/-- The function `check_keyword` with its accesses checked; `memcmp` is called only when the
lengths agree. -/
def check_keyword_checked (s : scanner_t) (start length : Nat) (rest : String)
    (type : token_kind_t) : Option token_kind_t :=
  if (s.current : Int) - (s.start : Int) = (start : Int) + (length : Int) then
    (memcmp_checked s (s.start + start) rest length).map fun m =>
      if m then type else TOKEN_IDENTIFIER
  else some TOKEN_IDENTIFIER

/-- The function `identifier_type` with its accesses checked. -/
def identifier_type_checked (s : scanner_t) : Option token_kind_t :=
  (read s s.start).bind fun c0 =>
    if c0 = ch 'a' then check_keyword_checked s 1 2 "nd" TOKEN_AND
    else if c0 = ch 'c' then check_keyword_checked s 1 4 "lass" TOKEN_CLASS
    else if c0 = ch 'e' then check_keyword_checked s 1 3 "lse" TOKEN_ELSE
    else if c0 = ch 'f' then
      if (s.current : Int) - (s.start : Int) > 1 then
        (read s (s.start + 1)).bind fun c1 =>
          if c1 = ch 'a' then check_keyword_checked s 2 3 "lse" TOKEN_FALSE
          else if c1 = ch 'o' then check_keyword_checked s 2 1 "r" TOKEN_FOR
          else if c1 = ch 'u' then check_keyword_checked s 2 1 "n" TOKEN_FUN
          else some TOKEN_IDENTIFIER
      else some TOKEN_IDENTIFIER
    else if c0 = ch 'i' then check_keyword_checked s 1 1 "f" TOKEN_IF
    else if c0 = ch 'n' then check_keyword_checked s 1 2 "il" TOKEN_NIL
    else if c0 = ch 'o' then check_keyword_checked s 1 1 "r" TOKEN_OR
    else if c0 = ch 'p' then check_keyword_checked s 1 4 "rint" TOKEN_PRINT
    else if c0 = ch 'r' then check_keyword_checked s 1 5 "eturn" TOKEN_RETURN
    else if c0 = ch 's' then check_keyword_checked s 1 4 "uper" TOKEN_SUPER
    else if c0 = ch 't' then
      if (s.current : Int) - (s.start : Int) > 1 then
        (read s (s.start + 1)).bind fun c1 =>
          if c1 = ch 'h' then check_keyword_checked s 2 2 "is" TOKEN_THIS
          else if c1 = ch 'r' then check_keyword_checked s 2 2 "ue" TOKEN_TRUE
          else some TOKEN_IDENTIFIER
      else some TOKEN_IDENTIFIER
    else if c0 = ch 'v' then check_keyword_checked s 1 2 "ar" TOKEN_VAR
    else if c0 = ch 'w' then check_keyword_checked s 1 4 "hile" TOKEN_WHILE
    else some TOKEN_IDENTIFIER

/-- The loop of `identifier` with every access checked. -/
def identifier_loop_checked : Nat → scanner_t → Option scanner_t
  | 0, _ => none
  | fuel + 1, s =>
    (peek_checked s).bind fun c =>
      if is_alpha c then (advance_checked s).bind fun a => identifier_loop_checked fuel a.2
      else
        (peek_checked s).bind fun c1 =>
          if is_digit c1 then
            (advance_checked s).bind fun a => identifier_loop_checked fuel a.2
          else some s

def identifier_checked (s : scanner_t) : Option (token_t × scanner_t) :=
  (identifier_loop_checked (remaining s + 1) s).bind fun s1 =>
    (identifier_type_checked s1).map fun kind => (make_token s1 kind, s1)

/-- The function `scan_token` with every access to the buffer and every move of the cursor
checked: the result is `none` as soon as one of them falls behind the terminator. -/
def scan_token_checked (s0 : scanner_t) : Option (token_t × scanner_t) :=
  (skip_whitespace_checked s0).bind fun s1 =>
    (is_at_end_checked { s1 with start := s1.current }).bind fun e =>
      if e then
        some (make_token { s1 with start := s1.current } TOKEN_EOF,
          { s1 with start := s1.current })
      else
        (advance_checked { s1 with start := s1.current }).bind fun a =>
          if is_digit a.1 then number_checked a.2
          else if is_alpha a.1 then identifier_checked a.2
          else if a.1 = ch '(' then some (make_token a.2 TOKEN_LEFT_PAREN, a.2)
          else if a.1 = ch ')' then some (make_token a.2 TOKEN_RIGHT_PAREN, a.2)
          else if a.1 = ch '\x7b' then some (make_token a.2 TOKEN_LEFT_BRACE, a.2)
          else if a.1 = ch '\x7d' then some (make_token a.2 TOKEN_RIGHT_BRACE, a.2)
          else if a.1 = ch ';' then some (make_token a.2 TOKEN_SEMICOLON, a.2)
          else if a.1 = ch ',' then some (make_token a.2 TOKEN_COMMA, a.2)
          else if a.1 = ch '.' then some (make_token a.2 TOKEN_DOT, a.2)
          else if a.1 = ch '-' then some (make_token a.2 TOKEN_MINUS, a.2)
          else if a.1 = ch '+' then some (make_token a.2 TOKEN_PLUS, a.2)
          else if a.1 = ch '/' then some (make_token a.2 TOKEN_SLASH, a.2)
          else if a.1 = ch '*' then some (make_token a.2 TOKEN_STAR, a.2)
          else if a.1 = ch '!' then
            (match_checked a.2 (ch '=')).map fun m =>
              (make_token m.2 (if m.1 then TOKEN_BANG_EQUAL else TOKEN_BANG), m.2)
          else if a.1 = ch '=' then
            (match_checked a.2 (ch '=')).map fun m =>
              (make_token m.2 (if m.1 then TOKEN_EQUAL_EQUAL else TOKEN_EQUAL), m.2)
          else if a.1 = ch '<' then
            (match_checked a.2 (ch '=')).map fun m =>
              (make_token m.2 (if m.1 then TOKEN_LESS_EQUAL else TOKEN_LESS), m.2)
          else if a.1 = ch '>' then
            (match_checked a.2 (ch '=')).map fun m =>
              (make_token m.2 (if m.1 then TOKEN_GREATER_EQUAL else TOKEN_GREATER), m.2)
          else if a.1 = ch '"' then string_checked a.2
          else some (error_token a.2 "Unexpected character.", a.2)

/-- The scanner after `n` checked calls of `scan_token` on a freshly initialised `source`. -/
def scan_state_checked (source : List Int) : Nat → Option scanner_t
  | 0 => some (init_scanner source)
  | n + 1 =>
    (scan_state_checked source n).bind fun s => (scan_token_checked s).map fun r => r.2

end Scanner

namespace VM

/-- Modelled from the spec: `value.h` is missing.  A value is a tagged datum whose only variant
in this scope is a number; `D` stands for the C type `double`, whose arithmetic is left to the
instances `Add D`, `Sub D`, `Mul D`, `Div D`, `Neg D`. -/
inductive value_t (D : Type)
  | number (d : D)
  deriving DecidableEq, Repr

/-- Modelled from the spec: the type predicate `IS_NUMBER` of the missing `value.h`. -/
def IS_NUMBER {D : Type} : value_t D → Bool
  | value_t.number _ => true

/-- Modelled from the spec: the accessor `AS_NUMBER` of the missing `value.h`. -/
def AS_NUMBER {D : Type} : value_t D → D
  | value_t.number d => d

/-- Modelled from the spec: the constructor `NUMBER_VAL` of the missing `value.h`. -/
def NUMBER_VAL {D : Type} (d : D) : value_t D := value_t.number d

/-- Modelled from the spec: the three macros of the missing `value.h` that `vm.c` uses, as a
parameter of the execution loop.  `V` is the C type `value_t`, `D` the C type `double`; what
is known of the macros is that a value made by `NUMBER_VAL` is a number and holds the number
it was made of.  A `V` with values on which `IS_NUMBER` is false covers a `value.h` with
more variants than the number. -/
structure value_ops (V D : Type) where
  IS_NUMBER : V → Bool
  AS_NUMBER : V → D
  NUMBER_VAL : D → V
  is_number_val : ∀ d, IS_NUMBER (NUMBER_VAL d) = true
  as_number_val : ∀ d, AS_NUMBER (NUMBER_VAL d) = d

/-- The values of the spec: every value is a number. -/
def number_values (D : Type) : value_ops (value_t D) D :=
  { IS_NUMBER := IS_NUMBER, AS_NUMBER := AS_NUMBER, NUMBER_VAL := NUMBER_VAL,
    is_number_val := fun _ => rfl, as_number_val := fun _ => rfl }

/-- Values with one variant besides the numbers: `none` stands for a value such as nil, which
is no number and whose number member reads as `0`. -/
def nil_values : value_ops (Option Int) Int :=
  { IS_NUMBER := Option.isSome, AS_NUMBER := fun v => v.getD 0, NUMBER_VAL := some,
    is_number_val := fun _ => rfl, as_number_val := fun _ => rfl }

/-- Modelled from the spec: `chunk.h` is missing.  The instruction bytes, the line of each byte
and the constant pool; `count` is the length of `code`. -/
structure chunk_t (V : Type) where
  code : List Nat
  lines : List Int
  constants : List V
  deriving DecidableEq, Repr

/-- Modelled from the spec: the `OP_*` enumeration of the missing `chunk.h`.  The values of the
seven one-byte opcodes are a parameter; a C enumeration gives its members distinct values. -/
structure op_code_t where
  OP_CONSTANT : Nat
  OP_ADD : Nat
  OP_SUBTRACT : Nat
  OP_MULTIPLY : Nat
  OP_DIVIDE : Nat
  OP_NEGATE : Nat
  OP_RETURN : Nat
  distinct : [OP_CONSTANT, OP_ADD, OP_SUBTRACT, OP_MULTIPLY, OP_DIVIDE, OP_NEGATE,
    OP_RETURN].Nodup

/-- The opcodes numbered in the order in which the spec lists the instruction set. -/
def listed_op_codes : op_code_t :=
  { OP_CONSTANT := 0, OP_ADD := 1, OP_SUBTRACT := 2, OP_MULTIPLY := 3, OP_DIVIDE := 4,
    OP_NEGATE := 5, OP_RETURN := 6, distinct := by decide }

def STACK_MAX : Nat := 256

inductive interpret_result_t
  | INTERPRET_OK
  | INTERPRET_COMPILE_ERROR
  | INTERPRET_RUNTIME_ERROR
  deriving DecidableEq, Repr

open interpret_result_t

/-- The `vm_t` record.  `ip` is the offset of the instruction cursor in `chunk.code`; `stack`
lists the slots below `stack_top`, the top of the stack first (the slots at and above
`stack_top` are never read).  `out` and `err` are what has been written to `stdout` (the values
handed to `print_value`) and to `stderr` (the message and line of each `runtime_error`). -/
structure vm_t (V : Type) where
  chunk : chunk_t V
  ip : Nat
  stack : List V
  out : List V
  err : List (String × Int)
  deriving DecidableEq, Repr

/-- What one iteration of the loop of `run` does: go on, return from `run`, or leave the
behaviour undefined (a read outside `code`, `lines` or `constants`, a pop or a peek below the
stack base, a push onto a full stack). -/
inductive step_t (V : Type)
  | next (vm : vm_t V)
  | returned (result : interpret_result_t) (vm : vm_t V)
  | undefined
  deriving DecidableEq, Repr

def reset_stack {V : Type} (vm : vm_t V) : vm_t V := { vm with stack := [] }

def runtime_error {V : Type} (vm : vm_t V) (message : String) : Option (vm_t V) :=
  match vm.chunk.lines.get? (vm.ip - 1) with
  | none => none
  | some line => some (reset_stack { vm with err := vm.err ++ [(message, line)] })

def init_vm {V : Type} (vm : vm_t V) : vm_t V := reset_stack vm

def push {V : Type} (vm : vm_t V) (value : V) : Option (vm_t V) :=
  if vm.stack.length < STACK_MAX then some { vm with stack := value :: vm.stack } else none

def pop {V : Type} (vm : vm_t V) : Option (V × vm_t V) :=
  match vm.stack with
  | [] => none
  | value :: rest => some (value, { vm with stack := rest })

def peek {V : Type} (vm : vm_t V) (distance : Nat) : Option V :=
  vm.stack.get? distance

def READ_BYTE {V : Type} (vm : vm_t V) : Option (Nat × vm_t V) :=
  match vm.chunk.code.get? vm.ip with
  | none => none
  | some byte => some (byte, { vm with ip := vm.ip + 1 })

def READ_CONSTANT {V : Type} (vm : vm_t V) : Option (V × vm_t V) :=
  match READ_BYTE vm with
  | none => none
  | some (index, vm1) =>
    match vm1.chunk.constants.get? index with
    | none => none
    | some constant => some (constant, vm1)

def BINARY_OP {V D : Type} (vo : value_ops V D) (op : D → D → D) (vm : vm_t V) : step_t V :=
  let fail : step_t V :=
    match runtime_error vm "Operands must be numbers." with
    | none => step_t.undefined
    | some vm1 => step_t.returned INTERPRET_RUNTIME_ERROR vm1
  match peek vm 0 with
  | none => step_t.undefined
  | some v0 =>
    if !vo.IS_NUMBER v0 then fail
    else
      match peek vm 1 with
      | none => step_t.undefined
      | some v1 =>
        if !vo.IS_NUMBER v1 then fail
        else
          match pop vm with
          | none => step_t.undefined
          | some (vb, vm1) =>
            match pop vm1 with
            | none => step_t.undefined
            | some (va, vm2) =>
              match push vm2 (vo.NUMBER_VAL (op (vo.AS_NUMBER va) (vo.AS_NUMBER vb))) with
              | none => step_t.undefined
              | some vm3 => step_t.next vm3

/-- One iteration of the `for (;;)` loop of `run`: fetch a byte and dispatch on it. -/
def step {V D : Type} [Add D] [Sub D] [Mul D] [Div D] [Neg D] (oc : op_code_t)
    (vo : value_ops V D) (vm0 : vm_t V) : step_t V :=
  match READ_BYTE vm0 with
  | none => step_t.undefined
  | some (instruction, vm) =>
    if instruction = oc.OP_CONSTANT then
      match READ_CONSTANT vm with
      | none => step_t.undefined
      | some (constant, vm1) =>
        match push vm1 constant with
        | none => step_t.undefined
        | some vm2 => step_t.next vm2
    else if instruction = oc.OP_ADD then BINARY_OP vo (fun a b => a + b) vm
    else if instruction = oc.OP_SUBTRACT then BINARY_OP vo (fun a b => a - b) vm
    else if instruction = oc.OP_MULTIPLY then BINARY_OP vo (fun a b => a * b) vm
    else if instruction = oc.OP_DIVIDE then BINARY_OP vo (fun a b => a / b) vm
    else if instruction = oc.OP_NEGATE then
      match pop vm with
      | none => step_t.undefined
      | some (v, vm1) =>
        if !vo.IS_NUMBER v then step_t.returned INTERPRET_RUNTIME_ERROR vm1
        else
          match pop vm1 with
          | none => step_t.undefined
          | some (w, vm2) =>
            match push vm2 (vo.NUMBER_VAL (-vo.AS_NUMBER w)) with
            | none => step_t.undefined
            | some vm3 => step_t.next vm3
    else if instruction = oc.OP_RETURN then
      match pop vm with
      | none => step_t.undefined
      | some (v, vm1) => step_t.returned INTERPRET_OK { vm1 with out := vm1.out ++ [v] }
    else step_t.next vm

/-- Outcome of `run`: the result it returns with the machine it leaves, undefined behaviour, or
the fuel given to the loop used up. -/
inductive run_t (V : Type)
  | returned (result : interpret_result_t) (vm : vm_t V)
  | undefined
  | out_of_fuel
  deriving DecidableEq, Repr

/-- The loop of `run`, at most `fuel` iterations of it. -/
def run {V D : Type} [Add D] [Sub D] [Mul D] [Div D] [Neg D] (oc : op_code_t)
    (vo : value_ops V D) : Nat → vm_t V → run_t V
  | 0, _ => run_t.out_of_fuel
  | fuel + 1, vm =>
    match step oc vo vm with
    | step_t.next vm1 => run oc vo fuel vm1
    | step_t.returned result vm1 => run_t.returned result vm1
    | step_t.undefined => run_t.undefined

/-- The machine with which `interpret` enters `run`: the compiled chunk bound and `ip` at its
first byte; nothing when `compile` fails.  Modelled from the spec: `compiler.c` is missing, and
`compile` is a parameter that gives the chunk of a source that compiles. -/
def interpret_entry {V : Type} (compile : List Int → Option (chunk_t V)) (vm : vm_t V)
    (source : List Int) : Option (vm_t V) :=
  match compile source with
  | none => none
  | some chunk => some { vm with chunk := chunk, ip := 0 }

def interpret {V D : Type} [Add D] [Sub D] [Mul D] [Div D] [Neg D] (oc : op_code_t)
    (vo : value_ops V D) (compile : List Int → Option (chunk_t V)) (fuel : Nat) (vm : vm_t V)
    (source : List Int) : run_t V :=
  match interpret_entry compile vm source with
  | none => run_t.returned INTERPRET_COMPILE_ERROR vm
  | some vm1 => run oc vo fuel vm1

/-- The machine that starts on `chunk` with an empty stack: `init_vm` has reset the stack and
`interpret` has bound the chunk and set `ip` to its first byte. -/
def start_vm {V : Type} (chunk : chunk_t V) : vm_t V :=
  { chunk := chunk, ip := 0, stack := [], out := [], err := [] }

/-- The chunk `CONSTANT 0, CONSTANT 1, OP, RETURN` with the constant pool `[a, b]`. -/
def binary_chunk {V D : Type} (oc : op_code_t) (vo : value_ops V D) (op : Nat)
    (lines : List Int) (a b : D) : chunk_t V :=
  { code := [oc.OP_CONSTANT, 0, oc.OP_CONSTANT, 1, op, oc.OP_RETURN], lines := lines,
    constants := [vo.NUMBER_VAL a, vo.NUMBER_VAL b] }

/-- The machine `run` leaves after the chunk `binary_chunk`: cursor behind `RETURN`, stack
empty, the one value `v` printed. -/
def binary_final {V D : Type} (vo : value_ops V D) (chunk : chunk_t V) (v : D) : vm_t V :=
  { chunk := chunk, ip := 6, stack := [], out := [vo.NUMBER_VAL v], err := [] }

end VM

namespace Debug

open VM

def simple_instruction (offset : Nat) : Nat := offset + 1

/-- The function `constant_instruction`: it reads the operand byte behind the opcode and the
constant the operand names, and returns the offset behind the operand; nothing is defined when
one of the two reads falls outside `code` or `constants`. -/
def constant_instruction {V : Type} (chunk : chunk_t V) (offset : Nat) : Option Nat :=
  match chunk.code.get? (offset + 1) with
  | none => none
  | some constant =>
    match chunk.constants.get? constant with
    | none => none
    | some _ => some (offset + 2)

/-- The function `disassemble_instruction`, as far as the offset it returns goes (what it
prints is left out): it reads the line and the byte at `offset` and returns the offset of the
next instruction; nothing is defined when a read falls outside the chunk's arrays. -/
def disassemble_instruction {V : Type} (oc : op_code_t) (chunk : chunk_t V) (offset : Nat) :
    Option Nat :=
  match chunk.lines.get? offset with
  | none => none
  | some _ =>
    match chunk.code.get? offset with
    | none => none
    | some instruction =>
      if instruction = oc.OP_RETURN then some (simple_instruction offset)
      else if instruction = oc.OP_ADD then some (simple_instruction offset)
      else if instruction = oc.OP_SUBTRACT then some (simple_instruction offset)
      else if instruction = oc.OP_MULTIPLY then some (simple_instruction offset)
      else if instruction = oc.OP_DIVIDE then some (simple_instruction offset)
      else if instruction = oc.OP_CONSTANT then constant_instruction chunk offset
      else if instruction = oc.OP_NEGATE then some (simple_instruction offset)
      else some (offset + 1)

/-- Outcome of the walk of `disassemble_chunk`: the spans `(offset, next)` it visited and the
offset at which the loop ended, undefined behaviour, or the fuel used up. -/
inductive walk_t
  | finished (visited : List (Nat × Nat)) (offset : Nat)
  | undefined
  | out_of_fuel
  deriving DecidableEq, Repr

/-- The loop `for (int offset = 0; offset < chunk->count;)` of `disassemble_chunk`, from
`offset` on, at most `fuel` iterations. -/
def disassemble_loop {V : Type} (oc : op_code_t) (chunk : chunk_t V) :
    Nat → Nat → List (Nat × Nat) → walk_t
  | 0, _, _ => walk_t.out_of_fuel
  | fuel + 1, offset, visited =>
    if offset < chunk.code.length then
      match disassemble_instruction oc chunk offset with
      | none => walk_t.undefined
      | some next => disassemble_loop oc chunk fuel next (visited ++ [(offset, next)])
    else walk_t.finished visited offset

def disassemble_chunk {V : Type} (oc : op_code_t) (chunk : chunk_t V) (fuel : Nat) : walk_t :=
  disassemble_loop oc chunk fuel 0 []

/-- An instruction as the compiler emits it: `CONSTANT` with its operand byte, or a single
byte that is not `CONSTANT`. -/
inductive instruction_t
  | constant (index : Nat)
  | simple (byte : Nat)
  deriving DecidableEq, Repr

/-- The bytes of an instruction. -/
def encode (oc : op_code_t) : instruction_t → List Nat
  | instruction_t.constant index => [oc.OP_CONSTANT, index]
  | instruction_t.simple byte => [byte]

/-- The code of a sequence of instructions. -/
def assemble (oc : op_code_t) : List instruction_t → List Nat
  | [] => []
  | i :: rest => encode oc i ++ assemble oc rest

/-- The instruction fits the chunk's constant pool: a `CONSTANT` names a constant of the pool,
and a single byte is not the opcode `CONSTANT`. -/
def instruction_ok (oc : op_code_t) (pool : Nat) : instruction_t → Prop
  | instruction_t.constant index => index < pool
  | instruction_t.simple byte => byte ≠ oc.OP_CONSTANT

/-- The spans of the instructions of a sequence that begins at `offset`. -/
def spans (oc : op_code_t) : Nat → List instruction_t → List (Nat × Nat)
  | _, [] => []
  | offset, i :: rest =>
    (offset, offset + (encode oc i).length) :: spans oc (offset + (encode oc i).length) rest

end Debug

/-! ## The execution loop -/

namespace VM

open interpret_result_t

theorem op_code_ne (oc : op_code_t) :
    (oc.OP_CONSTANT ≠ oc.OP_ADD ∧ oc.OP_CONSTANT ≠ oc.OP_SUBTRACT
      ∧ oc.OP_CONSTANT ≠ oc.OP_MULTIPLY ∧ oc.OP_CONSTANT ≠ oc.OP_DIVIDE
      ∧ oc.OP_CONSTANT ≠ oc.OP_NEGATE ∧ oc.OP_CONSTANT ≠ oc.OP_RETURN)
    ∧ (oc.OP_ADD ≠ oc.OP_SUBTRACT ∧ oc.OP_ADD ≠ oc.OP_MULTIPLY ∧ oc.OP_ADD ≠ oc.OP_DIVIDE
      ∧ oc.OP_ADD ≠ oc.OP_NEGATE ∧ oc.OP_ADD ≠ oc.OP_RETURN)
    ∧ (oc.OP_SUBTRACT ≠ oc.OP_MULTIPLY ∧ oc.OP_SUBTRACT ≠ oc.OP_DIVIDE
      ∧ oc.OP_SUBTRACT ≠ oc.OP_NEGATE ∧ oc.OP_SUBTRACT ≠ oc.OP_RETURN)
    ∧ (oc.OP_MULTIPLY ≠ oc.OP_DIVIDE ∧ oc.OP_MULTIPLY ≠ oc.OP_NEGATE
      ∧ oc.OP_MULTIPLY ≠ oc.OP_RETURN)
    ∧ (oc.OP_DIVIDE ≠ oc.OP_NEGATE ∧ oc.OP_DIVIDE ≠ oc.OP_RETURN)
    ∧ oc.OP_NEGATE ≠ oc.OP_RETURN := by
  have hd := oc.distinct
  simp only [List.nodup_cons, List.mem_cons, List.mem_singleton, not_or, List.not_mem_nil,
    not_false_eq_true, List.nodup_nil, and_true] at hd
  exact hd

/-- C1: for all numbers `a`, `b` the chunk `CONSTANT 0, CONSTANT 1, OP, RETURN` with constants
`[a, b]`, run from an empty stack with at least four iterations of fuel, returns
`INTERPRET_OK` and prints exactly `a OP b` (`a`, popped second, on the left) for `OP` one of
`ADD`, `SUBTRACT`, `MULTIPLY`, `DIVIDE`, whatever the arithmetic of the number type, the
representation of the values and the numbering of the opcodes; with exact arithmetic the
constants `[2, 3]` and `ADD` print `5`. -/
theorem run_binary_chunk (oc : op_code_t) {V D : Type} [Add D] [Sub D] [Mul D] [Div D] [Neg D]
    (vo : value_ops V D) (a b : D) (lines : List Int) (fuel : Nat) :
    run oc vo (fuel + 4) (start_vm (binary_chunk oc vo oc.OP_ADD lines a b))
        = run_t.returned INTERPRET_OK
            (binary_final vo (binary_chunk oc vo oc.OP_ADD lines a b) (a + b))
    ∧ run oc vo (fuel + 4) (start_vm (binary_chunk oc vo oc.OP_SUBTRACT lines a b))
        = run_t.returned INTERPRET_OK
            (binary_final vo (binary_chunk oc vo oc.OP_SUBTRACT lines a b) (a - b))
    ∧ run oc vo (fuel + 4) (start_vm (binary_chunk oc vo oc.OP_MULTIPLY lines a b))
        = run_t.returned INTERPRET_OK
            (binary_final vo (binary_chunk oc vo oc.OP_MULTIPLY lines a b) (a * b))
    ∧ run oc vo (fuel + 4) (start_vm (binary_chunk oc vo oc.OP_DIVIDE lines a b))
        = run_t.returned INTERPRET_OK
            (binary_final vo (binary_chunk oc vo oc.OP_DIVIDE lines a b) (a / b))
    ∧ run oc (number_values ℚ) (fuel + 4)
          (start_vm (binary_chunk oc (number_values ℚ) oc.OP_ADD lines 2 3))
        = run_t.returned INTERPRET_OK
            (binary_final (number_values ℚ)
              (binary_chunk oc (number_values ℚ) oc.OP_ADD lines 2 3) 5) := by
  obtain ⟨⟨h1, h2, h3, h4, h5, h6⟩, ⟨h7, h8, h9, h10, h11⟩, ⟨h12, h13, h14, h15⟩,
    ⟨h16, h17, h18⟩, ⟨h19, h20⟩, h21⟩ := op_code_ne oc
  refine ⟨?_, ?_, ?_, ?_, ?_⟩
  · simp [run, step, start_vm, binary_chunk, binary_final, READ_BYTE, READ_CONSTANT, push,
      pop, peek, BINARY_OP, STACK_MAX, vo.is_number_val, vo.as_number_val, *, Ne.symm]
  · simp [run, step, start_vm, binary_chunk, binary_final, READ_BYTE, READ_CONSTANT, push,
      pop, peek, BINARY_OP, STACK_MAX, vo.is_number_val, vo.as_number_val, *, Ne.symm]
  · simp [run, step, start_vm, binary_chunk, binary_final, READ_BYTE, READ_CONSTANT, push,
      pop, peek, BINARY_OP, STACK_MAX, vo.is_number_val, vo.as_number_val, *, Ne.symm]
  · simp [run, step, start_vm, binary_chunk, binary_final, READ_BYTE, READ_CONSTANT, push,
      pop, peek, BINARY_OP, STACK_MAX, vo.is_number_val, vo.as_number_val, *, Ne.symm]
  · simp [run, step, start_vm, binary_chunk, binary_final, READ_BYTE, READ_CONSTANT, push,
      pop, peek, BINARY_OP, STACK_MAX, number_values, IS_NUMBER, AS_NUMBER, NUMBER_VAL, *,
      Ne.symm]
    norm_num

theorem op_code_mem (oc : op_code_t) (b : Nat)
    (hb : b ∉ [oc.OP_CONSTANT, oc.OP_ADD, oc.OP_SUBTRACT, oc.OP_MULTIPLY, oc.OP_DIVIDE,
      oc.OP_NEGATE, oc.OP_RETURN]) :
    b ≠ oc.OP_CONSTANT ∧ b ≠ oc.OP_ADD ∧ b ≠ oc.OP_SUBTRACT ∧ b ≠ oc.OP_MULTIPLY
      ∧ b ≠ oc.OP_DIVIDE ∧ b ≠ oc.OP_NEGATE ∧ b ≠ oc.OP_RETURN := by
  simpa only [List.mem_cons, List.mem_singleton, List.not_mem_nil, or_false, not_or] using hb

/-- C12 on the code: `NEGATE` pops twice.  The chunk `CONSTANT 0, CONSTANT 1, NEGATE, RETURN`
with constants `[a, b]` prints `-a`, not `-b`, and returns with an empty stack: the first
`pop()` takes `b` for the type check, the second takes `a`, and `-a` is pushed in place of
both.  With one value on the stack (`CONSTANT 0, NEGATE, RETURN`) the second `pop()` goes
below the stack base. -/
theorem run_negate_chunk (oc : op_code_t) {V D : Type} [Add D] [Sub D] [Mul D] [Div D] [Neg D]
    (vo : value_ops V D) (a b : D) (lines : List Int) (fuel : Nat) :
    run oc vo (fuel + 4)
        (start_vm ⟨[oc.OP_CONSTANT, 0, oc.OP_CONSTANT, 1, oc.OP_NEGATE, oc.OP_RETURN], lines,
          [vo.NUMBER_VAL a, vo.NUMBER_VAL b]⟩)
      = run_t.returned INTERPRET_OK
          ⟨⟨[oc.OP_CONSTANT, 0, oc.OP_CONSTANT, 1, oc.OP_NEGATE, oc.OP_RETURN], lines,
            [vo.NUMBER_VAL a, vo.NUMBER_VAL b]⟩, 6, [], [vo.NUMBER_VAL (-a)], []⟩
    ∧ run oc vo (fuel + 2)
        (start_vm ⟨[oc.OP_CONSTANT, 0, oc.OP_NEGATE, oc.OP_RETURN], lines, [vo.NUMBER_VAL a]⟩)
      = run_t.undefined := by
  obtain ⟨⟨h1, h2, h3, h4, h5, h6⟩, ⟨h7, h8, h9, h10, h11⟩, ⟨h12, h13, h14, h15⟩,
    ⟨h16, h17, h18⟩, ⟨h19, h20⟩, h21⟩ := op_code_ne oc
  constructor
  · simp [run, step, start_vm, READ_BYTE, READ_CONSTANT, push, pop, STACK_MAX,
      vo.is_number_val, vo.as_number_val, *, Ne.symm]
  · simp [run, step, start_vm, READ_BYTE, READ_CONSTANT, push, pop, STACK_MAX,
      vo.is_number_val, vo.as_number_val, *, Ne.symm]

/-- The chunk `CONSTANT 0, CONSTANT 1, NEGATE, RETURN` with the constants `7` and nil, run
from an empty stack: `NEGATE` finds nil on top and `run` returns `INTERPRET_RUNTIME_ERROR`
with nothing written to `stderr` and the `7` still on the stack. -/
theorem run_negate_keeps_stack :
    run listed_op_codes nil_values 5
        (start_vm ⟨[0, 0, 0, 1, 5, 6], [1, 1, 1, 1, 1, 1], [some 7, none]⟩)
      = run_t.returned INTERPRET_RUNTIME_ERROR
          ⟨⟨[0, 0, 0, 1, 5, 6], [1, 1, 1, 1, 1, 1], [some 7, none]⟩, 5, [some 7], [], []⟩ := by
  decide

/-- C13: a type error in `ADD`, `SUBTRACT`, `MULTIPLY` or `DIVIDE` is reported and resets the
stack; a type error in `NEGATE` is not reported and does not reset it.  When the loop is at one
of the four binary opcodes, the line table covers the instruction, and the top of the stack is
no number, or the stack holds two values and the second is no number, `run` returns
`INTERPRET_RUNTIME_ERROR` with the message `Operands must be numbers.` written and the value
stack empty.  When the loop is at `NEGATE` and the top of the stack is no number, `run` returns
`INTERPRET_RUNTIME_ERROR` with that value popped and nothing else done: no message is written
and the values below it stay on the stack. -/
theorem run_type_error (oc : op_code_t) {V D : Type} [Add D] [Sub D] [Mul D] [Div D] [Neg D]
    (vo : value_ops V D) (vm : vm_t V) (fuel : Nat) :
    (∀ op line, op ∈ [oc.OP_ADD, oc.OP_SUBTRACT, oc.OP_MULTIPLY, oc.OP_DIVIDE] →
      vm.chunk.code.get? vm.ip = some op → vm.chunk.lines.get? vm.ip = some line →
      ((∃ v0 rest, vm.stack = v0 :: rest ∧ vo.IS_NUMBER v0 = false)
        ∨ (∃ v0 v1 rest, vm.stack = v0 :: v1 :: rest ∧ vo.IS_NUMBER v1 = false)) →
      run oc vo (fuel + 1) vm
        = run_t.returned INTERPRET_RUNTIME_ERROR
            { vm with ip := vm.ip + 1, stack := [],
                      err := vm.err ++ [("Operands must be numbers.", line)] })
    ∧ (∀ v rest, vm.chunk.code.get? vm.ip = some oc.OP_NEGATE → vm.stack = v :: rest →
        vo.IS_NUMBER v = false →
        run oc vo (fuel + 1) vm
          = run_t.returned INTERPRET_RUNTIME_ERROR { vm with ip := vm.ip + 1, stack := rest }) := by
  obtain ⟨⟨h1, h2, h3, h4, h5, h6⟩, ⟨h7, h8, h9, h10, h11⟩, ⟨h12, h13, h14, h15⟩,
    ⟨h16, h17, h18⟩, ⟨h19, h20⟩, h21⟩ := op_code_ne oc
  constructor
  · intro op line hop hcode hline hstack
    have hline1 : vm.chunk.lines[vm.ip]? = some line := by simpa using hline
    have hcode1 : vm.chunk.code[vm.ip]? = some op := by simpa using hcode
    have hbin : ∀ f : D → D → D,
        BINARY_OP vo f { vm with ip := vm.ip + 1 }
          = step_t.returned INTERPRET_RUNTIME_ERROR
              { vm with ip := vm.ip + 1, stack := [],
                        err := vm.err ++ [("Operands must be numbers.", line)] } := by
      intro f
      rcases hstack with ⟨v0, rest, hs, hn⟩ | ⟨v0, v1, rest, hs, hn⟩
      · simp [BINARY_OP, peek, hs, hn, runtime_error, hline1, reset_stack]
      · by_cases h0 : vo.IS_NUMBER v0 = true
        · simp [BINARY_OP, peek, hs, hn, h0, runtime_error, hline1, reset_stack]
        · simp [BINARY_OP, peek, hs, h0, runtime_error, hline1, reset_stack]
    simp only [List.mem_cons, List.mem_singleton, List.not_mem_nil, or_false] at hop
    rcases hop with rfl | rfl | rfl | rfl <;>
      simp [run, step, READ_BYTE, hcode1, hbin, *, Ne.symm]
  · intro v rest hcode hs hn
    have hcode1 : vm.chunk.code[vm.ip]? = some oc.OP_NEGATE := by simpa using hcode
    simp [run, step, READ_BYTE, hcode1, pop, hs, hn, *, Ne.symm]

/-- C13 on the constants `7` and nil: at the `NEGATE` of `CONSTANT 0, CONSTANT 1, NEGATE,
RETURN` the run returns `INTERPRET_RUNTIME_ERROR` with the `7` left on the stack and no
message; at the `ADD` of `CONSTANT 0, CONSTANT 1, ADD, RETURN` it returns it with the message
written and the stack empty. -/
theorem run_type_error_witness :
    ([0, 0, 0, 1, 5, 6].get? 4 = some listed_op_codes.OP_NEGATE
      ∧ nil_values.IS_NUMBER none = false
      ∧ run listed_op_codes nil_values 1
          ⟨⟨[0, 0, 0, 1, 5, 6], [1, 1, 1, 1, 2, 2], [some 7, none]⟩, 4, [none, some 7], [], []⟩
        = run_t.returned INTERPRET_RUNTIME_ERROR
            ⟨⟨[0, 0, 0, 1, 5, 6], [1, 1, 1, 1, 2, 2], [some 7, none]⟩, 5, [some 7], [], []⟩)
    ∧ (listed_op_codes.OP_ADD ∈ [listed_op_codes.OP_ADD, listed_op_codes.OP_SUBTRACT,
          listed_op_codes.OP_MULTIPLY, listed_op_codes.OP_DIVIDE]
      ∧ [0, 0, 0, 1, 1, 6].get? 4 = some listed_op_codes.OP_ADD
      ∧ [1, 1, 1, 1, 2, 2].get? 4 = some (2 : Int)
      ∧ run listed_op_codes nil_values 1
          ⟨⟨[0, 0, 0, 1, 1, 6], [1, 1, 1, 1, 2, 2], [some 7, none]⟩, 4, [none, some 7], [], []⟩
        = run_t.returned INTERPRET_RUNTIME_ERROR
            ⟨⟨[0, 0, 0, 1, 1, 6], [1, 1, 1, 1, 2, 2], [some 7, none]⟩, 5, [], [],
              [("Operands must be numbers.", 2)]⟩) :=
  ⟨⟨by decide, rfl,
      (run_type_error listed_op_codes nil_values
        ⟨⟨[0, 0, 0, 1, 5, 6], [1, 1, 1, 1, 2, 2], [some 7, none]⟩, 4, [none, some 7], [], []⟩
        0).2 none [some 7] rfl rfl rfl⟩,
    ⟨by decide, by decide, by decide,
      (run_type_error listed_op_codes nil_values
        ⟨⟨[0, 0, 0, 1, 1, 6], [1, 1, 1, 1, 2, 2], [some 7, none]⟩, 4, [none, some 7], [], []⟩
        0).1 listed_op_codes.OP_ADD 2 (by decide) rfl rfl (Or.inl ⟨none, [some 7], rfl, rfl⟩)⟩⟩

/-- C14 as stated fails: `interpret` binds the chunk and resets the cursor, not the stack.  The
chunk `CONSTANT 0, CONSTANT 0, RETURN` returns `INTERPRET_OK` and leaves a value on the stack,
and the next cycle enters `run` with that value still on the stack. -/
theorem interpret_keeps_stack :
    run listed_op_codes (number_values Int) 3
        (start_vm ⟨[0, 0, 0, 0, 6], [1, 1, 1, 1, 1], [value_t.number 1]⟩)
      = run_t.returned INTERPRET_OK
          ⟨⟨[0, 0, 0, 0, 6], [1, 1, 1, 1, 1], [value_t.number 1]⟩, 5, [value_t.number 1],
            [value_t.number 1], []⟩
    ∧ interpret_entry (fun _ => some ⟨[0, 0, 6], [1, 1, 1], [value_t.number 2]⟩)
        ⟨⟨[0, 0, 0, 0, 6], [1, 1, 1, 1, 1], [value_t.number 1]⟩, 5, [value_t.number 1],
          [value_t.number 1], []⟩ (cstr "2")
      = some ⟨⟨[0, 0, 6], [1, 1, 1], [value_t.number 2]⟩, 0, [value_t.number (1 : Int)],
          [value_t.number 1], []⟩ := by
  decide

/-- C14 as amended: for every prior machine and every source that compiles, `interpret`
enters `run` with the compiled chunk bound, the cursor at the chunk's first byte and the value
stack as the prior machine left it; the stack is empty when the prior stack was empty, as it
is after `init_vm`. -/
theorem interpret_entry_state {V : Type} (compile : List Int → Option (chunk_t V))
    (vm : vm_t V) (source : List Int) (chunk : chunk_t V) (h : compile source = some chunk) :
    interpret_entry compile vm source = some { vm with chunk := chunk, ip := 0 }
    ∧ (vm.stack = [] →
        ∃ vm1, interpret_entry compile vm source = some vm1 ∧ vm1.ip = 0 ∧ vm1.stack = [])
    ∧ ∃ vm1, interpret_entry compile (init_vm vm) source = some vm1 ∧ vm1.chunk = chunk
        ∧ vm1.ip = 0 ∧ vm1.stack = [] := by
  have e : ∀ vm0 : vm_t V,
      interpret_entry compile vm0 source = some { vm0 with chunk := chunk, ip := 0 } := by
    intro vm0; simp [interpret_entry, h]
  exact ⟨e vm, fun hs => ⟨{ vm with chunk := chunk, ip := 0 }, e vm, rfl, hs⟩,
    ⟨{ init_vm vm with chunk := chunk, ip := 0 }, e (init_vm vm), rfl, rfl, rfl⟩⟩

/-- C14 as amended, with a compiler that compiles every source to `CONSTANT 0, RETURN`. -/
theorem interpret_entry_state_witness :
    (fun _ : List Int => some (⟨[0, 0, 6], [1, 1, 1], [value_t.number (2 : Int)]⟩ :
        chunk_t (value_t Int))) (cstr "2")
      = some ⟨[0, 0, 6], [1, 1, 1], [value_t.number 2]⟩
    ∧ interpret_entry (fun _ => some ⟨[0, 0, 6], [1, 1, 1], [value_t.number 2]⟩)
        ⟨⟨[], [], []⟩, 5, [value_t.number 1], [], []⟩ (cstr "2")
      = some ⟨⟨[0, 0, 6], [1, 1, 1], [value_t.number 2]⟩, 0, [value_t.number (1 : Int)], [],
          []⟩ :=
  ⟨rfl, (interpret_entry_state (fun _ => some ⟨[0, 0, 6], [1, 1, 1], [value_t.number 2]⟩)
    ⟨⟨[], [], []⟩, 5, [value_t.number 1], [], []⟩ (cstr "2") _ rfl).1⟩

/-- C15 as stated fails: the byte 255 is none of the seven opcodes, and the chunk
`255, CONSTANT 0, RETURN` ends in `INTERPRET_OK`: the loop skips the byte. -/
theorem run_unknown_byte_ok :
    run listed_op_codes (number_values Int) 3
        (start_vm ⟨[255, 0, 0, 6], [1, 1, 1, 1], [value_t.number 1]⟩)
      = run_t.returned INTERPRET_OK
          ⟨⟨[255, 0, 0, 6], [1, 1, 1, 1], [value_t.number 1]⟩, 4, [], [value_t.number 1],
            []⟩ := by
  decide

/-- C15 as amended: when the loop fetches a byte that is none of the seven opcodes, no arm of
the `switch` is taken: the iteration only moves the cursor behind the byte and the loop goes on
with the next byte; the chunk made of such a byte, `CONSTANT 0` and `RETURN` ends in
`INTERPRET_OK`. -/
theorem step_unknown_byte (oc : op_code_t) {V D : Type} [Add D] [Sub D] [Mul D] [Div D] [Neg D]
    (vo : value_ops V D) (b : Nat)
    (hb : b ∉ [oc.OP_CONSTANT, oc.OP_ADD, oc.OP_SUBTRACT, oc.OP_MULTIPLY, oc.OP_DIVIDE,
      oc.OP_NEGATE, oc.OP_RETURN]) :
    (∀ vm : vm_t V, vm.chunk.code.get? vm.ip = some b →
      step oc vo vm = step_t.next { vm with ip := vm.ip + 1 }
      ∧ ∀ fuel, run oc vo (fuel + 1) vm = run oc vo fuel { vm with ip := vm.ip + 1 })
    ∧ ∀ (v : V) (lines : List Int) (fuel : Nat),
        run oc vo (fuel + 3) (start_vm ⟨[b, oc.OP_CONSTANT, 0, oc.OP_RETURN], lines, [v]⟩)
          = run_t.returned INTERPRET_OK
              ⟨⟨[b, oc.OP_CONSTANT, 0, oc.OP_RETURN], lines, [v]⟩, 4, [], [v], []⟩ := by
  obtain ⟨b1, b2, b3, b4, b5, b6, b7⟩ := op_code_mem oc b hb
  obtain ⟨⟨h1, h2, h3, h4, h5, h6⟩, ⟨h7, h8, h9, h10, h11⟩, ⟨h12, h13, h14, h15⟩,
    ⟨h16, h17, h18⟩, ⟨h19, h20⟩, h21⟩ := op_code_ne oc
  constructor
  · intro vm hcode
    have hcode1 : vm.chunk.code[vm.ip]? = some b := by simpa using hcode
    have hstep : step oc vo vm = step_t.next { vm with ip := vm.ip + 1 } := by
      simp [step, READ_BYTE, hcode1, *]
    exact ⟨hstep, fun fuel => by simp [run, hstep]⟩
  · intro v lines fuel
    simp [run, step, start_vm, READ_BYTE, READ_CONSTANT, push, pop, STACK_MAX, *, Ne.symm]

/-- C15 as amended, on the byte 255 with the opcodes numbered as listed. -/
theorem step_unknown_byte_witness :
    (255 ∉ [listed_op_codes.OP_CONSTANT, listed_op_codes.OP_ADD, listed_op_codes.OP_SUBTRACT,
        listed_op_codes.OP_MULTIPLY, listed_op_codes.OP_DIVIDE, listed_op_codes.OP_NEGATE,
        listed_op_codes.OP_RETURN])
    ∧ run listed_op_codes (number_values Int) 3
        (start_vm ⟨[255, 0, 0, 6], [1, 1, 1, 1], [value_t.number 1]⟩)
      = run_t.returned INTERPRET_OK
          ⟨⟨[255, 0, 0, 6], [1, 1, 1, 1], [value_t.number 1]⟩, 4, [], [value_t.number 1],
            []⟩ :=
  ⟨by decide, (step_unknown_byte listed_op_codes (number_values Int) 255 (by decide)).2
    (value_t.number 1) [1, 1, 1, 1] 0⟩

end VM

/-! ## The scanner -/

namespace Scanner

open token_kind_t

/-! ### Reading the buffer -/

theorem getD_append_add (pre l : List Int) (i : Nat) :
    (pre ++ l).getD (pre.length + i) 0 = l.getD i 0 := by
  simp [List.getD_eq_getElem?_getD, List.getElem?_append_right]

theorem getD_append_len (pre l : List Int) :
    (pre ++ l).getD pre.length 0 = l.headD 0 := by
  have h := getD_append_add pre l 0
  simp only [Nat.add_zero] at h
  rw [h]
  cases l <;> rfl

theorem peek_at (s : scanner_t) (pre post : List Int) (hsrc : s.source = pre ++ post)
    (hcur : s.current = pre.length) : peek s = post.headD 0 := by
  simp only [peek, char_at, hsrc, hcur]
  exact getD_append_len pre post

theorem is_at_end_at (s : scanner_t) (pre post : List Int) (hsrc : s.source = pre ++ post)
    (hcur : s.current = pre.length) : is_at_end s = (post.headD 0 == 0) := by
  have h := peek_at s pre post hsrc hcur
  simp only [peek] at h
  simp only [is_at_end, h]

theorem peek_next_at (s : scanner_t) (pre post : List Int) (hsrc : s.source = pre ++ post)
    (hcur : s.current = pre.length) :
    peek_next s = if post.headD 0 = 0 then 0 else post.getD 1 0 := by
  have h1 := getD_append_add pre post 1
  simp only [peek_next, is_at_end_at s pre post hsrc hcur, beq_iff_eq, char_at, hsrc, hcur, h1]

theorem is_digit_bounds {c : Int} (h : is_digit c = true) : 48 ≤ c ∧ c ≤ 57 := by
  simpa [is_digit, ch] using h

/-! ### The loops on a known stretch of text -/

theorem digits_loop_run (body : List Int) :
    ∀ (s : scanner_t) (pre post : List Int) (fuel : Nat),
      s.source = pre ++ (body ++ post) → s.current = pre.length →
      (∀ c ∈ body, is_digit c = true) → is_digit (post.headD 0) = false →
      body.length ≤ fuel →
      digits_loop fuel s = { s with current := s.current + body.length } := by
  induction body with
  | nil =>
    intro s pre post fuel hsrc hcur _ hpost _
    cases fuel with
    | zero => rfl
    | succ k =>
      simp only [digits_loop, peek_at s pre post (by simpa using hsrc) hcur, hpost]
      rfl
  | cons c body ih =>
    intro s pre post fuel hsrc hcur hbody hpost hfuel
    cases fuel with
    | zero => simp at hfuel
    | succ k =>
      have hc : is_digit c = true := hbody c (List.mem_cons_self _ _)
      have h := ih (advance s).2 (pre ++ [c]) post k (by simp [advance, hsrc])
        (by simp [advance, hcur]) (fun d hd => hbody d (List.mem_cons_of_mem _ hd)) hpost
        (by simpa using hfuel)
      simp only [digits_loop, peek_at s pre (c :: body ++ post) (by simpa using hsrc) hcur,
        List.cons_append, List.headD_cons, hc, if_true, h]
      simp only [advance, List.length_cons, scanner_t.mk.injEq, true_and, and_true]
      omega

theorem skip_whitespace_loop_stop (s : scanner_t) (fuel : Nat)
    (h1 : peek s ≠ ch ' ') (h2 : peek s ≠ ch '\r') (h3 : peek s ≠ ch '\t')
    (h4 : peek s ≠ ch '\n') (h5 : peek s = ch '/' → peek_next s ≠ ch '/') :
    skip_whitespace_loop fuel s = s := by
  cases fuel with
  | zero => rfl
  | succ k =>
    simp only [skip_whitespace_loop, h1, h2, h3, h4, or_self, if_false]
    split
    · rename_i h
      simp [h5 h]
    · rfl

/-- What `scan_token` does once `skip_whitespace` has stopped in front of a digit. -/
theorem scan_token_of_digit (s : scanner_t) (h : is_digit (peek (skip_whitespace s)) = true) :
    scan_token s
      = number { skip_whitespace s with
          start := (skip_whitespace s).current, current := (skip_whitespace s).current + 1 } := by
  have hb := is_digit_bounds h
  have h0 : ¬ char_at (skip_whitespace s) (skip_whitespace s).current = 0 := by
    simp only [peek] at hb; omega
  simp only [peek] at h
  simp only [scan_token, is_at_end, char_at, advance, beq_iff_eq] at h0 ⊢
  simp only [char_at] at h
  simp only [h0, if_false, h, if_true]


theorem number_integer (s : scanner_t) (pre ds rest : List Int)
    (hsrc : s.source = pre ++ (ds ++ rest)) (hcur : s.current = pre.length)
    (hds : ∀ c ∈ ds, is_digit c = true) (hrest : is_digit (rest.headD 0) = false)
    (hfrac : ¬ (rest.headD 0 = ch '.' ∧ is_digit (rest.getD 1 0) = true)) :
    number s = (make_token { s with current := s.current + ds.length } TOKEN_NUMBER,
      { s with current := s.current + ds.length }) := by
  have hloop := digits_loop_run ds s pre rest (remaining s) hsrc hcur hds hrest
    (by simp [remaining, hsrc, hcur])
  have hsrc2 : ({ s with current := s.current + ds.length } : scanner_t).source
      = (pre ++ ds) ++ rest := by simp [hsrc]
  have hcur2 : ({ s with current := s.current + ds.length } : scanner_t).current
      = (pre ++ ds).length := by simp [hcur]
  have hpeek := peek_at _ _ _ hsrc2 hcur2
  have hnext := peek_next_at _ _ _ hsrc2 hcur2
  have hno : ¬ (rest.headD 0 = ch '.' ∧
      is_digit (if rest.headD 0 = 0 then 0 else rest.getD 1 0) = true) := by
    intro ⟨h0, h1⟩
    have : rest.headD 0 ≠ 0 := by rw [h0]; simp [ch]
    rw [if_neg this] at h1
    exact hfrac ⟨h0, h1⟩
  simp only [number, hloop, hpeek, hnext, Bool.and_eq_true, decide_eq_true_eq, hno, if_false]

theorem number_fraction (s : scanner_t) (pre ds fs rest : List Int)
    (hsrc : s.source = pre ++ (ds ++ ch '.' :: (fs ++ rest))) (hcur : s.current = pre.length)
    (hds : ∀ c ∈ ds, is_digit c = true) (hfs : ∀ c ∈ fs, is_digit c = true)
    (hne : fs ≠ []) (hrest : is_digit (rest.headD 0) = false) :
    number s = (make_token { s with current := s.current + ds.length + 1 + fs.length } TOKEN_NUMBER,
      { s with current := s.current + ds.length + 1 + fs.length }) := by
  obtain ⟨f, fs1, rfl⟩ := List.exists_cons_of_ne_nil hne
  have hf : is_digit f = true := hfs f (List.mem_cons_self _ _)
  have hloop := digits_loop_run ds s pre (ch '.' :: (f :: fs1 ++ rest)) (remaining s) hsrc hcur hds
    (by simp [is_digit, ch]) (by simp [remaining, hsrc, hcur])
  have hsrc2 : ({ s with current := s.current + ds.length } : scanner_t).source
      = (pre ++ ds) ++ (ch '.' :: (f :: fs1 ++ rest)) := by simp [hsrc]
  have hcur2 : ({ s with current := s.current + ds.length } : scanner_t).current
      = (pre ++ ds).length := by simp [hcur]
  have hpeek := peek_at _ _ _ hsrc2 hcur2
  have hnext := peek_next_at _ _ _ hsrc2 hcur2
  have hdot : ch '.' ≠ 0 := by decide
  simp only [List.headD_cons, hdot, if_false, List.cons_append, List.getD_cons_succ,
    List.getD_cons_zero] at hpeek hnext
  have hloop2 := digits_loop_run (f :: fs1)
    { s with current := s.current + ds.length + 1 } (pre ++ ds ++ [ch '.']) rest
    (remaining { s with current := s.current + ds.length + 1 })
    (by simp [hsrc]) (by simp [hcur]; omega) hfs hrest
    (by simp [remaining, hsrc, hcur]; omega)
  simp only [number, hloop, hpeek, hnext, hf, Bool.and_self, decide_True, if_true, advance,
    hloop2]


/-! ### Number literals -/

theorem takeWhile_digit_stop (l : List Int) (h : is_digit (l.headD 0) = false) :
    l.takeWhile is_digit = [] := by
  cases l with
  | nil => rfl
  | cons c l => simp only [List.headD_cons] at h; simp [List.takeWhile_cons, h]

theorem takeWhile_digits_append (ds rest : List Int) (hds : ∀ c ∈ ds, is_digit c = true)
    (hrest : is_digit (rest.headD 0) = false) :
    (ds ++ rest).takeWhile is_digit = ds := by
  rw [List.takeWhile_append_of_pos hds, takeWhile_digit_stop rest hrest, List.append_nil]

theorem dropWhile_digits_append (ds rest : List Int) (hds : ∀ c ∈ ds, is_digit c = true)
    (hrest : is_digit (rest.headD 0) = false) :
    (ds ++ rest).dropWhile is_digit = rest := by
  rw [List.dropWhile_append_of_pos hds]
  cases rest with
  | nil => rfl
  | cons c l => simp only [List.headD_cons] at hrest; simp [List.dropWhile_cons, hrest]

theorem is_number_literal_integer (ds : List Int) (hne : ds ≠ [])
    (hds : ∀ c ∈ ds, is_digit c = true) : is_number_literal ds = true := by
  have h1 := takeWhile_digits_append ds [] hds (by decide)
  have h2 := dropWhile_digits_append ds [] hds (by decide)
  simp only [List.append_nil] at h1 h2
  simp [is_number_literal, h1, h2, hne]

theorem is_number_literal_fraction (ds fs : List Int) (hne : ds ≠ [])
    (hds : ∀ c ∈ ds, is_digit c = true) (hfne : fs ≠ [])
    (hfs : ∀ c ∈ fs, is_digit c = true) : is_number_literal (ds ++ ch '.' :: fs) = true := by
  have h1 := takeWhile_digits_append ds (ch '.' :: fs) hds (by simp [is_digit, ch])
  have h2 := dropWhile_digits_append ds (ch '.' :: fs) hds (by simp [is_digit, ch])
  simp only [is_number_literal, h1, h2]
  simpa [hne, hfne] using hfs

theorem is_number_literal_shape (p : List Int) (h : is_number_literal p = true) :
    ∃ ip, ip ≠ [] ∧ (∀ c ∈ ip, is_digit c = true)
      ∧ (p = ip ∨ ∃ g, g ≠ [] ∧ (∀ c ∈ g, is_digit c = true) ∧ p = ip ++ ch '.' :: g) := by
  have hp : p.takeWhile is_digit ++ p.dropWhile is_digit = p :=
    List.takeWhile_append_dropWhile is_digit p
  refine ⟨p.takeWhile is_digit, ?_, fun c hc => List.mem_takeWhile_imp hc, ?_⟩
  · intro h0
    simp [is_number_literal, h0] at h
  · simp only [is_number_literal, Bool.and_eq_true, Bool.or_eq_true] at h
    rcases h.2 with h1 | h1
    · left
      have : p.dropWhile is_digit = [] := by simpa using h1
      rw [this, List.append_nil] at hp
      exact hp.symm
    · right
      cases hd : p.dropWhile is_digit with
      | nil => simp [hd] at h1
      | cons x g =>
        rw [hd] at h1 hp
        simp only [List.head?_cons, beq_iff_eq, Option.some.injEq, List.tail_cons,
          Bool.and_eq_true, Bool.not_eq_true', List.isEmpty_eq_false, List.all_eq_true] at h1
        obtain ⟨⟨hx, hg⟩, hall⟩ := h1
        refine ⟨g, ?_, hall, ?_⟩
        · intro h0; simp [h0] at hg
        · rw [← hx]; exact hp.symm

/-- A literal prefix of `ds ++ rest` is no longer than `ds` when no fraction follows `ds`. -/
theorem literal_le_integer (p q ds rest : List Int) (hpq : p ++ q = ds ++ rest)
    (hp : is_number_literal p = true)
    (hds : ∀ c ∈ ds, is_digit c = true) (hrest : is_digit (rest.headD 0) = false)
    (hfrac : ¬ (rest.headD 0 = ch '.' ∧ is_digit (rest.getD 1 0) = true)) :
    p.length ≤ ds.length := by
  obtain ⟨ip, hne, hip, hshape⟩ := is_number_literal_shape p hp
  have hT := takeWhile_digits_append ds rest hds hrest
  rcases hshape with rfl | ⟨g, hg, hgd, rfl⟩
  · rw [← hpq, List.takeWhile_append_of_pos hip] at hT
    rw [← hT]; simp
  · have hT2 := takeWhile_digits_append ip (ch '.' :: g ++ q) hip (by simp [is_digit, ch])
    have hD := dropWhile_digits_append ds rest hds hrest
    have hD2 := dropWhile_digits_append ip (ch '.' :: g ++ q) hip (by simp [is_digit, ch])
    have e : ip ++ ch '.' :: g ++ q = ip ++ (ch '.' :: g ++ q) := by simp
    rw [e] at hpq
    rw [hpq] at hT2 hD2
    rw [hD] at hD2
    obtain ⟨x, g1, rfl⟩ := List.exists_cons_of_ne_nil hg
    exfalso
    apply hfrac
    rw [hD2]
    exact ⟨rfl, hgd x (List.mem_cons_self _ _)⟩

/-- A literal prefix of `ds ++ '.' :: fs ++ rest` is no longer than `ds ++ '.' :: fs`. -/
theorem literal_le_fraction (p q ds fs rest : List Int)
    (hpq : p ++ q = ds ++ ch '.' :: (fs ++ rest)) (hp : is_number_literal p = true)
    (hds : ∀ c ∈ ds, is_digit c = true) (hfs : ∀ c ∈ fs, is_digit c = true)
    (hrest : is_digit (rest.headD 0) = false) :
    p.length ≤ ds.length + 1 + fs.length := by
  obtain ⟨ip, hne, hip, hshape⟩ := is_number_literal_shape p hp
  have hT := takeWhile_digits_append ds (ch '.' :: (fs ++ rest)) hds (by simp [is_digit, ch])
  rcases hshape with rfl | ⟨g, hg, hgd, rfl⟩
  · rw [← hpq, List.takeWhile_append_of_pos hip] at hT
    have := congrArg List.length hT
    simp at this; omega
  · have hT2 := takeWhile_digits_append ip (ch '.' :: g ++ q) hip (by simp [is_digit, ch])
    have hD := dropWhile_digits_append ds (ch '.' :: (fs ++ rest)) hds (by simp [is_digit, ch])
    have hD2 := dropWhile_digits_append ip (ch '.' :: g ++ q) hip (by simp [is_digit, ch])
    have e : ip ++ ch '.' :: g ++ q = ip ++ (ch '.' :: g ++ q) := by simp
    rw [e] at hpq
    rw [hpq] at hT2 hD2
    rw [hT] at hT2
    rw [hD] at hD2
    simp only [List.cons_append, List.cons.injEq, true_and] at hD2
    have hF := takeWhile_digits_append fs rest hfs hrest
    rw [hD2, List.takeWhile_append_of_pos hgd] at hF
    have := congrArg List.length hF
    simp at this
    simp [hT2]; omega

theorem scan_token_at_end (s : scanner_t) (h : s.source.length ≤ s.current) :
    scan_token s = (⟨TOKEN_EOF, char_ptr.source s.current, 0, s.line⟩,
      { s with start := s.current }) := by
  have hrem : remaining s = 0 := by simp [remaining]; omega
  have hsk : skip_whitespace s = s := by simp [skip_whitespace, hrem, skip_whitespace_loop]
  have hend : is_at_end { s with start := s.current } = true := by
    simp [is_at_end, char_at, List.getD_eq_getElem?_getD, List.getElem?_eq_none h]
  simp only [scan_token, hsk, hend, if_true, make_token, sub_self]


theorem dropWhile_head_not_digit (l : List Int) :
    is_digit ((l.dropWhile is_digit).headD 0) = false := by
  induction l with
  | nil => decide
  | cons c l ih =>
    by_cases hc : is_digit c = true
    · simpa [List.dropWhile_cons, hc] using ih
    · simp only [Bool.not_eq_true] at hc
      simp [List.dropWhile_cons, hc]

theorem skip_whitespace_digit (s : scanner_t) (h : is_digit (peek s) = true) :
    skip_whitespace s = s := by
  have hb := is_digit_bounds h
  apply skip_whitespace_loop_stop <;> simp [ch] <;> omega

/-- The first token of a source that begins with a digit, with the length `n` of its lexeme. -/
theorem scan_token_number (src : List Int) (h : is_digit (src.headD 0) = true) :
    ∃ n : Nat, n ≤ src.length
      ∧ scan_token (init_scanner src)
          = (⟨TOKEN_NUMBER, char_ptr.source 0, n, 1⟩, ⟨src, 0, n, 1⟩)
      ∧ is_number_literal (src.take n) = true
      ∧ ∀ p q, p ++ q = src → is_number_literal p = true → p.length ≤ n := by
  cases src with
  | nil => simp [is_digit, ch] at h
  | cons d tl =>
    simp only [List.headD_cons] at h
    have hpk : peek (init_scanner (d :: tl)) = d := rfl
    have hsk : skip_whitespace (init_scanner (d :: tl)) = init_scanner (d :: tl) :=
      skip_whitespace_digit _ (by rw [hpk]; exact h)
    have hscan := scan_token_of_digit (init_scanner (d :: tl)) (by rw [hsk, hpk]; exact h)
    rw [hsk] at hscan
    simp only [init_scanner, Nat.zero_add] at hscan
    have htl : tl.takeWhile is_digit ++ tl.dropWhile is_digit = tl :=
      List.takeWhile_append_dropWhile is_digit tl
    have hds1 : ∀ c ∈ tl.takeWhile is_digit, is_digit c = true :=
      fun c hc => List.mem_takeWhile_imp hc
    have hds : ∀ c ∈ d :: tl.takeWhile is_digit, is_digit c = true := by
      intro c hc
      rcases List.mem_cons.1 hc with rfl | hc
      · exact h
      · exact hds1 c hc
    have hrest := dropWhile_head_not_digit tl
    by_cases hfrac : (tl.dropWhile is_digit).headD 0 = ch '.'
        ∧ is_digit ((tl.dropWhile is_digit).getD 1 0) = true
    · -- a fraction follows the digits
      obtain ⟨hdot, hfd⟩ := hfrac
      cases hr : tl.dropWhile is_digit with
      | nil => rw [hr] at hdot; simp [ch] at hdot
      | cons x r1 =>
        rw [hr] at hdot hfd htl
        simp only [List.headD_cons] at hdot
        subst hdot
        cases r1 with
        | nil => simp [is_digit, ch] at hfd
        | cons f r2 =>
          simp only [List.getD_cons_succ, List.getD_cons_zero] at hfd
          have hfr : (f :: r2).takeWhile is_digit ++ (f :: r2).dropWhile is_digit = f :: r2 :=
            List.takeWhile_append_dropWhile is_digit (f :: r2)
          have hfs : ∀ c ∈ (f :: r2).takeWhile is_digit, is_digit c = true :=
            fun c hc => List.mem_takeWhile_imp hc
          have hfne : (f :: r2).takeWhile is_digit ≠ [] := by
            simp [List.takeWhile_cons, hfd]
          have hrest2 := dropWhile_head_not_digit (f :: r2)
          have hsrc : d :: tl = [d] ++ (tl.takeWhile is_digit
              ++ ch '.' :: ((f :: r2).takeWhile is_digit ++ (f :: r2).dropWhile is_digit)) := by
            rw [hfr]; simp [htl]
          have hnum := number_fraction ⟨d :: tl, 0, 1, 1⟩ [d] (tl.takeWhile is_digit)
            ((f :: r2).takeWhile is_digit) ((f :: r2).dropWhile is_digit) hsrc rfl hds1 hfs
            hfne hrest2
          have hsrc2 : d :: tl = (d :: tl.takeWhile is_digit)
              ++ ch '.' :: ((f :: r2).takeWhile is_digit ++ (f :: r2).dropWhile is_digit) := by
            rw [hsrc]; simp
          refine ⟨1 + (tl.takeWhile is_digit).length + 1
            + ((f :: r2).takeWhile is_digit).length, ?_, ?_, ?_, ?_⟩
          · have := congrArg List.length hsrc
            simp only [List.length_append, List.length_cons, List.length_nil] at this ⊢
            omega
          · simp only [init_scanner]
            rw [hscan, hnum]
            simp [make_token]
          · have : (d :: tl).take (1 + (tl.takeWhile is_digit).length + 1
                + ((f :: r2).takeWhile is_digit).length)
                = (d :: tl.takeWhile is_digit) ++ ch '.' :: (f :: r2).takeWhile is_digit := by
              conv_lhs => rw [hsrc2]
              have e : (d :: tl.takeWhile is_digit)
                  ++ ch '.' :: ((f :: r2).takeWhile is_digit ++ (f :: r2).dropWhile is_digit)
                  = ((d :: tl.takeWhile is_digit) ++ ch '.' :: (f :: r2).takeWhile is_digit)
                    ++ (f :: r2).dropWhile is_digit := by simp
              rw [e]
              apply List.take_left'
              simp; omega
            rw [this]
            exact is_number_literal_fraction _ _ (by simp) hds hfne hfs
          · intro p q hpq hp
            have := literal_le_fraction p q (d :: tl.takeWhile is_digit)
              ((f :: r2).takeWhile is_digit) ((f :: r2).dropWhile is_digit)
              (by rw [hpq]; exact hsrc2) hp hds hfs hrest2
            simp only [List.length_cons] at this
            omega
    · -- no fraction
      have hsrc : d :: tl = [d] ++ (tl.takeWhile is_digit ++ tl.dropWhile is_digit) := by
        simp [htl]
      have hnum := number_integer ⟨d :: tl, 0, 1, 1⟩ [d] (tl.takeWhile is_digit)
        (tl.dropWhile is_digit) hsrc rfl hds1 hrest hfrac
      have hsrc2 : d :: tl = (d :: tl.takeWhile is_digit) ++ tl.dropWhile is_digit := by
        simp [htl]
      refine ⟨1 + (tl.takeWhile is_digit).length, ?_, ?_, ?_, ?_⟩
      · have := congrArg List.length hsrc
        simp only [List.length_append, List.length_cons, List.length_nil] at this ⊢
        omega
      · simp only [init_scanner]
        rw [hscan, hnum]
        simp [make_token]
      · have : (d :: tl).take (1 + (tl.takeWhile is_digit).length)
            = d :: tl.takeWhile is_digit := by
          conv_lhs => rw [hsrc2]
          apply List.take_left'
          simp; omega
        rw [this]
        exact is_number_literal_integer _ (by simp) hds
      · intro p q hpq hp
        have := literal_le_integer p q (d :: tl.takeWhile is_digit) (tl.dropWhile is_digit)
          (by rw [hpq]; exact hsrc2) hp hds hrest hfrac
        simp only [List.length_cons] at this
        omega


theorem is_number_literal_head (src : List Int) (h : is_number_literal src = true) :
    is_digit (src.headD 0) = true := by
  obtain ⟨ip, hne, hip, hshape⟩ := is_number_literal_shape src h
  obtain ⟨d, ip1, rfl⟩ := List.exists_cons_of_ne_nil hne
  have hd := hip d (List.mem_cons_self _ _)
  rcases hshape with rfl | ⟨g, _, _, rfl⟩ <;> simpa using hd

/-- C2: for every source that begins with a decimal digit the first token is a `TOKEN_NUMBER`
that starts at offset 0 and whose lexeme is a prefix of the source of the form digits,
optionally `.` and digits, and is at least as long as every prefix of that form; the cursor
is left right behind it.  For every source that is itself of that form the scanner returns
one `TOKEN_NUMBER` spanning the whole source and then `TOKEN_EOF`. -/
theorem scan_number_literal (src : List Int) :
    (is_digit (src.headD 0) = true →
      (scan_token (init_scanner src)).1.kind = TOKEN_NUMBER
      ∧ (scan_token (init_scanner src)).1.start = char_ptr.source 0
      ∧ (scan_token (init_scanner src)).1.length
          = ((lexeme src (scan_token (init_scanner src)).1).length : Int)
      ∧ (scan_token (init_scanner src)).2.current
          = (lexeme src (scan_token (init_scanner src)).1).length
      ∧ lexeme src (scan_token (init_scanner src)).1 <+: src
      ∧ is_number_literal (lexeme src (scan_token (init_scanner src)).1) = true
      ∧ ∀ p, p <+: src → is_number_literal p = true →
          p.length ≤ (lexeme src (scan_token (init_scanner src)).1).length)
    ∧ (is_number_literal src = true →
        ∀ fuel, scan_all (fuel + 2) (init_scanner src)
          = [⟨TOKEN_NUMBER, char_ptr.source 0, src.length, 1⟩,
             ⟨TOKEN_EOF, char_ptr.source src.length, 0, 1⟩]) := by
  constructor
  · intro h
    obtain ⟨n, hn, hscan, hlit, hmax⟩ := scan_token_number src h
    have hlex : lexeme src ⟨TOKEN_NUMBER, char_ptr.source 0, n, 1⟩ = src.take n := by
      simp [lexeme]
    have hlen : (src.take n).length = n := by simp [hn]
    rw [hscan]
    simp only [hlex, hlen]
    refine ⟨trivial, trivial, trivial, trivial, List.take_prefix n src, hlit, ?_⟩
    rintro p ⟨q, hpq⟩ hp
    exact hmax p q hpq hp
  · intro hlit fuel
    obtain ⟨n, hn, hscan, -, hmax⟩ := scan_token_number src (is_number_literal_head src hlit)
    have hle := hmax src [] (by simp) hlit
    have hn2 : n = src.length := by omega
    subst hn2
    have hend := scan_token_at_end ⟨src, 0, src.length, 1⟩ (by simp)
    simp only at hend
    simp [scan_all, hscan, hend]

/-- C2 at the source `3.14`: the scanner returns a `TOKEN_NUMBER` of length 4, then
`TOKEN_EOF`. -/
theorem scan_number_literal_witness :
    is_digit ((cstr "3.14").headD 0) = true
    ∧ (scan_token (init_scanner (cstr "3.14"))).1.kind = TOKEN_NUMBER
    ∧ is_number_literal (cstr "3.14") = true
    ∧ scan_all 2 (init_scanner (cstr "3.14"))
      = [⟨TOKEN_NUMBER, char_ptr.source 0, 4, 1⟩, ⟨TOKEN_EOF, char_ptr.source 4, 0, 1⟩] :=
  ⟨by decide, ((scan_number_literal (cstr "3.14")).1 (by decide)).1, by decide,
    (scan_number_literal (cstr "3.14")).2 (by decide) 0⟩

/-! ### Identifiers, punctuation and operators -/

/-- What `is_alpha` accepts: the lower-case letters and every character from `'Z'` upwards
(the upper-case test reads `c >= 'A' && c >= 'Z'`). -/
theorem is_alpha_iff (c : Int) : is_alpha c = true ↔ (97 ≤ c ∧ c ≤ 122) ∨ 90 ≤ c := by
  simp only [is_alpha, ch, Bool.or_eq_true, Bool.and_eq_true, decide_eq_true_eq]
  constructor
  · rintro ((⟨h1, h2⟩ | ⟨h1, h2⟩) | h)
    · left; exact ⟨by simpa using h1, by simpa using h2⟩
    · right; simpa using h2
    · right; rw [h]; decide
  · rintro (⟨h1, h2⟩ | h)
    · left; left; exact ⟨by simpa using h1, by simpa using h2⟩
    · left; right
      have h65 : (65 : Int) ≤ c := by omega
      exact ⟨by simpa using h65, by simpa using h⟩

/-- C3 on the code: the identifier-shaped source `Forest` is not scanned as an identifier.
`is_alpha` rejects the upper-case `F`, so the first token is the error token
`Unexpected character.` and only one character is consumed; in `fooBar` the identifier ends
in front of the upper-case `B`. -/
theorem scan_uppercase_identifier :
    scan_token (init_scanner (cstr "Forest"))
      = (⟨TOKEN_ERROR, char_ptr.literal "Unexpected character.", 21, 1⟩,
          ⟨cstr "Forest", 0, 1, 1⟩)
    ∧ scan_token (init_scanner (cstr "fooBar"))
      = (⟨TOKEN_IDENTIFIER, char_ptr.source 0, 3, 1⟩, ⟨cstr "fooBar", 0, 3, 1⟩) := by
  constructor <;> decide

/-- C5 on the code: the one-character sources `{` and `}` are scanned as `TOKEN_IDENTIFIER`,
not as `TOKEN_LEFT_BRACE` and `TOKEN_RIGHT_BRACE`: both characters lie above `'Z'`, so
`is_alpha` accepts them before the `switch` is reached.  The other nine characters give their
own kind. -/
theorem scan_braces :
    scan_all 2 (init_scanner [ch '\x7b'])
      = [⟨TOKEN_IDENTIFIER, char_ptr.source 0, 1, 1⟩, ⟨TOKEN_EOF, char_ptr.source 1, 0, 1⟩]
    ∧ scan_all 2 (init_scanner [ch '\x7d'])
      = [⟨TOKEN_IDENTIFIER, char_ptr.source 0, 1, 1⟩, ⟨TOKEN_EOF, char_ptr.source 1, 0, 1⟩]
    ∧ ∀ p ∈ [(ch '(', TOKEN_LEFT_PAREN), (ch ')', TOKEN_RIGHT_PAREN),
        (ch ';', TOKEN_SEMICOLON), (ch ',', TOKEN_COMMA), (ch '.', TOKEN_DOT),
        (ch '-', TOKEN_MINUS), (ch '+', TOKEN_PLUS), (ch '/', TOKEN_SLASH),
        (ch '*', TOKEN_STAR)],
      scan_all 2 (init_scanner [p.1])
        = [⟨p.2, char_ptr.source 0, 1, 1⟩, ⟨TOKEN_EOF, char_ptr.source 1, 0, 1⟩] := by
  refine ⟨by decide, by decide, by decide⟩

/-- C9 on the code: the characters `[` and `~`, which are none of the characters the scanner
knows, do not give the error token: they lie above `'Z'`, `is_alpha` accepts them and they are
scanned as `TOKEN_IDENTIFIER`.  The characters `@` and `#` give the error token. -/
theorem scan_unexpected_character :
    scan_token (init_scanner (cstr "["))
      = (⟨TOKEN_IDENTIFIER, char_ptr.source 0, 1, 1⟩, ⟨cstr "[", 0, 1, 1⟩)
    ∧ scan_token (init_scanner (cstr "~"))
      = (⟨TOKEN_IDENTIFIER, char_ptr.source 0, 1, 1⟩, ⟨cstr "~", 0, 1, 1⟩)
    ∧ scan_token (init_scanner (cstr "@"))
      = (⟨TOKEN_ERROR, char_ptr.literal "Unexpected character.", 21, 1⟩, ⟨cstr "@", 0, 1, 1⟩)
    ∧ scan_token (init_scanner (cstr "#"))
      = (⟨TOKEN_ERROR, char_ptr.literal "Unexpected character.", 21, 1⟩,
          ⟨cstr "#", 0, 1, 1⟩) := by
  refine ⟨by decide, by decide, by decide, by decide⟩

theorem scan_token_two_char (c : Int) (one two : token_kind_t) (r : List Int)
    (hc : (c, one, two) ∈ [(ch '!', TOKEN_BANG, TOKEN_BANG_EQUAL),
      (ch '=', TOKEN_EQUAL, TOKEN_EQUAL_EQUAL), (ch '<', TOKEN_LESS, TOKEN_LESS_EQUAL),
      (ch '>', TOKEN_GREATER, TOKEN_GREATER_EQUAL)]) :
    scan_token (init_scanner (c :: ch '=' :: r))
      = (⟨two, char_ptr.source 0, 2, 1⟩, ⟨c :: ch '=' :: r, 0, 2, 1⟩) := by
  simp only [List.mem_cons, Prod.mk.injEq, List.mem_singleton, List.not_mem_nil, or_false] at hc
  rcases hc with ⟨rfl, rfl, rfl⟩ | ⟨rfl, rfl, rfl⟩ | ⟨rfl, rfl, rfl⟩ | ⟨rfl, rfl, rfl⟩ <;>
    simp [scan_token, skip_whitespace, skip_whitespace_loop, remaining, init_scanner, peek,
      peek_next, char_at, is_at_end, advance, is_digit, is_alpha, match_, make_token, ch]

theorem scan_token_one_char (c : Int) (one two : token_kind_t) (r : List Int)
    (hc : (c, one, two) ∈ [(ch '!', TOKEN_BANG, TOKEN_BANG_EQUAL),
      (ch '=', TOKEN_EQUAL, TOKEN_EQUAL_EQUAL), (ch '<', TOKEN_LESS, TOKEN_LESS_EQUAL),
      (ch '>', TOKEN_GREATER, TOKEN_GREATER_EQUAL)])
    (hr : r.head? ≠ some (ch '=')) :
    scan_token (init_scanner (c :: r))
      = (⟨one, char_ptr.source 0, 1, 1⟩, ⟨c :: r, 0, 1, 1⟩) := by
  simp only [List.mem_cons, Prod.mk.injEq, List.mem_singleton, List.not_mem_nil, or_false] at hc
  cases r with
  | nil =>
    rcases hc with ⟨rfl, rfl, rfl⟩ | ⟨rfl, rfl, rfl⟩ | ⟨rfl, rfl, rfl⟩ | ⟨rfl, rfl, rfl⟩ <;>
      simp [scan_token, skip_whitespace, skip_whitespace_loop, remaining, init_scanner, peek,
        peek_next, char_at, is_at_end, advance, is_digit, is_alpha, match_, make_token, ch]
  | cons x r =>
    simp [ch] at hr
    rcases hc with ⟨rfl, rfl, rfl⟩ | ⟨rfl, rfl, rfl⟩ | ⟨rfl, rfl, rfl⟩ | ⟨rfl, rfl, rfl⟩ <;>
      simp [scan_token, skip_whitespace, skip_whitespace_loop, remaining, init_scanner, peek,
        peek_next, char_at, is_at_end, advance, is_digit, is_alpha, match_, make_token, ch, hr]

/-- C6: for `c` one of `!`, `=`, `<`, `>` and every remainder `r`, the source `c`, `=`, `r`
gives the two-character token of `c` with length 2 and the cursor at offset 2; when `r` does
not begin with `=` (the empty `r` included) the source `c`, `r` gives the one-character token
of `c` with length 1 and leaves the cursor at offset 1, in front of `r`. -/
theorem scan_operator (c : Int) (one two : token_kind_t) (r : List Int)
    (hc : (c, one, two) ∈ [(ch '!', TOKEN_BANG, TOKEN_BANG_EQUAL),
      (ch '=', TOKEN_EQUAL, TOKEN_EQUAL_EQUAL), (ch '<', TOKEN_LESS, TOKEN_LESS_EQUAL),
      (ch '>', TOKEN_GREATER, TOKEN_GREATER_EQUAL)]) :
    scan_token (init_scanner (c :: ch '=' :: r))
      = (⟨two, char_ptr.source 0, 2, 1⟩, ⟨c :: ch '=' :: r, 0, 2, 1⟩)
    ∧ (r.head? ≠ some (ch '=') →
        scan_token (init_scanner (c :: r))
          = (⟨one, char_ptr.source 0, 1, 1⟩, ⟨c :: r, 0, 1, 1⟩)) :=
  ⟨scan_token_two_char c one two r hc, scan_token_one_char c one two r hc⟩

/-- C6 at `<` followed by `=x` and by `x`. -/
theorem scan_operator_witness :
    (ch '<', TOKEN_LESS, TOKEN_LESS_EQUAL) ∈ [(ch '!', TOKEN_BANG, TOKEN_BANG_EQUAL),
      (ch '=', TOKEN_EQUAL, TOKEN_EQUAL_EQUAL), (ch '<', TOKEN_LESS, TOKEN_LESS_EQUAL),
      (ch '>', TOKEN_GREATER, TOKEN_GREATER_EQUAL)]
    ∧ (cstr "x").head? ≠ some (ch '=')
    ∧ scan_token (init_scanner (cstr "<=x"))
      = (⟨TOKEN_LESS_EQUAL, char_ptr.source 0, 2, 1⟩, ⟨cstr "<=x", 0, 2, 1⟩)
    ∧ scan_token (init_scanner (cstr "<x"))
      = (⟨TOKEN_LESS, char_ptr.source 0, 1, 1⟩, ⟨cstr "<x", 0, 1, 1⟩) :=
  ⟨by decide, by decide,
    (scan_operator (ch '<') TOKEN_LESS TOKEN_LESS_EQUAL (cstr "x") (by decide)).1,
    (scan_operator (ch '<') TOKEN_LESS TOKEN_LESS_EQUAL (cstr "x") (by decide)).2 (by decide)⟩


/-! ### Keywords -/

theorem check_keyword_eq (s : scanner_t) (l : List Int)
    (hd : (s.current : Int) - (s.start : Int) = (l.length : Int))
    (hch : ∀ k, k < l.length → char_at s (s.start + k) = l.getD k 0)
    (a m : Nat) (rest : String) (K : token_kind_t) (hm : (cstr rest).length = m) :
    check_keyword s a m rest K
      = if l.length = a + m ∧ l.drop a = cstr rest then K else TOKEN_IDENTIFIER := by
  unfold check_keyword
  rw [hd]
  by_cases hl : l.length = a + m
  · have hl2 : (l.length : Int) = (a : Int) + (m : Int) := by rw [hl]; push_cast; rfl
    have hmem : memcmp_eq s (s.start + a) rest m = true ↔ l.drop a = cstr rest := by
      simp only [memcmp_eq, List.all_eq_true, List.mem_range, beq_iff_eq]
      constructor
      · intro h
        apply List.ext_getElem?
        intro i
        by_cases hi : i < m
        · have h1 := h i hi
          rw [Nat.add_assoc, hch (a + i) (by omega)] at h1
          have h2 : (l.drop a)[i]? = some (l.getD (a + i) 0) := by
            rw [List.getElem?_drop, List.getD_eq_getElem?_getD,
              List.getElem?_eq_getElem (by omega)]
            rfl
          have h3 : (cstr rest)[i]? = some ((cstr rest).getD i 0) := by
            rw [List.getD_eq_getElem?_getD, List.getElem?_eq_getElem (by omega)]
            rfl
          rw [h2, h3, h1]
        · rw [List.getElem?_eq_none (by simp; omega), List.getElem?_eq_none (by omega)]
      · intro h i hi
        rw [Nat.add_assoc, hch (a + i) (by omega), ← h]
        simp [List.getD_eq_getElem?_getD, List.getElem?_drop]
    by_cases hmm : memcmp_eq s (s.start + a) rest m = true
    · simp [hl2, hl, hmm, hmem.1 hmm]
    · have : ¬ l.drop a = cstr rest := fun h => hmm (hmem.2 h)
      simp [hl2, hl, hmm, this]
  · have hl2 : ¬ (l.length : Int) = (a : Int) + (m : Int) := by
      intro h; apply hl; exact_mod_cast h
    simp [hl, hl2]


theorem check_keyword_drop (s : scanner_t) (l : List Int)
    (hd : (s.current : Int) - (s.start : Int) = (l.length : Int))
    (hch : ∀ k, k < l.length → char_at s (s.start + k) = l.getD k 0)
    (a m : Nat) (rest : String) (K : token_kind_t) (hm : (cstr rest).length = m) :
    check_keyword s a m rest K
      = if a ≤ l.length ∧ l.drop a = cstr rest then K else TOKEN_IDENTIFIER := by
  rw [check_keyword_eq s l hd hch a m rest K hm]
  have : (l.length = a + m ∧ l.drop a = cstr rest) ↔ (a ≤ l.length ∧ l.drop a = cstr rest) := by
    constructor
    · rintro ⟨h1, h2⟩; exact ⟨by omega, h2⟩
    · rintro ⟨h1, h2⟩
      have := congrArg List.length h2
      rw [List.length_drop, hm] at this
      exact ⟨by omega, h2⟩
  simp only [this]

theorem classify_short (l : List Int) (h : l.length < 2) : classify l = TOKEN_IDENTIFIER := by
  have hne : ∀ sp : String, 2 ≤ (cstr sp).length → l ≠ cstr sp := by
    intro sp h2 he; rw [he] at h; omega
  simp only [classify]
  rw [if_neg (hne _ (by decide)), if_neg (hne _ (by decide)), if_neg (hne _ (by decide)),
    if_neg (hne _ (by decide)), if_neg (hne _ (by decide)), if_neg (hne _ (by decide)),
    if_neg (hne _ (by decide)), if_neg (hne _ (by decide)), if_neg (hne _ (by decide)),
    if_neg (hne _ (by decide)), if_neg (hne _ (by decide)), if_neg (hne _ (by decide)),
    if_neg (hne _ (by decide)), if_neg (hne _ (by decide)), if_neg (hne _ (by decide)),
    if_neg (hne _ (by decide))]

set_option maxHeartbeats 1000000 in
theorem identifier_type_classify (s : scanner_t) (l : List Int)
    (hd : (s.current : Int) - (s.start : Int) = (l.length : Int))
    (hch : ∀ k, k < l.length → char_at s (s.start + k) = l.getD k 0) :
    identifier_type s = classify l := by
  have ck := fun a m rest K hm => check_keyword_drop s l hd hch a m rest K hm
  unfold identifier_type
  simp only [ck 1 2 "nd" _ rfl, ck 1 4 "lass" _ rfl, ck 1 3 "lse" _ rfl, ck 2 3 "lse" _ rfl,
    ck 2 1 "r" _ rfl, ck 2 1 "n" _ rfl, ck 1 1 "f" _ rfl, ck 1 2 "il" _ rfl, ck 1 1 "r" _ rfl,
    ck 1 4 "rint" _ rfl, ck 1 5 "eturn" _ rfl, ck 1 4 "uper" _ rfl, ck 2 2 "is" _ rfl,
    ck 2 2 "ue" _ rfl, ck 1 2 "ar" _ rfl, ck 1 4 "hile" _ rfl, hd]
  match l, hch with
  | [], _ =>
    rw [classify_short [] (by simp)]
    simp
  | [c], _ =>
    rw [classify_short [c] (by simp)]
    simp [cstr]
  | c0 :: c1 :: l2, hch =>
    have h0 : char_at s s.start = c0 := by simpa using hch 0 (by simp)
    have h1 : char_at s (s.start + 1) = c1 := by simpa using hch 1 (by simp)
    simp only [h0, h1]
    by_cases ha : c0 = ch 'a'
    · subst ha; simp [classify, cstr, ch]
    by_cases hc : c0 = ch 'c'
    · subst hc; simp [classify, cstr, ch]
    by_cases he : c0 = ch 'e'
    · subst he; simp [classify, cstr, ch]
    by_cases hf : c0 = ch 'f'
    · subst hf
      by_cases h1a : c1 = ch 'a'
      · subst h1a; simp [classify, cstr, ch]
      by_cases h1o : c1 = ch 'o'
      · subst h1o; simp [classify, cstr, ch]
      by_cases h1u : c1 = ch 'u'
      · subst h1u; simp [classify, cstr, ch]
      simp [ch] at h1a h1o h1u
      simp [classify, cstr, ch, h1a, h1o, h1u]
    by_cases hi : c0 = ch 'i'
    · subst hi; simp [classify, cstr, ch]
    by_cases hn : c0 = ch 'n'
    · subst hn; simp [classify, cstr, ch]
    by_cases ho : c0 = ch 'o'
    · subst ho; simp [classify, cstr, ch]
    by_cases hp : c0 = ch 'p'
    · subst hp; simp [classify, cstr, ch]
    by_cases hr : c0 = ch 'r'
    · subst hr; simp [classify, cstr, ch]
    by_cases hs : c0 = ch 's'
    · subst hs; simp [classify, cstr, ch]
    by_cases ht : c0 = ch 't'
    · subst ht
      by_cases h1h : c1 = ch 'h'
      · subst h1h; simp [classify, cstr, ch]
      by_cases h1r : c1 = ch 'r'
      · subst h1r; simp [classify, cstr, ch]
      simp [ch] at h1h h1r
      simp [classify, cstr, ch, h1h, h1r]
    by_cases hv : c0 = ch 'v'
    · subst hv; simp [classify, cstr, ch]
    by_cases hw : c0 = ch 'w'
    · subst hw; simp [classify, cstr, ch]
    simp only [ha, hc, he, hf, hi, hn, ho, hp, hr, hs, ht, hv, hw, if_false]
    simp [ch] at ha hc he hf hi hn ho hp hr hs ht hv hw
    simp [classify, cstr, ch, ha, hc, he, hf, hi, hn, ho, hp, hr, hs, ht, hv, hw]

theorem identifier_type_backward (s : scanner_t)
    (h : (s.current : Int) - (s.start : Int) ≤ 0) : identifier_type s = TOKEN_IDENTIFIER := by
  have e2 : ¬ ((s.current : Int) - (s.start : Int) = 2) := by omega
  have e3 : ¬ ((s.current : Int) - (s.start : Int) = 3) := by omega
  have e4 : ¬ ((s.current : Int) - (s.start : Int) = 4) := by omega
  have e5 : ¬ ((s.current : Int) - (s.start : Int) = 5) := by omega
  have e6 : ¬ ((s.current : Int) - (s.start : Int) = 6) := by omega
  have h2 : ¬ ((s.current : Int) - (s.start : Int) > 1) := by omega
  simp [identifier_type, check_keyword, e2, e3, e4, e5, e6, h2]

theorem classify_cases (l : List Int) :
    classify l = TOKEN_IDENTIFIER
      ∨ ∃ K sp, keyword_spelling K = some sp ∧ l = cstr sp ∧ classify l = K := by
  unfold classify
  by_cases h0 : l = cstr "and"
  · rw [if_pos h0]; exact Or.inr ⟨TOKEN_AND, "and", rfl, h0, rfl⟩
  rw [if_neg h0]
  by_cases h1 : l = cstr "class"
  · rw [if_pos h1]; exact Or.inr ⟨TOKEN_CLASS, "class", rfl, h1, rfl⟩
  rw [if_neg h1]
  by_cases h2 : l = cstr "else"
  · rw [if_pos h2]; exact Or.inr ⟨TOKEN_ELSE, "else", rfl, h2, rfl⟩
  rw [if_neg h2]
  by_cases h3 : l = cstr "false"
  · rw [if_pos h3]; exact Or.inr ⟨TOKEN_FALSE, "false", rfl, h3, rfl⟩
  rw [if_neg h3]
  by_cases h4 : l = cstr "for"
  · rw [if_pos h4]; exact Or.inr ⟨TOKEN_FOR, "for", rfl, h4, rfl⟩
  rw [if_neg h4]
  by_cases h5 : l = cstr "fun"
  · rw [if_pos h5]; exact Or.inr ⟨TOKEN_FUN, "fun", rfl, h5, rfl⟩
  rw [if_neg h5]
  by_cases h6 : l = cstr "if"
  · rw [if_pos h6]; exact Or.inr ⟨TOKEN_IF, "if", rfl, h6, rfl⟩
  rw [if_neg h6]
  by_cases h7 : l = cstr "nil"
  · rw [if_pos h7]; exact Or.inr ⟨TOKEN_NIL, "nil", rfl, h7, rfl⟩
  rw [if_neg h7]
  by_cases h8 : l = cstr "or"
  · rw [if_pos h8]; exact Or.inr ⟨TOKEN_OR, "or", rfl, h8, rfl⟩
  rw [if_neg h8]
  by_cases h9 : l = cstr "print"
  · rw [if_pos h9]; exact Or.inr ⟨TOKEN_PRINT, "print", rfl, h9, rfl⟩
  rw [if_neg h9]
  by_cases h10 : l = cstr "return"
  · rw [if_pos h10]; exact Or.inr ⟨TOKEN_RETURN, "return", rfl, h10, rfl⟩
  rw [if_neg h10]
  by_cases h11 : l = cstr "super"
  · rw [if_pos h11]; exact Or.inr ⟨TOKEN_SUPER, "super", rfl, h11, rfl⟩
  rw [if_neg h11]
  by_cases h12 : l = cstr "this"
  · rw [if_pos h12]; exact Or.inr ⟨TOKEN_THIS, "this", rfl, h12, rfl⟩
  rw [if_neg h12]
  by_cases h13 : l = cstr "true"
  · rw [if_pos h13]; exact Or.inr ⟨TOKEN_TRUE, "true", rfl, h13, rfl⟩
  rw [if_neg h13]
  by_cases h14 : l = cstr "var"
  · rw [if_pos h14]; exact Or.inr ⟨TOKEN_VAR, "var", rfl, h14, rfl⟩
  rw [if_neg h14]
  by_cases h15 : l = cstr "while"
  · rw [if_pos h15]; exact Or.inr ⟨TOKEN_WHILE, "while", rfl, h15, rfl⟩
  rw [if_neg h15]
  exact Or.inl rfl

theorem classify_keyword (l : List Int) (K : token_kind_t) (sp : String)
    (h : keyword_spelling K = some sp) : classify l = K ↔ l = cstr sp := by
  constructor
  · intro hc
    rcases classify_cases l with h0 | ⟨K1, sp1, h1, h2, h3⟩
    · rw [hc] at h0
      rw [h0] at h
      simp [keyword_spelling] at h
    · rw [hc] at h3
      subst h3
      rw [h1] at h
      simp only [Option.some.injEq] at h
      rw [← h]; exact h2
  · intro hl
    subst hl
    cases K <;> simp only [keyword_spelling, Option.some.injEq, reduceCtorEq] at h <;>
      subst h <;> decide

theorem classify_other (l : List Int)
    (h : ∀ K sp, keyword_spelling K = some sp → l ≠ cstr sp) :
    classify l = TOKEN_IDENTIFIER := by
  unfold classify
  rw [if_neg (h TOKEN_AND _ rfl), if_neg (h TOKEN_CLASS _ rfl), if_neg (h TOKEN_ELSE _ rfl),
    if_neg (h TOKEN_FALSE _ rfl), if_neg (h TOKEN_FOR _ rfl), if_neg (h TOKEN_FUN _ rfl),
    if_neg (h TOKEN_IF _ rfl), if_neg (h TOKEN_NIL _ rfl), if_neg (h TOKEN_OR _ rfl),
    if_neg (h TOKEN_PRINT _ rfl), if_neg (h TOKEN_RETURN _ rfl), if_neg (h TOKEN_SUPER _ rfl),
    if_neg (h TOKEN_THIS _ rfl), if_neg (h TOKEN_TRUE _ rfl), if_neg (h TOKEN_VAR _ rfl),
    if_neg (h TOKEN_WHILE _ rfl)]

theorem lexeme_make_token (s : scanner_t) (kind : token_kind_t) :
    lexeme s.source (make_token s kind)
      = (s.source.drop s.start).take (s.current - s.start) := by
  simp only [lexeme, make_token]
  congr 1
  omega

theorem identifier_type_lexeme (s : scanner_t) (hcur : s.current ≤ s.source.length)
    (kind : token_kind_t) :
    identifier_type s = classify (lexeme s.source (make_token s kind)) := by
  rw [lexeme_make_token]
  by_cases hsc : s.start ≤ s.current
  · apply identifier_type_classify
    · rw [List.length_take, List.length_drop]
      omega
    · intro k hk
      rw [List.length_take, List.length_drop] at hk
      simp only [char_at, List.getD_eq_getElem?_getD]
      rw [List.getElem?_take_of_lt (by omega), List.getElem?_drop]
  · have h0 : s.current - s.start = 0 := by omega
    rw [h0, List.take_zero, classify_short [] (by simp)]
    exact identifier_type_backward s (by omega)

/-- C4: keyword classification is exact-match.  For every scanner state whose cursor lies in
the buffer, with `l` the lexeme `[start, current)` of the token that `identifier` makes there:
`identifier_type` returns the keyword kind `K` if and only if `l` is character for character
the spelling of `K`, and it returns `TOKEN_IDENTIFIER` for every `l` that is the spelling of
no keyword. -/
theorem identifier_type_exact (s : scanner_t) (hcur : s.current ≤ s.source.length) :
    (∀ K sp, keyword_spelling K = some sp →
      (identifier_type s = K
        ↔ lexeme s.source (make_token s (identifier_type s)) = cstr sp))
    ∧ ((∀ K sp, keyword_spelling K = some sp →
          lexeme s.source (make_token s (identifier_type s)) ≠ cstr sp) →
        identifier_type s = TOKEN_IDENTIFIER) := by
  have h := identifier_type_lexeme s hcur (identifier_type s)
  constructor
  · intro K sp hK
    rw [← classify_keyword _ K sp hK, ← h]
  · intro hno
    rw [h]
    exact classify_other _ hno

/-- C4 on the lexemes `for` and `forest` of the source `forest`. -/
theorem identifier_type_exact_witness :
    (3 ≤ (cstr "forest").length ∧ 6 ≤ (cstr "forest").length)
    ∧ identifier_type ⟨cstr "forest", 0, 3, 1⟩ = TOKEN_FOR
    ∧ ¬ identifier_type ⟨cstr "forest", 0, 6, 1⟩ = TOKEN_FOR :=
  ⟨by decide,
    ((identifier_type_exact ⟨cstr "forest", 0, 3, 1⟩ (by decide)).1 TOKEN_FOR "for" rfl).2
      (by decide),
    fun h => absurd
      (((identifier_type_exact ⟨cstr "forest", 0, 6, 1⟩ (by decide)).1 TOKEN_FOR "for" rfl).1 h)
      (by decide)⟩

/-! ### String literals -/

theorem count_newlines_cons (c : Int) (l : List Int) :
    count_newlines (c :: l) = (if c = ch '\n' then 1 else 0) + count_newlines l := by
  by_cases h : c = ch '\n'
  · simp [count_newlines, h]; ring
  · simp [count_newlines, h]

theorem string_loop_step (s : scanner_t) (fuel : Nat) (h1 : peek s ≠ ch '"')
    (h2 : is_at_end s = false) :
    string_loop (fuel + 1) s
      = string_loop fuel
          (advance (if peek s = ch '\n' then { s with line := s.line + 1 } else s)).2 := by
  simp [string_loop, h1, h2]

theorem string_loop_stop (s : scanner_t) (fuel : Nat)
    (h : peek s = ch '"' ∨ is_at_end s = true) : string_loop fuel s = s := by
  cases fuel with
  | zero => rfl
  | succ k => rcases h with h | h <;> simp [string_loop, h]

theorem string_loop_run (body : List Int) :
    ∀ (s : scanner_t) (pre post : List Int) (fuel : Nat),
      s.source = pre ++ (body ++ post) → s.current = pre.length →
      (∀ c ∈ body, c ≠ ch '"') → (∀ c ∈ body, c ≠ 0) →
      (post.headD 0 = ch '"' ∨ post.headD 0 = 0) → body.length ≤ fuel →
      string_loop fuel s
        = { s with current := s.current + body.length,
                   line := s.line + count_newlines body } := by
  induction body with
  | nil =>
    intro s pre post fuel hsrc hcur _ _ hpost _
    have hpk := peek_at s pre post (by simpa using hsrc) hcur
    have hend := is_at_end_at s pre post (by simpa using hsrc) hcur
    rw [string_loop_stop s fuel (by
      rcases hpost with h | h
      · left; rw [hpk, h]
      · right; rw [hend, h]; rfl)]
    simp [count_newlines]
  | cons c body ih =>
    intro s pre post fuel hsrc hcur hq h0 hpost hfuel
    cases fuel with
    | zero => simp at hfuel
    | succ k =>
      have hcq : c ≠ ch '"' := hq c (List.mem_cons_self _ _)
      have hc0 : c ≠ 0 := h0 c (List.mem_cons_self _ _)
      have hpk := peek_at s pre (c :: body ++ post) (by simpa using hsrc) hcur
      have hend := is_at_end_at s pre (c :: body ++ post) (by simpa using hsrc) hcur
      simp only [List.cons_append, List.headD_cons] at hpk hend
      have hbody : ∀ (s1 : scanner_t), s1.source = s.source → s1.current = s.current →
          string_loop k (advance s1).2
            = { s1 with current := s1.current + (body.length + 1),
                        line := s1.line + count_newlines body } := by
        intro s1 h1 h2
        have h := ih (advance s1).2 (pre ++ [c]) post k (by simp [advance, h1, hsrc])
          (by simp [advance, h2, hcur]) (fun d hd => hq d (List.mem_cons_of_mem _ hd))
          (fun d hd => h0 d (List.mem_cons_of_mem _ hd)) hpost (by simpa using hfuel)
        rw [h]
        simp only [advance, scanner_t.mk.injEq, true_and, and_true]
        omega
      rw [string_loop_step s k (by rw [hpk]; exact hcq) (by rw [hend]; simpa using hc0),
        count_newlines_cons, hpk]
      by_cases hn : c = ch '\n'
      · rw [if_pos hn, if_pos hn, hbody { s with line := s.line + 1 } rfl rfl]
        simp only [List.length_cons, scanner_t.mk.injEq, true_and]
        ring
      · rw [if_neg hn, if_neg hn, hbody s rfl rfl]
        simp only [List.length_cons, scanner_t.mk.injEq, true_and]
        ring

/-- What `scan_token` does once `skip_whitespace` has stopped in front of a double quote. -/
theorem scan_token_of_quote (s : scanner_t) (h : peek (skip_whitespace s) = ch '"') :
    scan_token s
      = string { skip_whitespace s with
          start := (skip_whitespace s).current, current := (skip_whitespace s).current + 1 } := by
  simp only [peek, char_at] at h
  simp only [scan_token, is_at_end, advance, char_at, h]
  simp [is_digit, is_alpha, ch]

theorem skip_whitespace_quote (s : scanner_t) (h : peek s = ch '"') :
    skip_whitespace s = s := by
  apply skip_whitespace_loop_stop <;> simp [h, ch]

theorem scan_state_after_end (src : List Int) (ln : Int) :
    ∀ n st, scan_state src n = ⟨src, st, src.length, ln⟩ →
      ∀ k, ∃ st1, scan_state src (n + k) = ⟨src, st1, src.length, ln⟩ := by
  intro n st h k
  induction k with
  | zero => exact ⟨st, h⟩
  | succ k ih =>
    obtain ⟨st1, h1⟩ := ih
    refine ⟨src.length, ?_⟩
    show (scan_token (scan_state src (n + k))).2 = _
    rw [h1, scan_token_at_end _ (by simp)]

/-- C8: for every text `body` without a double quote (and without a NUL, as in every C string)
the first call of `scan_token` on the source that is a double quote followed by `body`
returns the error token with the message `Unterminated string.`, leaves the cursor at the end
of the source, and every later call returns `TOKEN_EOF` with an empty lexeme. -/
theorem scan_unterminated_string (body : List Int) (hq : ∀ c ∈ body, c ≠ ch '"')
    (h0 : ∀ c ∈ body, c ≠ 0) :
    nth_token (ch '"' :: body) 0
        = ⟨TOKEN_ERROR, char_ptr.literal "Unterminated string.", 20, 1 + count_newlines body⟩
    ∧ (scan_state (ch '"' :: body) 1).current = (ch '"' :: body).length
    ∧ ∀ n, nth_token (ch '"' :: body) (n + 1)
        = ⟨TOKEN_EOF, char_ptr.source (ch '"' :: body).length, 0, 1 + count_newlines body⟩ := by
  have hpk : peek (init_scanner (ch '"' :: body)) = ch '"' := rfl
  have hsk := skip_whitespace_quote _ hpk
  have hscan := scan_token_of_quote (init_scanner (ch '"' :: body)) (by rw [hsk, hpk])
  rw [hsk] at hscan
  simp only [init_scanner, Nat.zero_add] at hscan
  have hloop := string_loop_run body ⟨ch '"' :: body, 0, 1, 1⟩ [ch '"'] [] 
    (remaining ⟨ch '"' :: body, 0, 1, 1⟩) (by simp) rfl hq h0 (Or.inr rfl)
    (by simp [remaining])
  have hend : is_at_end ⟨ch '"' :: body, 0, 1 + body.length, 1 + count_newlines body⟩
      = true := by
    rw [is_at_end_at _ (ch '"' :: body) [] (by simp) (by simp; omega)]
    rfl
  have hfirst : scan_token (init_scanner (ch '"' :: body))
      = (⟨TOKEN_ERROR, char_ptr.literal "Unterminated string.", 20,
            1 + count_newlines body⟩,
          ⟨ch '"' :: body, 0, (ch '"' :: body).length, 1 + count_newlines body⟩) := by
    simp only [init_scanner]
    rw [hscan]
    simp only [string, hloop, hend, if_true, error_token, List.length_cons]
    simp only [Prod.mk.injEq, scanner_t.mk.injEq, token_t.mk.injEq, true_and, and_true]
    exact ⟨by decide, by omega⟩
  have hstate : scan_state (ch '"' :: body) 1
      = ⟨ch '"' :: body, 0, (ch '"' :: body).length, 1 + count_newlines body⟩ := by
    show (scan_token (init_scanner (ch '"' :: body))).2 = _
    rw [hfirst]
  refine ⟨?_, ?_, ?_⟩
  · show (scan_token (init_scanner (ch '"' :: body))).1 = _
    rw [hfirst]
  · rw [hstate]
  · intro n
    obtain ⟨st1, h1⟩ := scan_state_after_end _ _ 1 0 hstate n
    show (scan_token (scan_state (ch '"' :: body) (n + 1))).1 = _
    rw [Nat.add_comm n 1, h1, scan_token_at_end _ (by simp)]

/-- C8 at the source `"abc`. -/
theorem scan_unterminated_string_witness :
    ((∀ c ∈ cstr "abc", c ≠ ch '"') ∧ (∀ c ∈ cstr "abc", c ≠ 0))
    ∧ nth_token (cstr "\"abc") 0
        = ⟨TOKEN_ERROR, char_ptr.literal "Unterminated string.", 20, 1⟩
    ∧ (scan_state (cstr "\"abc") 1).current = 4
    ∧ nth_token (cstr "\"abc") 1 = ⟨TOKEN_EOF, char_ptr.source 4, 0, 1⟩ :=
  ⟨by decide,
    (scan_unterminated_string (cstr "abc") (by decide) (by decide)).1,
    (scan_unterminated_string (cstr "abc") (by decide) (by decide)).2.1,
    (scan_unterminated_string (cstr "abc") (by decide) (by decide)).2.2 0⟩

/-! ### The line counter -/

theorem adv_refl (s : scanner_t) : adv s s := ⟨rfl, rfl, Nat.le_refl _, id⟩

theorem adv_trans {s s1 s2 : scanner_t} (h1 : adv s s1) (h2 : adv s1 s2) : adv s s2 :=
  ⟨h2.1.trans h1.1, h2.2.1.trans h1.2.1, Nat.le_trans h1.2.2.1 h2.2.2.1,
    fun h => h2.2.2.2 (h1.2.2.2 h)⟩

theorem peek_ne_zero_lt (s : scanner_t) (h : peek s ≠ 0) : s.current < s.source.length := by
  by_contra hlt
  apply h
  simp only [peek, char_at]
  exact List.getD_eq_default _ _ (by omega)

theorem count_newlines_append (a b : List Int) :
    count_newlines (a ++ b) = count_newlines a + count_newlines b := by
  simp [count_newlines]

theorem count_newlines_take_succ (src : List Int) (cur : Nat) (h : cur < src.length) :
    count_newlines (src.take (cur + 1))
      = count_newlines (src.take cur) + (if src.getD cur 0 = ch '\n' then 1 else 0) := by
  rw [List.take_succ, count_newlines_append, List.getD_eq_getElem?_getD,
    List.getElem?_eq_getElem h]
  simp only [Option.toList, Option.getD_some]
  rw [count_newlines_cons]
  simp [count_newlines]

/-- Consuming a character that is neither the terminator nor a newline. -/
theorem adv_advance (s : scanner_t) (h0 : peek s ≠ 0) (hn : peek s ≠ ch '\n') :
    adv s (advance s).2 := by
  refine ⟨rfl, rfl, Nat.le_succ _, ?_⟩
  intro ⟨_, hl⟩
  have hlt := peek_ne_zero_lt s h0
  refine ⟨hlt, ?_⟩
  simp only [peek, char_at] at hn
  simp only [advance]
  rw [count_newlines_take_succ _ _ hlt, if_neg hn, hl]
  ring

/-- Consuming a newline after `line++`. -/
theorem adv_newline (s : scanner_t) (hn : peek s = ch '\n') :
    adv s (advance { s with line := s.line + 1 }).2 := by
  refine ⟨rfl, rfl, Nat.le_succ _, ?_⟩
  intro ⟨_, hl⟩
  have hlt := peek_ne_zero_lt s (by rw [hn]; decide)
  refine ⟨hlt, ?_⟩
  simp only [peek, char_at] at hn
  simp only [advance]
  rw [count_newlines_take_succ _ _ hlt, if_pos hn, hl]
  ring

theorem is_at_end_false_iff (s : scanner_t) : is_at_end s = false ↔ peek s ≠ 0 := by
  simp [is_at_end, peek]

theorem is_alpha_ne (c : Int) (h : is_alpha c = true) : c ≠ 0 ∧ c ≠ ch '\n' := by
  have := (is_alpha_iff c).1 h
  simp only [ch]
  constructor <;> (intro h1; subst h1; simp at this)

theorem is_digit_ne (c : Int) (h : is_digit c = true) : c ≠ 0 ∧ c ≠ ch '\n' := by
  have := is_digit_bounds h
  simp only [ch]
  constructor <;> (intro h1; subst h1; simp at this)

theorem comment_loop_adv (fuel : Nat) : ∀ s, adv s (comment_loop fuel s)
    ∧ (comment_loop fuel s).line = s.line := by
  induction fuel with
  | zero => intro s; exact ⟨adv_refl s, rfl⟩
  | succ k ih =>
    intro s
    simp only [comment_loop]
    split
    · rename_i h
      simp only [ne_eq, Bool.and_eq_true, decide_eq_true_eq, Bool.not_eq_true',
        is_at_end_false_iff] at h
      exact ⟨adv_trans (adv_advance s h.2 h.1) (ih _).1, (ih _).2⟩
    · exact ⟨adv_refl s, rfl⟩

theorem digits_loop_adv (fuel : Nat) : ∀ s, adv s (digits_loop fuel s)
    ∧ (digits_loop fuel s).line = s.line := by
  induction fuel with
  | zero => intro s; exact ⟨adv_refl s, rfl⟩
  | succ k ih =>
    intro s
    simp only [digits_loop]
    split
    · rename_i h
      have := is_digit_ne _ h
      exact ⟨adv_trans (adv_advance s this.1 this.2) (ih _).1, (ih _).2⟩
    · exact ⟨adv_refl s, rfl⟩

theorem identifier_loop_adv (fuel : Nat) : ∀ s, adv s (identifier_loop fuel s)
    ∧ (identifier_loop fuel s).line = s.line := by
  induction fuel with
  | zero => intro s; exact ⟨adv_refl s, rfl⟩
  | succ k ih =>
    intro s
    simp only [identifier_loop]
    split
    · rename_i h
      simp only [Bool.or_eq_true] at h
      have : peek s ≠ 0 ∧ peek s ≠ ch '\n' := by
        rcases h with h | h
        · exact is_alpha_ne _ h
        · exact is_digit_ne _ h
      exact ⟨adv_trans (adv_advance s this.1 this.2) (ih _).1, (ih _).2⟩
    · exact ⟨adv_refl s, rfl⟩

theorem string_loop_adv (fuel : Nat) : ∀ s, adv s (string_loop fuel s) := by
  induction fuel with
  | zero => intro s; exact adv_refl s
  | succ k ih =>
    intro s
    simp only [string_loop]
    split
    · rename_i h
      simp only [ne_eq, Bool.and_eq_true, decide_eq_true_eq, Bool.not_eq_true',
        is_at_end_false_iff] at h
      by_cases hn : peek s = ch '\n'
      · simp only [hn, if_true]
        exact adv_trans (adv_newline s hn) (ih _)
      · simp only [hn, if_false]
        exact adv_trans (adv_advance s h.2 hn) (ih _)
    · exact adv_refl s

theorem skip_whitespace_loop_adv (fuel : Nat) : ∀ s, adv s (skip_whitespace_loop fuel s) := by
  induction fuel with
  | zero => intro s; exact adv_refl s
  | succ k ih =>
    intro s
    simp only [skip_whitespace_loop]
    split
    · rename_i h
      refine adv_trans (adv_advance s ?_ ?_) (ih _) <;>
        (rcases h with h | h | h <;> rw [h] <;> decide)
    · split
      · rename_i h
        exact adv_trans (adv_newline s h) (ih _)
      · split
        · split
          · exact adv_trans (comment_loop_adv _ s).1 (ih _)
          · exact adv_refl s
        · exact adv_refl s

theorem peek_of_end (s : scanner_t) (h : remaining s = 0) : peek s = 0 := by
  simp only [peek, char_at]
  exact List.getD_eq_default _ _ (by simp only [remaining] at h; omega)

theorem remaining_advance (s : scanner_t) : remaining (advance s).2 = remaining s - 1 := by
  simp only [remaining, advance]; omega

theorem comment_loop_progress (s : scanner_t) (h0 : peek s ≠ 0) (hn : peek s ≠ ch '\n') :
    remaining (comment_loop (remaining s) s) ≤ remaining s - 1 := by
  have hlt := peek_ne_zero_lt s h0
  obtain ⟨k, hk⟩ : ∃ k, remaining s = k + 1 := ⟨remaining s - 1, by
    simp only [remaining]; omega⟩
  have h1 : (peek s ≠ ch '\n' && !is_at_end s) = true := by
    simp [hn, (is_at_end_false_iff s).2 h0]
  rw [hk]
  simp only [comment_loop, h1, if_true]
  have ha := (comment_loop_adv k (advance s).2).1
  have hsrc := ha.1
  have hle := ha.2.2.1
  simp only [advance] at hsrc hle
  simp only [remaining] at hk
  simp only [remaining, advance, hsrc]
  omega

/-- The loop of `skip_whitespace` stops only where its exit condition holds. -/
theorem skip_whitespace_loop_exit (fuel : Nat) :
    ∀ s, remaining s ≤ fuel → at_token (skip_whitespace_loop fuel s) := by
  induction fuel with
  | zero =>
    intro s h
    have hp := peek_of_end s (by omega)
    simp only [skip_whitespace_loop, at_token, hp]
    refine ⟨by decide, by decide, by decide, by decide, fun h => absurd h (by decide)⟩
  | succ k ih =>
    intro s h
    simp only [skip_whitespace_loop]
    split
    · exact ih _ (by rw [remaining_advance]; omega)
    · rename_i hws
      split
      · exact ih _ (by
          have := remaining_advance { s with line := s.line + 1 }
          simp only [remaining, advance] at this ⊢
          simp only [remaining] at h
          omega)
      · rename_i hnl
        split
        · rename_i hsl
          split
          · refine ih _ ?_
            have := comment_loop_progress s (by rw [hsl]; decide) (by rw [hsl]; decide)
            have hlt := peek_ne_zero_lt s (by rw [hsl]; decide)
            simp only [remaining] at h hlt this ⊢
            omega
          · rename_i hnn
            simp only [not_or] at hws
            exact ⟨hws.1, hws.2.1, hws.2.2, hnl, fun _ => hnn⟩
        · rename_i hsl
          simp only [not_or] at hws
          exact ⟨hws.1, hws.2.1, hws.2.2, hnl, fun h => absurd h hsl⟩

theorem skip_whitespace_exit (s : scanner_t) : at_token (skip_whitespace s) :=
  skip_whitespace_loop_exit _ s (Nat.le_refl _)

theorem ok_of_make (s2 s1 : scanner_t) (kind : token_kind_t) (h2 : line_inv s2)
    (hst : s2.start = s2.current) (ha : adv s2 s1)
    (hl : kind ≠ TOKEN_STRING → s1.line = s2.line) :
    scan_ok s2 (make_token s1 kind, s1) := by
  obtain ⟨hsrc, hstart, hle, hinv⟩ := ha
  have hi := hinv h2
  refine ⟨hi, hsrc, ?_⟩
  intro _
  refine ⟨s2.current, ?_, ?_, ?_⟩
  · simp only [make_token, hstart, hst]
  · intro hk
    simp only [make_token, hl hk]
    exact h2.2
  · intro _
    have : s2.current + ((s1.current : Int) - (s1.start : Int)).toNat = s1.current := by
      rw [hstart, hst]; omega
    simp only [make_token, this]
    rw [← hsrc]
    exact hi.2

theorem ok_of_error (s2 s1 : scanner_t) (msg : String) (h2 : line_inv s2) (ha : adv s2 s1) :
    scan_ok s2 (error_token s1 msg, s1) :=
  ⟨ha.2.2.2 h2, ha.1, fun h => absurd rfl h⟩

theorem ok_number (s2 s3 : scanner_t) (h2 : line_inv s2) (hst : s2.start = s2.current)
    (ha : adv s2 s3) (hl : s3.line = s2.line) : scan_ok s2 (number s3) := by
  simp only [number]
  split
  · have h1 := digits_loop_adv (remaining s3) s3
    rename_i hc
    simp only [Bool.and_eq_true, decide_eq_true_eq] at hc
    have hp : peek (digits_loop (remaining s3) s3) ≠ 0 := by rw [hc.1]; decide
    have hpn : peek (digits_loop (remaining s3) s3) ≠ ch '\n' := by rw [hc.1]; decide
    have h3 := adv_advance _ hp hpn
    have h4 := digits_loop_adv (remaining (advance (digits_loop (remaining s3) s3)).2)
      (advance (digits_loop (remaining s3) s3)).2
    refine ok_of_make s2 _ _ h2 hst (adv_trans ha (adv_trans h1.1 (adv_trans h3 h4.1))) ?_
    intro _
    rw [h4.2]
    simp only [advance]
    rw [h1.2, hl]
  · have h1 := digits_loop_adv (remaining s3) s3
    exact ok_of_make s2 _ _ h2 hst (adv_trans ha h1.1) (fun _ => by rw [h1.2, hl])

theorem ok_identifier (s2 s3 : scanner_t) (h2 : line_inv s2) (hst : s2.start = s2.current)
    (ha : adv s2 s3) (hl : s3.line = s2.line) : scan_ok s2 (identifier s3) := by
  have h1 := identifier_loop_adv (remaining s3) s3
  simp only [identifier]
  exact ok_of_make s2 _ _ h2 hst (adv_trans ha h1.1) (fun _ => by rw [h1.2, hl])

/-- The loop of `string` stops only at a double quote or at the terminator. -/
theorem string_loop_exit (fuel : Nat) :
    ∀ s, remaining s ≤ fuel →
      peek (string_loop fuel s) = ch '"' ∨ is_at_end (string_loop fuel s) = true := by
  induction fuel with
  | zero =>
    intro s h
    right
    have hp := peek_of_end s (by omega)
    simp only [string_loop, is_at_end, beq_iff_eq]
    exact hp
  | succ k ih =>
    intro s h
    simp only [string_loop]
    split
    · refine ih _ ?_
      simp only [remaining, advance] at h ⊢
      split <;> first | omega | (simp only; omega)
    · rename_i hc
      simp only [ne_eq, Bool.and_eq_true, decide_eq_true_eq, Bool.not_eq_true', not_and,
        Bool.not_eq_false] at hc
      by_cases hq : peek s = ch '"'
      · exact Or.inl hq
      · exact Or.inr (hc hq)

theorem ok_string (s2 s3 : scanner_t) (h2 : line_inv s2) (hst : s2.start = s2.current)
    (ha : adv s2 s3) : scan_ok s2 (string s3) := by
  have h1 := string_loop_adv (remaining s3) s3
  simp only [string]
  split
  · exact ok_of_error s2 _ _ h2 (adv_trans ha h1)
  · rename_i hend
    simp only [Bool.not_eq_true, is_at_end_false_iff] at hend
    refine ok_of_make s2 _ _ h2 hst ?_ (fun h => absurd rfl h)
    have hq : peek (string_loop (remaining s3) s3) = ch '"' := by
      rcases string_loop_exit _ s3 (Nat.le_refl _) with h | h
      · exact h
      · exact absurd ((is_at_end_false_iff _).2 hend) (by rw [h]; decide)
    exact adv_trans ha (adv_trans h1 (adv_advance _ hend (by rw [hq]; decide)))

theorem match_adv (s : scanner_t) (expected : Int) (h0 : expected ≠ 0)
    (hn : expected ≠ ch '\n') :
    adv s (match_ s expected).2 ∧ (match_ s expected).2.line = s.line := by
  simp only [match_]
  split
  · exact ⟨adv_refl s, rfl⟩
  · split
    · exact ⟨adv_refl s, rfl⟩
    · rename_i h1 h2
      simp only [ne_eq, Decidable.not_not] at h2
      have hp : peek s = expected := h2
      have := adv_advance s (by rw [hp]; exact h0) (by rw [hp]; exact hn)
      exact ⟨this, rfl⟩

theorem scan_ok_ite (s : scanner_t) (c : Prop) [Decidable c] (a b : token_t × scanner_t)
    (ha : c → scan_ok s a) (hb : ¬ c → scan_ok s b) : scan_ok s (if c then a else b) := by
  by_cases h : c
  · rw [if_pos h]; exact ha h
  · rw [if_neg h]; exact hb h

/-- One call of `scan_token` keeps the line counter in step with the text consumed and gives
its token the line of `token_line_spec`. -/
theorem scan_token_line (s : scanner_t) (h : line_inv s) :
    line_inv (scan_token s).2 ∧ (scan_token s).2.source = s.source
      ∧ token_line_spec s.source (scan_token s).1 := by
  have hsk := skip_whitespace_loop_adv (remaining s) s
  have hex := skip_whitespace_exit s
  have h1 : line_inv (skip_whitespace s) := hsk.2.2.2 h
  have hsrc : (skip_whitespace s).source = s.source := hsk.1
  generalize hs2 : ({ skip_whitespace s with start := (skip_whitespace s).current } : scanner_t)
    = s2
  have h2 : line_inv s2 := by rw [← hs2]; exact h1
  have hst : s2.start = s2.current := by rw [← hs2]
  have hsrc2 : s2.source = s.source := by rw [← hs2]; exact hsrc
  have hpk : peek s2 = peek (skip_whitespace s) := by rw [← hs2]; rfl
  have key : scan_ok s2 (scan_token s) := by
    unfold scan_token
    dsimp only
    rw [hs2]
    refine scan_ok_ite _ _ _ _ (fun _ => ?_) (fun hend => ?_)
    · exact ok_of_make s2 s2 _ h2 hst (adv_refl s2) (fun _ => rfl)
    · simp only [Bool.not_eq_true, is_at_end_false_iff] at hend
      have ha : adv s2 (advance s2).2 := adv_advance s2 hend (by rw [hpk]; exact hex.2.2.2.1)
      have hl : (advance s2).2.line = s2.line := rfl
      have hm := match_adv (advance s2).2 (ch '=') (by decide) (by decide)
      repeat' (first | intro _ | with_reducible apply scan_ok_ite)
      all_goals
        first
        | with_reducible exact ok_number s2 _ h2 hst ha hl
        | with_reducible exact ok_identifier s2 _ h2 hst ha hl
        | with_reducible exact ok_string s2 _ h2 hst ha
        | with_reducible exact ok_of_error s2 _ _ h2 ha
        | with_reducible exact ok_of_make s2 _ _ h2 hst ha (fun _ => hl)
        | with_reducible exact ok_of_make s2 _ _ h2 hst (adv_trans ha hm.1) (fun _ => by rw [hm.2, hl])
  obtain ⟨k1, k2, k3⟩ := key
  rw [hsrc2] at k2 k3
  exact ⟨k1, k2, k3⟩

theorem scan_state_line_inv (src : List Int) :
    ∀ n, line_inv (scan_state src n) ∧ (scan_state src n).source = src := by
  intro n
  induction n with
  | zero =>
    refine ⟨⟨Nat.zero_le _, ?_⟩, rfl⟩
    simp [scan_state, init_scanner, count_newlines]
  | succ n ih =>
    have h := scan_token_line (scan_state src n) ih.1
    exact ⟨h.1, h.2.1.trans ih.2⟩

/-- C10 as stated fails: the string literal of the source `"a\nb"` begins on line 1 (no newline
lies in front of its offset 0), yet its token carries line 2, the line of the closing quote. -/
theorem multiline_string_line :
    (nth_token (cstr "\"a\nb\"") 0).kind = TOKEN_STRING
    ∧ (nth_token (cstr "\"a\nb\"") 0).start = char_ptr.source 0
    ∧ (nth_token (cstr "\"a\nb\"") 0).line = 2
    ∧ 1 + count_newlines ((cstr "\"a\nb\"").take 0) = 1 := by
  decide

/-- C10 as amended: every token the scanner produces from a source, other than an error token,
starts at an offset of the source; its `line` is 1 plus the number of newlines in front of
that offset (the 1-based line of its first character) unless it is a string literal, and for a
string literal it is 1 plus the number of newlines in front of the end of the lexeme (the line
of the closing quote). -/
theorem token_line (src : List Int) (n : Nat) (h : (nth_token src n).kind ≠ TOKEN_ERROR) :
    ∃ offset, (nth_token src n).start = char_ptr.source offset
      ∧ ((nth_token src n).kind ≠ TOKEN_STRING →
          (nth_token src n).line = 1 + count_newlines (src.take offset))
      ∧ ((nth_token src n).kind = TOKEN_STRING →
          (nth_token src n).line
            = 1 + count_newlines (src.take (offset + (nth_token src n).length.toNat))) := by
  have hi := scan_state_line_inv src n
  have h1 := (scan_token_line (scan_state src n) hi.1).2.2
  rw [hi.2] at h1
  exact h1 h

/-- C10 as amended, on the source `"a\nb" x\ny`: the string literal carries line 2, the
identifier `x` behind it line 2, the identifier `y` line 3. -/
theorem token_line_witness :
    (nth_token (cstr "\"a\nb\" x\ny") 0).kind ≠ TOKEN_ERROR
    ∧ nth_token (cstr "\"a\nb\" x\ny") 0 = ⟨TOKEN_STRING, char_ptr.source 0, 5, 2⟩
    ∧ nth_token (cstr "\"a\nb\" x\ny") 2 = ⟨TOKEN_IDENTIFIER, char_ptr.source 8, 1, 3⟩
    ∧ ∃ offset, (nth_token (cstr "\"a\nb\" x\ny") 0).start = char_ptr.source offset
      ∧ ((nth_token (cstr "\"a\nb\" x\ny") 0).kind ≠ TOKEN_STRING →
          (nth_token (cstr "\"a\nb\" x\ny") 0).line
            = 1 + count_newlines ((cstr "\"a\nb\" x\ny").take offset))
      ∧ ((nth_token (cstr "\"a\nb\" x\ny") 0).kind = TOKEN_STRING →
          (nth_token (cstr "\"a\nb\" x\ny") 0).line
            = 1 + count_newlines ((cstr "\"a\nb\" x\ny").take
                (offset + (nth_token (cstr "\"a\nb\" x\ny") 0).length.toNat))) :=
  ⟨by decide, by decide, by decide, token_line (cstr "\"a\nb\" x\ny") 0 (by decide)⟩

/-! ### Scanning behind a prefix -/

theorem char_at_shift (p : List Int) (d : Int) (s : scanner_t) (i : Nat) :
    char_at (shift p d s) (p.length + i) = char_at s i := by
  simp only [char_at, shift]
  exact getD_append_add p s.source i

theorem peek_shift (p : List Int) (d : Int) (s : scanner_t) :
    peek (shift p d s) = peek s := char_at_shift p d s s.current

theorem is_at_end_shift (p : List Int) (d : Int) (s : scanner_t) :
    is_at_end (shift p d s) = is_at_end s := by
  have := peek_shift p d s
  simp only [peek] at this
  simp only [is_at_end, this]

theorem peek_next_shift (p : List Int) (d : Int) (s : scanner_t) :
    peek_next (shift p d s) = peek_next s := by
  simp only [peek_next, is_at_end_shift]
  have := char_at_shift p d s (s.current + 1)
  simp only [shift, char_at] at this ⊢
  rw [← this]
  rfl

theorem remaining_shift (p : List Int) (d : Int) (s : scanner_t) :
    remaining (shift p d s) = remaining s := by
  simp only [remaining, shift, List.length_append]
  omega

theorem advance_shift (p : List Int) (d : Int) (s : scanner_t) :
    (advance (shift p d s)).2 = shift p d (advance s).2 := rfl

theorem advance_shift_fst (p : List Int) (d : Int) (s : scanner_t) :
    (advance (shift p d s)).1 = (advance s).1 := peek_shift p d s

theorem shift_line_succ (p : List Int) (d : Int) (s : scanner_t) :
    ({ shift p d s with line := (shift p d s).line + 1 } : scanner_t)
      = shift p d { s with line := s.line + 1 } := by
  simp only [shift, scanner_t.mk.injEq, true_and]
  ring

theorem shift_start (p : List Int) (d : Int) (s : scanner_t) :
    ({ shift p d s with start := (shift p d s).current } : scanner_t)
      = shift p d { s with start := s.current } := rfl

theorem comment_loop_shift (p : List Int) (d : Int) (fuel : Nat) :
    ∀ s, comment_loop fuel (shift p d s) = shift p d (comment_loop fuel s) := by
  induction fuel with
  | zero => intro s; rfl
  | succ k ih =>
    intro s
    simp only [comment_loop, peek_shift, is_at_end_shift, advance_shift]
    split
    · exact ih _
    · rfl

theorem digits_loop_shift (p : List Int) (d : Int) (fuel : Nat) :
    ∀ s, digits_loop fuel (shift p d s) = shift p d (digits_loop fuel s) := by
  induction fuel with
  | zero => intro s; rfl
  | succ k ih =>
    intro s
    simp only [digits_loop, peek_shift, advance_shift]
    split
    · exact ih _
    · rfl

theorem identifier_loop_shift (p : List Int) (d : Int) (fuel : Nat) :
    ∀ s, identifier_loop fuel (shift p d s) = shift p d (identifier_loop fuel s) := by
  induction fuel with
  | zero => intro s; rfl
  | succ k ih =>
    intro s
    simp only [identifier_loop, peek_shift, advance_shift]
    split
    · exact ih _
    · rfl

theorem string_loop_shift (p : List Int) (d : Int) (fuel : Nat) :
    ∀ s, string_loop fuel (shift p d s) = shift p d (string_loop fuel s) := by
  induction fuel with
  | zero => intro s; rfl
  | succ k ih =>
    intro s
    simp only [string_loop, peek_shift, is_at_end_shift]
    split
    · split
      · rw [shift_line_succ, advance_shift]; exact ih _
      · rw [advance_shift]; exact ih _
    · rfl

theorem skip_whitespace_loop_shift (p : List Int) (d : Int) (fuel : Nat) :
    ∀ s, skip_whitespace_loop fuel (shift p d s) = shift p d (skip_whitespace_loop fuel s) := by
  induction fuel with
  | zero => intro s; rfl
  | succ k ih =>
    intro s
    simp only [skip_whitespace_loop, peek_shift, peek_next_shift, remaining_shift,
      comment_loop_shift]
    split
    · rw [advance_shift]; exact ih _
    · split
      · rw [shift_line_succ, advance_shift]; exact ih _
      · split
        · split
          · exact ih _
          · rfl
        · rfl

theorem skip_whitespace_shift (p : List Int) (d : Int) (s : scanner_t) :
    skip_whitespace (shift p d s) = shift p d (skip_whitespace s) := by
  simp only [skip_whitespace, remaining_shift, skip_whitespace_loop_shift]

theorem make_token_shift (p : List Int) (d : Int) (s : scanner_t) (kind : token_kind_t) :
    make_token (shift p d s) kind = shift_token p.length d (make_token s kind) := by
  simp only [make_token, shift, shift_token, token_t.mk.injEq, true_and, and_true]
  push_cast
  ring

theorem error_token_shift (p : List Int) (d : Int) (s : scanner_t) (msg : String) :
    error_token (shift p d s) msg = shift_token p.length d (error_token s msg) := rfl

theorem memcmp_eq_shift (p : List Int) (d : Int) (s : scanner_t) (offset : Nat) (rest : String)
    (length : Nat) :
    memcmp_eq (shift p d s) (p.length + offset) rest length = memcmp_eq s offset rest length := by
  simp only [memcmp_eq, Nat.add_assoc, char_at_shift]

theorem check_keyword_shift (p : List Int) (d : Int) (s : scanner_t) (start length : Nat)
    (rest : String) (type : token_kind_t) :
    check_keyword (shift p d s) start length rest type
      = check_keyword s start length rest type := by
  have h1 : ((shift p d s).current : Int) - ((shift p d s).start : Int)
      = (s.current : Int) - (s.start : Int) := by
    simp only [shift]; push_cast; ring
  have h2 : (shift p d s).start + start = p.length + (s.start + start) := by
    simp only [shift]; omega
  simp only [check_keyword, h1, h2, memcmp_eq_shift]

theorem identifier_type_shift (p : List Int) (d : Int) (s : scanner_t) :
    identifier_type (shift p d s) = identifier_type s := by
  have h1 : ((shift p d s).current : Int) - ((shift p d s).start : Int)
      = (s.current : Int) - (s.start : Int) := by
    simp only [shift]; push_cast; ring
  have h2 : char_at (shift p d s) (shift p d s).start = char_at s s.start :=
    char_at_shift p d s s.start
  have h3 : char_at (shift p d s) ((shift p d s).start + 1) = char_at s (s.start + 1) := by
    have := char_at_shift p d s (s.start + 1)
    simp only [shift] at this ⊢
    rw [← this]; rfl
  simp only [identifier_type, check_keyword_shift, h1, h2, h3]

theorem number_shift (p : List Int) (d : Int) (s : scanner_t) :
    number (shift p d s) = shift_result p d (number s) := by
  simp only [number, remaining_shift, digits_loop_shift, peek_shift, peek_next_shift,
    advance_shift, shift_result]
  split <;> simp only [make_token_shift, remaining_shift, digits_loop_shift]

theorem identifier_shift (p : List Int) (d : Int) (s : scanner_t) :
    identifier (shift p d s) = shift_result p d (identifier s) := by
  simp only [identifier, remaining_shift, identifier_loop_shift, identifier_type_shift,
    make_token_shift, shift_result]

theorem string_shift (p : List Int) (d : Int) (s : scanner_t) :
    string (shift p d s) = shift_result p d (string s) := by
  simp only [string, remaining_shift, string_loop_shift, is_at_end_shift, advance_shift,
    shift_result]
  split <;> simp only [make_token_shift, error_token_shift]

theorem match_shift (p : List Int) (d : Int) (s : scanner_t) (expected : Int) :
    match_ (shift p d s) expected = ((match_ s expected).1, shift p d (match_ s expected).2) := by
  have h := peek_shift p d s
  simp only [peek] at h
  simp only [match_, is_at_end_shift, h]
  split
  · rfl
  · split <;> rfl

theorem shift_result_ite (p : List Int) (d : Int) (c : Prop) [Decidable c]
    (a a1 b b1 : token_t × scanner_t) (ha : c → a1 = shift_result p d a)
    (hb : ¬ c → b1 = shift_result p d b) :
    (if c then a1 else b1) = shift_result p d (if c then a else b) := by
  by_cases h : c
  · rw [if_pos h, if_pos h]; exact ha h
  · rw [if_neg h, if_neg h]; exact hb h

theorem make_token_result_shift (p : List Int) (d : Int) (s : scanner_t)
    (kind : token_kind_t) :
    (make_token (shift p d s) kind, shift p d s) = shift_result p d (make_token s kind, s) := by
  simp only [shift_result, make_token_shift]

theorem error_token_result_shift (p : List Int) (d : Int) (s : scanner_t) (msg : String) :
    (error_token (shift p d s) msg, shift p d s) = shift_result p d (error_token s msg, s) :=
  rfl

/-- A call of `scan_token` behind the text `p` returns the shifted result of the call on the
text alone: the scanner never reads in front of its cursor. -/
theorem scan_token_shift (p : List Int) (d : Int) (s : scanner_t) :
    scan_token (shift p d s) = shift_result p d (scan_token s) := by
  unfold scan_token
  dsimp only
  rw [skip_whitespace_shift, shift_start]
  generalize ({ skip_whitespace s with start := (skip_whitespace s).current } : scanner_t) = s2
  simp only [is_at_end_shift, advance_shift, advance_shift_fst, match_shift]
  repeat' (first | intro _ | with_reducible apply shift_result_ite)
  all_goals
    first
    | with_reducible exact number_shift _ _ _
    | with_reducible exact identifier_shift _ _ _
    | with_reducible exact string_shift _ _ _
    | with_reducible exact make_token_result_shift _ _ _ _
    | with_reducible exact error_token_result_shift _ _ _ _

theorem scan_all_shift (p : List Int) (d : Int) (n : Nat) :
    ∀ s, scan_all n (shift p d s) = (scan_all n s).map (shift_token p.length d) := by
  induction n with
  | zero => intro s; rfl
  | succ k ih =>
    intro s
    simp only [scan_all, scan_token_shift, shift_result]
    have hk : (shift_token p.length d (scan_token s).1).kind = (scan_token s).1.kind := rfl
    rw [hk]
    split
    · rfl
    · rw [List.map_cons, ih]

theorem token_view_shift (p src : List Int) (d : Int) (t : token_t) :
    token_view (p ++ src) (shift_token p.length d t)
      = ((token_view src t).1, (token_view src t).2.1, (token_view src t).2.2 + d) := by
  cases t with
  | mk kind start length line =>
    cases start with
    | source offset =>
      simp only [token_view, lexeme, shift_token, Prod.mk.injEq, true_and, and_true]
      rw [List.drop_append]
    | literal text => rfl

theorem comment_loop_start (x : Nat) (fuel : Nat) :
    ∀ s : scanner_t, comment_loop fuel { s with start := x }
      = { comment_loop fuel s with start := x } := by
  induction fuel with
  | zero => intro s; rfl
  | succ k ih =>
    intro s
    have h1 : peek { s with start := x } = peek s := rfl
    have h2 : is_at_end { s with start := x } = is_at_end s := rfl
    have h3 : (advance { s with start := x }).2 = { (advance s).2 with start := x } := rfl
    simp only [comment_loop, h1, h2, h3]
    split
    · exact ih _
    · rfl

theorem skip_whitespace_loop_start (x : Nat) (fuel : Nat) :
    ∀ s : scanner_t, skip_whitespace_loop fuel { s with start := x }
      = { skip_whitespace_loop fuel s with start := x } := by
  induction fuel with
  | zero => intro s; rfl
  | succ k ih =>
    intro s
    have h1 : peek { s with start := x } = peek s := rfl
    have h2 : peek_next { s with start := x } = peek_next s := rfl
    have h3 : (advance { s with start := x }).2 = { (advance s).2 with start := x } := rfl
    have h4 : (advance { { s with start := x } with line := s.line + 1 }).2
        = { (advance { s with line := s.line + 1 }).2 with start := x } := rfl
    have h5 : remaining { s with start := x } = remaining s := rfl
    simp only [skip_whitespace_loop, h1, h2, h3, h5, comment_loop_start]
    split
    · exact ih _
    · split
      · exact ih (advance { s with line := s.line + 1 }).2
      · split
        · split
          · exact ih _
          · rfl
        · rfl

/-- The result of `scan_token` does not depend on the `start` it is called with. -/
theorem scan_token_start (s : scanner_t) (x : Nat) :
    scan_token { s with start := x } = scan_token s := by
  have h : skip_whitespace { s with start := x } = { skip_whitespace s with start := x } :=
    skip_whitespace_loop_start x _ s
  unfold scan_token
  dsimp only
  rw [h]

/-- The loop of `skip_whitespace` gives the same result with any fuel that covers the text
left in the buffer. -/
theorem skip_whitespace_loop_fuel (f : Nat) :
    ∀ (f1 : Nat) (s : scanner_t), remaining s ≤ f → remaining s ≤ f1 →
      skip_whitespace_loop f s = skip_whitespace_loop f1 s := by
  have hstop : ∀ (k : Nat) (s : scanner_t), remaining s = 0 → skip_whitespace_loop k s = s := by
    intro k s h
    have hp := peek_of_end s h
    exact skip_whitespace_loop_stop s k (by rw [hp]; decide) (by rw [hp]; decide)
      (by rw [hp]; decide) (by rw [hp]; decide)
      (by rw [hp]; intro hc; exact absurd hc (by decide))
  induction f with
  | zero =>
    intro f1 s h _
    rw [hstop 0 s (by omega), hstop f1 s (by omega)]
  | succ k ih =>
    intro f1 s h h1
    cases f1 with
    | zero => rw [hstop 0 s (by omega), hstop (k + 1) s (by omega)]
    | succ k1 =>
      simp only [skip_whitespace_loop]
      split
      · exact ih _ _ (by rw [remaining_advance]; omega) (by rw [remaining_advance]; omega)
      · split
        · refine ih _ _ ?_ ?_ <;>
            (simp only [remaining, advance] at h h1 ⊢; omega)
        · split
          · rename_i hsl
            split
            · have := comment_loop_progress s (by rw [hsl]; decide) (by rw [hsl]; decide)
              exact ih _ _ (by omega) (by omega)
            · rfl
          · rfl

theorem comment_loop_stop (s : scanner_t) (fuel : Nat)
    (h : peek s = ch '\n' ∨ is_at_end s = true) : comment_loop fuel s = s := by
  cases fuel with
  | zero => rfl
  | succ k => rcases h with h | h <;> simp [comment_loop, h]

theorem comment_loop_run (body : List Int) :
    ∀ (s : scanner_t) (pre post : List Int) (fuel : Nat),
      s.source = pre ++ (body ++ post) → s.current = pre.length →
      (∀ c ∈ body, c ≠ ch '\n') → (∀ c ∈ body, c ≠ 0) →
      (post.headD 0 = ch '\n' ∨ post.headD 0 = 0) → body.length ≤ fuel →
      comment_loop fuel s = { s with current := s.current + body.length } := by
  induction body with
  | nil =>
    intro s pre post fuel hsrc hcur _ _ hpost _
    have hpk := peek_at s pre post (by simpa using hsrc) hcur
    have hend := is_at_end_at s pre post (by simpa using hsrc) hcur
    rw [comment_loop_stop s fuel (by
      rcases hpost with h | h
      · left; rw [hpk, h]
      · right; rw [hend, h]; rfl)]
    rfl
  | cons c body ih =>
    intro s pre post fuel hsrc hcur hn h0 hpost hfuel
    cases fuel with
    | zero => simp at hfuel
    | succ k =>
      have hcn : c ≠ ch '\n' := hn c (List.mem_cons_self _ _)
      have hc0 : c ≠ 0 := h0 c (List.mem_cons_self _ _)
      have hpk := peek_at s pre (c :: body ++ post) (by simpa using hsrc) hcur
      have hend := is_at_end_at s pre (c :: body ++ post) (by simpa using hsrc) hcur
      simp only [List.cons_append, List.headD_cons] at hpk hend
      have h := ih (advance s).2 (pre ++ [c]) post k (by simp [advance, hsrc])
        (by simp [advance, hcur]) (fun d hd => hn d (List.mem_cons_of_mem _ hd))
        (fun d hd => h0 d (List.mem_cons_of_mem _ hd)) hpost (by simpa using hfuel)
      have hcond : (decide (peek s ≠ ch '\n') && !is_at_end s) = true := by
        rw [hpk, hend]; simp [hcn, hc0]
      simp only [comment_loop, hcond, if_true, h]
      simp only [advance, List.length_cons, scanner_t.mk.injEq, true_and, and_true]
      omega

/-! ### Line comments -/

theorem skip_whitespace_loop_comment (s : scanner_t) (fuel : Nat) (h : peek s = ch '/')
    (h2 : peek_next s = ch '/') :
    skip_whitespace_loop (fuel + 1) s
      = skip_whitespace_loop fuel (comment_loop (remaining s) s) := by
  simp [skip_whitespace_loop, h, h2, ch]

theorem skip_whitespace_loop_newline (s : scanner_t) (fuel : Nat) (h : peek s = ch '\n') :
    skip_whitespace_loop (fuel + 1) s
      = skip_whitespace_loop fuel (advance { s with line := s.line + 1 }).2 := by
  simp [skip_whitespace_loop, h, ch]

theorem scan_token_congr (a b : scanner_t) (h : skip_whitespace a = skip_whitespace b) :
    scan_token a = scan_token b := by
  unfold scan_token
  dsimp only
  rw [h]

theorem scan_all_congr (a b : scanner_t) (h : scan_token a = scan_token b) (n : Nat) :
    scan_all n a = scan_all n b := by
  cases n with
  | zero => rfl
  | succ k => simp only [scan_all, h]

/-- Behind a line comment and its newline, `skip_whitespace` goes on as it does from the first
character of the next line, with the line counter at 2. -/
theorem skip_whitespace_comment (t r : List Int) (hn : ∀ c ∈ t, c ≠ ch '\n')
    (h0 : ∀ c ∈ t, c ≠ 0) :
    skip_whitespace (init_scanner (ch '/' :: ch '/' :: (t ++ ch '\n' :: r)))
      = skip_whitespace
          ⟨ch '/' :: ch '/' :: (t ++ ch '\n' :: r), 0, t.length + 3, 2⟩ := by
  have hbody : ∀ c ∈ ch '/' :: ch '/' :: t, c ≠ ch '\n' := by
    intro c hc
    rcases List.mem_cons.1 hc with rfl | hc
    · decide
    rcases List.mem_cons.1 hc with rfl | hc
    · decide
    exact hn c hc
  have hbody0 : ∀ c ∈ ch '/' :: ch '/' :: t, c ≠ 0 := by
    intro c hc
    rcases List.mem_cons.1 hc with rfl | hc
    · decide
    rcases List.mem_cons.1 hc with rfl | hc
    · decide
    exact h0 c hc
  have hrem : remaining (init_scanner (ch '/' :: ch '/' :: (t ++ ch '\n' :: r)))
      = (t.length + r.length + 1) + 1 + 1 := by
    simp only [remaining, init_scanner, List.length_cons, List.length_append]
    omega
  have hcl := comment_loop_run (ch '/' :: ch '/' :: t)
    (init_scanner (ch '/' :: ch '/' :: (t ++ ch '\n' :: r))) [] (ch '\n' :: r)
    (remaining (init_scanner (ch '/' :: ch '/' :: (t ++ ch '\n' :: r))))
    (by simp [init_scanner]) rfl hbody hbody0 (Or.inl rfl) (by rw [hrem]; simp; omega)
  have hpk1 : peek (⟨ch '/' :: ch '/' :: (t ++ ch '\n' :: r), 0, t.length + 2, 1⟩ : scanner_t)
      = ch '\n' := by
    rw [peek_at _ (ch '/' :: ch '/' :: t) (ch '\n' :: r) (by simp) (by simp)]
    rfl
  unfold skip_whitespace
  rw [hrem, skip_whitespace_loop_comment
    (init_scanner (ch '/' :: ch '/' :: (t ++ ch '\n' :: r))) _ rfl
    (by simp [peek_next, is_at_end, char_at, init_scanner, ch]), hcl]
  simp only [init_scanner, Nat.zero_add, List.length_cons]
  rw [skip_whitespace_loop_newline _ _ hpk1]
  simp only [advance]
  apply skip_whitespace_loop_fuel
  · simp only [remaining, List.length_cons, List.length_append]; omega
  · exact Nat.le_refl _

/-- C7: a line comment contributes no tokens.  For every comment text `t` without a newline
(and without a NUL, as in every C string) and every remainder `r`, the first `n` tokens
scanned from the source `//`, `t`, newline, `r` have, for every `n`, the kinds and the lexemes
of the first `n` tokens scanned from `r`, and each line number is larger by exactly one (the
token sequences are cut behind the first `TOKEN_EOF`, so for `n` large they are the whole
sequences).  The source `// comment\n1` gives the `TOKEN_NUMBER` `1` at line 2, then
`TOKEN_EOF`. -/
theorem line_comment_skipped (t r : List Int) (hn : ∀ c ∈ t, c ≠ ch '\n')
    (h0 : ∀ c ∈ t, c ≠ 0) :
    (∀ n, (scan_all n (init_scanner (cstr "//" ++ t ++ ch '\n' :: r))).map
            (token_view (cstr "//" ++ t ++ ch '\n' :: r))
        = (scan_all n (init_scanner r)).map
            (fun tok => (tok.kind, lexeme r tok, tok.line + 1)))
    ∧ scan_all 2 (init_scanner (cstr "// comment\n1"))
        = [⟨TOKEN_NUMBER, char_ptr.source 11, 1, 2⟩, ⟨TOKEN_EOF, char_ptr.source 12, 0, 2⟩] := by
  refine ⟨?_, by decide⟩
  intro n
  have hsrc : cstr "//" ++ t ++ ch '\n' :: r = (ch '/' :: ch '/' :: (t ++ [ch '\n'])) ++ r := by
    simp [cstr, ch]
  have hsrc2 : ch '/' :: ch '/' :: (t ++ ch '\n' :: r)
      = (ch '/' :: ch '/' :: (t ++ [ch '\n'])) ++ r := by simp
  have hS : (⟨ch '/' :: ch '/' :: (t ++ ch '\n' :: r), 0, t.length + 3, 2⟩ : scanner_t)
      = { shift (ch '/' :: ch '/' :: (t ++ [ch '\n'])) 1 (init_scanner r) with start := 0 } := by
    simp only [shift, init_scanner, scanner_t.mk.injEq, List.length_cons, List.length_append,
      List.length_singleton, List.length_nil, List.cons_append, List.append_assoc,
      List.singleton_append, true_and]
    exact ⟨by simp, by norm_num⟩
  have h1 : scan_token (init_scanner (ch '/' :: ch '/' :: (t ++ ch '\n' :: r)))
      = scan_token (shift (ch '/' :: ch '/' :: (t ++ [ch '\n'])) 1 (init_scanner r)) := by
    rw [scan_token_congr _ _ (skip_whitespace_comment t r hn h0), hS, scan_token_start]
  rw [hsrc, ← hsrc2, scan_all_congr _ _ h1 n, scan_all_shift, List.map_map, hsrc2]
  apply List.map_congr_left
  intro tok _
  show token_view ((ch '/' :: ch '/' :: (t ++ [ch '\n'])) ++ r)
      (shift_token (ch '/' :: ch '/' :: (t ++ [ch '\n'])).length 1 tok) = _
  rw [token_view_shift]
  rfl

/-- C7 at the comment text ` comment` and the remainder `1`. -/
theorem line_comment_skipped_witness :
    ((∀ c ∈ cstr " comment", c ≠ ch '\n') ∧ (∀ c ∈ cstr " comment", c ≠ 0))
    ∧ (scan_all 2 (init_scanner (cstr "//" ++ cstr " comment" ++ ch '\n' :: cstr "1"))).map
          (token_view (cstr "//" ++ cstr " comment" ++ ch '\n' :: cstr "1"))
        = [(TOKEN_NUMBER, cstr "1", 2), (TOKEN_EOF, [], 2)] :=
  ⟨by decide, (line_comment_skipped (cstr " comment") (cstr "1") (by decide) (by decide)).1 2⟩

/-! ### The fuel of the remaining loops is never used up -/

/-- The inner loop of `skip_whitespace` stops only at a newline or at the terminator. -/
theorem comment_loop_exit (fuel : Nat) :
    ∀ s, remaining s ≤ fuel →
      peek (comment_loop fuel s) = ch '\n' ∨ is_at_end (comment_loop fuel s) = true := by
  induction fuel with
  | zero =>
    intro s h
    right
    have hp := peek_of_end s (by omega)
    simp only [comment_loop, is_at_end, beq_iff_eq]
    exact hp
  | succ k ih =>
    intro s h
    simp only [comment_loop]
    split
    · exact ih _ (by rw [remaining_advance]; omega)
    · rename_i hc
      simp only [ne_eq, Bool.and_eq_true, decide_eq_true_eq, Bool.not_eq_true', not_and,
        Bool.not_eq_false] at hc
      by_cases hq : peek s = ch '\n'
      · exact Or.inl hq
      · exact Or.inr (hc hq)

/-- The loops of `number` stop only in front of a character that is not a digit. -/
theorem digits_loop_exit (fuel : Nat) :
    ∀ s, remaining s ≤ fuel → is_digit (peek (digits_loop fuel s)) = false := by
  induction fuel with
  | zero =>
    intro s h
    rw [digits_loop, peek_of_end s (by omega)]
    decide
  | succ k ih =>
    intro s h
    simp only [digits_loop]
    split
    · exact ih _ (by rw [remaining_advance]; omega)
    · rename_i hc
      simpa using hc

/-- The loop of `identifier` stops only in front of a character that `is_alpha` and `is_digit`
both reject. -/
theorem identifier_loop_exit (fuel : Nat) :
    ∀ s, remaining s ≤ fuel →
      (is_alpha (peek (identifier_loop fuel s)) || is_digit (peek (identifier_loop fuel s)))
        = false := by
  induction fuel with
  | zero =>
    intro s h
    rw [identifier_loop, peek_of_end s (by omega)]
    decide
  | succ k ih =>
    intro s h
    simp only [identifier_loop]
    split
    · exact ih _ (by rw [remaining_advance]; omega)
    · rename_i hc
      simpa using hc

/-! ### End of input and progress -/

theorem kind_ite_ne (c : Prop) [Decidable c] (a b K : token_kind_t) (ha : c → a ≠ K)
    (hb : ¬ c → b ≠ K) : (if c then a else b) ≠ K := by
  by_cases h : c
  · rw [if_pos h]; exact ha h
  · rw [if_neg h]; exact hb h

theorem check_keyword_ne (s : scanner_t) (start length : Nat) (rest : String)
    (type K : token_kind_t) (h1 : type ≠ K) (h2 : TOKEN_IDENTIFIER ≠ K) :
    check_keyword s start length rest type ≠ K := by
  unfold check_keyword
  exact kind_ite_ne _ _ _ _ (fun _ => h1) (fun _ => h2)

theorem identifier_type_ne_eof (s : scanner_t) : identifier_type s ≠ TOKEN_EOF := by
  unfold identifier_type
  dsimp only
  repeat' (with_reducible refine kind_ite_ne _ _ _ _ (fun _ => ?_) (fun _ => ?_))
  all_goals
    first
    | exact check_keyword_ne _ _ _ _ _ _ (by decide) (by decide)
    | decide

theorem scan_adv_ite (s : scanner_t) (c : Prop) [Decidable c] (a b : token_t × scanner_t)
    (ha : c → scan_adv s a) (hb : ¬ c → scan_adv s b) : scan_adv s (if c then a else b) := by
  by_cases h : c
  · rw [if_pos h]; exact ha h
  · rw [if_neg h]; exact hb h

theorem scan_adv_make (s s1 : scanner_t) (kind : token_kind_t) (hk : kind ≠ TOKEN_EOF)
    (ha : adv s s1) : scan_adv s (make_token s1 kind, s1) := ⟨hk, ha⟩

theorem scan_adv_error (s s1 : scanner_t) (msg : String) (ha : adv s s1) :
    scan_adv s (error_token s1 msg, s1) := ⟨by simp [error_token], ha⟩

theorem number_adv (s : scanner_t) : scan_adv s (number s) := by
  simp only [number]
  refine scan_adv_make _ _ _ (by decide) ?_
  split
  · rename_i hc
    simp only [Bool.and_eq_true, decide_eq_true_eq] at hc
    have h1 := (digits_loop_adv (remaining s) s).1
    have h3 := adv_advance (digits_loop (remaining s) s) (by rw [hc.1]; decide)
      (by rw [hc.1]; decide)
    exact adv_trans h1 (adv_trans h3 (digits_loop_adv _ _).1)
  · exact (digits_loop_adv (remaining s) s).1

theorem identifier_adv (s : scanner_t) : scan_adv s (identifier s) := by
  simp only [identifier]
  exact scan_adv_make _ _ _ (identifier_type_ne_eof _) (identifier_loop_adv _ s).1

theorem string_adv (s : scanner_t) : scan_adv s (string s) := by
  have h1 := string_loop_adv (remaining s) s
  simp only [string]
  split
  · exact scan_adv_error _ _ _ h1
  · rename_i hend
    simp only [Bool.not_eq_true, is_at_end_false_iff] at hend
    have hq : peek (string_loop (remaining s) s) = ch '"' := by
      rcases string_loop_exit _ s (Nat.le_refl _) with h | h
      · exact h
      · exact absurd ((is_at_end_false_iff _).2 hend) (by rw [h]; decide)
    exact scan_adv_make _ _ _ (by decide)
      (adv_trans h1 (adv_advance _ hend (by rw [hq]; decide)))

/-- The two ways a call of `scan_token` goes: at the terminator it returns `TOKEN_EOF` without
moving, and everywhere else it consumes a character, returns another kind of token and only
moves forward from there. -/
theorem scan_token_cases (s : scanner_t) :
    (is_at_end (skip_whitespace s) = true
      ∧ scan_token s
        = (make_token { skip_whitespace s with start := (skip_whitespace s).current } TOKEN_EOF,
            { skip_whitespace s with start := (skip_whitespace s).current }))
    ∨ (is_at_end (skip_whitespace s) = false
      ∧ scan_adv (advance { skip_whitespace s with start := (skip_whitespace s).current }).2
          (scan_token s)) := by
  have hend : is_at_end { skip_whitespace s with start := (skip_whitespace s).current }
      = is_at_end (skip_whitespace s) := rfl
  generalize hs2 : ({ skip_whitespace s with start := (skip_whitespace s).current } : scanner_t)
    = s2 at hend
  have hm := match_adv (advance s2).2 (ch '=') (by decide) (by decide)
  by_cases h : is_at_end (skip_whitespace s) = true
  · left
    refine ⟨h, ?_⟩
    unfold scan_token
    dsimp only
    rw [hs2, if_pos (by rw [hend]; exact h)]
  · right
    simp only [Bool.not_eq_true] at h
    refine ⟨h, ?_⟩
    unfold scan_token
    dsimp only
    rw [hs2, if_neg (by rw [hend, h]; decide)]
    repeat' (with_reducible refine scan_adv_ite _ _ _ _ (fun _ => ?_) (fun _ => ?_))
    all_goals
      first
      | with_reducible exact number_adv _
      | with_reducible exact identifier_adv _
      | with_reducible exact string_adv _
      | with_reducible exact scan_adv_error _ _ _ (adv_refl _)
      | exact scan_adv_make _ _ _ (by decide) (adv_refl _)
      | exact scan_adv_make _ _ _ (by split <;> decide) hm.1

theorem scan_token_eof (s : scanner_t) (h : (scan_token s).1.kind = TOKEN_EOF) :
    is_at_end (skip_whitespace s) = true
      ∧ scan_token s
        = (make_token { skip_whitespace s with start := (skip_whitespace s).current } TOKEN_EOF,
            { skip_whitespace s with start := (skip_whitespace s).current }) := by
  rcases scan_token_cases s with h1 | h1
  · exact h1
  · exact absurd h h1.2.1

theorem skip_whitespace_at_end (s : scanner_t) (h : is_at_end s = true) :
    skip_whitespace s = s := by
  have hp : peek s = 0 := by simpa [is_at_end, peek] using h
  exact skip_whitespace_loop_stop s _ (by rw [hp]; decide) (by rw [hp]; decide)
    (by rw [hp]; decide) (by rw [hp]; decide)
    (by rw [hp]; intro hc; exact absurd hc (by decide))

/-- At the terminator, with `start` on the cursor, `scan_token` returns `TOKEN_EOF` and leaves
the scanner as it is. -/
theorem scan_token_fixed (s : scanner_t) (hend : is_at_end s = true)
    (hst : s.start = s.current) :
    scan_token s = (⟨TOKEN_EOF, char_ptr.source s.current, 0, s.line⟩, s) := by
  have hsk := skip_whitespace_at_end s hend
  have hs2 : ({ skip_whitespace s with start := (skip_whitespace s).current } : scanner_t)
      = s := by
    rw [hsk]
    cases s
    simp only at hst
    subst hst
    rfl
  rcases scan_token_cases s with h1 | h1
  · rw [h1.2, hs2]
    simp [make_token, hst]
  · rw [hsk, hend] at h1
    exact absurd h1.1 (by decide)

theorem scan_state_succ (src : List Int) (n : Nat) :
    scan_state src (n + 1) = (scan_token (scan_state src n)).2 := rfl

/-- C11: `TOKEN_EOF` is absorbing.  For every source, once call `n` of `scan_token` has
returned `TOKEN_EOF`, every later call returns the same `TOKEN_EOF` token, whose lexeme is
empty, and leaves the scanner (cursor and line counter included) unchanged. -/
theorem eof_absorbing (src : List Int) (n : Nat) (h : (nth_token src n).kind = TOKEN_EOF) :
    ∀ k, (nth_token src (n + 1 + k)).kind = TOKEN_EOF
      ∧ (nth_token src (n + 1 + k)).length = 0
      ∧ lexeme src (nth_token src (n + 1 + k)) = []
      ∧ nth_token src (n + 1 + k) = nth_token src n
      ∧ (scan_state src (n + 1 + k + 1)).current = (scan_state src (n + 1 + k)).current
      ∧ (scan_state src (n + 1 + k + 1)).line = (scan_state src (n + 1 + k)).line
      ∧ scan_state src (n + 1 + k + 1) = scan_state src (n + 1) := by
  obtain ⟨hend, hscan⟩ := scan_token_eof (scan_state src n) h
  generalize hs2 : ({ skip_whitespace (scan_state src n) with
      start := (skip_whitespace (scan_state src n)).current } : scanner_t) = s2 at hscan
  have hend2 : is_at_end s2 = true := by rw [← hs2]; exact hend
  have hst2 : s2.start = s2.current := by rw [← hs2]
  have hfix := scan_token_fixed s2 hend2 hst2
  have htok : nth_token src n = ⟨TOKEN_EOF, char_ptr.source s2.current, 0, s2.line⟩ := by
    show (scan_token (scan_state src n)).1 = _
    rw [hscan]
    simp [make_token, hst2]
  have hstate : ∀ k, scan_state src (n + 1 + k) = s2 := by
    intro k
    induction k with
    | zero => show (scan_token (scan_state src n)).2 = _; rw [hscan]
    | succ k ih =>
      show (scan_token (scan_state src (n + 1 + k))).2 = _
      rw [ih, hfix]
  intro k
  have hk : nth_token src (n + 1 + k) = ⟨TOKEN_EOF, char_ptr.source s2.current, 0, s2.line⟩ := by
    show (scan_token (scan_state src (n + 1 + k))).1 = _
    rw [hstate k, hfix]
  have hk1 := hstate (k + 1)
  rw [← Nat.add_assoc] at hk1
  rw [hk, htok, hk1, hstate k, hstate 0]
  simp [lexeme]

/-- C11 on the source `1`: the calls behind the number all return `TOKEN_EOF`. -/
theorem eof_absorbing_witness :
    (nth_token (cstr "1") 1).kind = TOKEN_EOF
    ∧ nth_token (cstr "1") 4 = ⟨TOKEN_EOF, char_ptr.source 1, 0, 1⟩
    ∧ scan_state (cstr "1") 5 = scan_state (cstr "1") 2 :=
  ⟨by decide,
    (by
      have h := (eof_absorbing (cstr "1") 1 (by decide) 2).2.2.2.1
      exact h.trans (by decide)),
    (eof_absorbing (cstr "1") 1 (by decide) 2).2.2.2.2.2.2⟩

/-- A call of `scan_token` that returns a token other than `TOKEN_EOF` moves the cursor
forward by at least one character. -/
theorem scan_token_progress (s : scanner_t) (h : (scan_token s).1.kind ≠ TOKEN_EOF) :
    s.current < (scan_token s).2.current := by
  have hsk := (skip_whitespace_loop_adv (remaining s) s).2.2.1
  rcases scan_token_cases s with h1 | h1
  · rw [h1.2] at h
    exact absurd rfl h
  · have := h1.2.2.2.2.1
    simp only [advance] at this
    have e : skip_whitespace s = skip_whitespace_loop (remaining s) s := rfl
    rw [e] at this
    omega

/-- A call of `scan_token` never moves the cursor back and returns with `start` at or in front
of the cursor. -/
theorem scan_token_moves (s : scanner_t) :
    s.current ≤ (scan_token s).2.current
      ∧ (scan_token s).2.start ≤ (scan_token s).2.current := by
  have hsk := (skip_whitespace_loop_adv (remaining s) s).2.2.1
  have e : skip_whitespace s = skip_whitespace_loop (remaining s) s := rfl
  rcases scan_token_cases s with h1 | h1
  · rw [h1.2]
    simp only [e]
    exact ⟨hsk, Nat.le_refl _⟩
  · have h2 := h1.2.2.2.2.1
    have h3 := h1.2.2.2.1
    simp only [advance, e] at h2 h3
    constructor
    · omega
    · rw [h3]; omega

theorem first_tokens_progress (src : List Int) :
    ∀ k, (∀ j, j < k → (nth_token src j).kind ≠ TOKEN_EOF) → k ≤ (scan_state src k).current := by
  intro k
  induction k with
  | zero => intro _; exact Nat.zero_le _
  | succ k ih =>
    intro h
    have h1 := ih (fun j hj => h j (by omega))
    have h2 := scan_token_progress (scan_state src k) (h k (by omega))
    rw [scan_state_succ]
    omega

theorem scan_all_first_eof (src : List Int) (k : Nat)
    (hk : (nth_token src k).kind = TOKEN_EOF) :
    ∀ d i, i + d = k → (∀ j, i ≤ j → j < k → (nth_token src j).kind ≠ TOKEN_EOF) →
      ∀ m, d < m →
        scan_all m (scan_state src i)
          = (List.range' i d).map (nth_token src) ++ [nth_token src k] := by
  intro d
  induction d with
  | zero =>
    intro i hi _ m hm
    have : i = k := by omega
    subst this
    obtain ⟨m1, rfl⟩ : ∃ m1, m = m1 + 1 := ⟨m - 1, by omega⟩
    have hk1 : (scan_token (scan_state src i)).1.kind = TOKEN_EOF := hk
    simp only [scan_all, hk1, if_true, List.range'_zero, List.map_nil, List.nil_append]
    rfl
  | succ d ih =>
    intro i hi hne m hm
    obtain ⟨m1, rfl⟩ : ∃ m1, m = m1 + 1 := ⟨m - 1, by omega⟩
    have hi1 : (scan_token (scan_state src i)).1.kind ≠ TOKEN_EOF := hne i (Nat.le_refl _) (by omega)
    have h := ih (i + 1) (by omega) (fun j hj1 hj2 => hne j (by omega) hj2) m1 (by omega)
    simp only [scan_all, hi1, if_false]
    rw [← scan_state_succ, h]
    simp only [List.range'_succ, List.map_cons, List.cons_append]
    rfl

/-- C20: scanning makes progress and ends.  For every source, every call of `scan_token` that
returns a token other than `TOKEN_EOF` moves the cursor forward by at least one character;
the first `TOKEN_EOF` is returned by a call `k` with at most `k ≤ source length` calls in front
of it, all of which return other tokens; and the token sequence of the source is these `k`
tokens followed by `TOKEN_EOF`, whatever number of calls above `k` is allowed. -/
theorem scan_terminates (src : List Int) :
    (∀ n, (nth_token src n).kind ≠ TOKEN_EOF →
      (scan_state src n).current < (scan_state src (n + 1)).current)
    ∧ ∃ k, k ≤ src.length ∧ (nth_token src k).kind = TOKEN_EOF
        ∧ (∀ j, j < k → (nth_token src j).kind ≠ TOKEN_EOF)
        ∧ ∀ m, k < m →
            scan_all m (init_scanner src)
              = (List.range k).map (nth_token src) ++ [nth_token src k] := by
  constructor
  · intro n h
    exact scan_token_progress (scan_state src n) h
  · have hex : ∃ k, (nth_token src k).kind = TOKEN_EOF := by
      by_contra hno
      simp only [not_exists] at hno
      have h1 := first_tokens_progress src (src.length + 1) (fun j _ => hno j)
      have h2 := (scan_state_line_inv src (src.length + 1)).1.1
      rw [(scan_state_line_inv src (src.length + 1)).2] at h2
      omega
    refine ⟨Nat.find hex, ?_, Nat.find_spec hex, fun j hj => Nat.find_min hex hj, ?_⟩
    · have h1 := first_tokens_progress src (Nat.find hex) (fun j hj => Nat.find_min hex hj)
      have h2 := (scan_state_line_inv src (Nat.find hex)).1.1
      rw [(scan_state_line_inv src (Nat.find hex)).2] at h2
      omega
    · intro m hm
      have h := scan_all_first_eof src (Nat.find hex) (Nat.find_spec hex) (Nat.find hex) 0
        (by omega) (fun j _ hj => Nat.find_min hex hj) m hm
      rw [List.range_eq_range']
      exact h

/-- C20 on the source `1 2`: call 0 returns a number and moves the cursor from 0 to 1. -/
theorem scan_terminates_witness :
    (nth_token (cstr "1 2") 0).kind ≠ TOKEN_EOF
    ∧ (scan_state (cstr "1 2") 0).current < (scan_state (cstr "1 2") 1).current :=
  ⟨by decide, (scan_terminates (cstr "1 2")).1 0 (by decide)⟩

theorem count_newlines_nonneg (l : List Int) : 0 ≤ count_newlines l := by
  simp [count_newlines]

/-- C17: cursor discipline.  For every source and every call of `scan_token` on it, the cursor
after the call is at or behind the cursor before it, `start` is at or in front of the cursor
on return, and the line counter does not decrease: it grows by exactly the number of newline
characters between the cursor before the call and the cursor after it. -/
theorem scan_cursor_discipline (src : List Int) (n : Nat) :
    (scan_state src n).current ≤ (scan_state src (n + 1)).current
    ∧ (scan_state src (n + 1)).start ≤ (scan_state src (n + 1)).current
    ∧ (scan_state src n).line ≤ (scan_state src (n + 1)).line
    ∧ (scan_state src (n + 1)).line
        = (scan_state src n).line
          + count_newlines
              ((src.take (scan_state src (n + 1)).current).drop (scan_state src n).current) := by
  have hm := scan_token_moves (scan_state src n)
  rw [← scan_state_succ] at hm
  have h1 := scan_state_line_inv src n
  have h2 := scan_state_line_inv src (n + 1)
  have hl1 := h1.1.2
  have hl2 := h2.1.2
  rw [h1.2] at hl1
  rw [h2.2] at hl2
  have hsplit : src.take (scan_state src (n + 1)).current
      = src.take (scan_state src n).current
        ++ (src.take (scan_state src (n + 1)).current).drop (scan_state src n).current := by
    have := List.take_append_drop (scan_state src n).current
      (src.take (scan_state src (n + 1)).current)
    rw [List.take_take, Nat.min_eq_left hm.1] at this
    exact this.symm
  have hc : count_newlines (src.take (scan_state src (n + 1)).current)
      = count_newlines (src.take (scan_state src n).current)
        + count_newlines
            ((src.take (scan_state src (n + 1)).current).drop (scan_state src n).current) := by
    conv_lhs => rw [hsplit]
    exact count_newlines_append _ _
  have hnn := count_newlines_nonneg
    ((src.take (scan_state src (n + 1)).current).drop (scan_state src n).current)
  refine ⟨hm.1, hm.2, ?_, ?_⟩
  · rw [hl1, hl2, hc]; omega
  · rw [hl1, hl2, hc]; ring

/-- C18: for every text `body` without a double quote (and without a NUL, as in every C string)
and every remainder `r`, the first token of the source double quote, `body`, double quote, `r`
is a `TOKEN_STRING` that starts at offset 0, whose lexeme is the `body.length + 2` characters
from the opening to the closing quote, both included; the cursor is left on the first
character of `r` and the line counter has grown by the number of newlines in `body`. -/
theorem scan_string_literal (body r : List Int) (hq : ∀ c ∈ body, c ≠ ch '"')
    (h0 : ∀ c ∈ body, c ≠ 0) :
    scan_token (init_scanner (ch '"' :: (body ++ ch '"' :: r)))
        = (⟨TOKEN_STRING, char_ptr.source 0, (body.length : Int) + 2, 1 + count_newlines body⟩,
            ⟨ch '"' :: (body ++ ch '"' :: r), 0, body.length + 2, 1 + count_newlines body⟩)
    ∧ lexeme (ch '"' :: (body ++ ch '"' :: r))
          (scan_token (init_scanner (ch '"' :: (body ++ ch '"' :: r)))).1
        = ch '"' :: (body ++ [ch '"'])
    ∧ (ch '"' :: (body ++ ch '"' :: r)).drop
          (scan_token (init_scanner (ch '"' :: (body ++ ch '"' :: r)))).2.current = r := by
  have hpk : peek (init_scanner (ch '"' :: (body ++ ch '"' :: r))) = ch '"' := rfl
  have hsk := skip_whitespace_quote _ hpk
  have hscan := scan_token_of_quote (init_scanner (ch '"' :: (body ++ ch '"' :: r)))
    (by rw [hsk, hpk])
  rw [hsk] at hscan
  simp only [init_scanner, Nat.zero_add] at hscan
  have hloop := string_loop_run body ⟨ch '"' :: (body ++ ch '"' :: r), 0, 1, 1⟩ [ch '"']
    (ch '"' :: r) (remaining ⟨ch '"' :: (body ++ ch '"' :: r), 0, 1, 1⟩) (by simp) rfl hq h0
    (Or.inl rfl) (by simp [remaining])
  have hend : is_at_end ⟨ch '"' :: (body ++ ch '"' :: r), 0, 1 + body.length,
      1 + count_newlines body⟩ = false := by
    rw [is_at_end_at _ (ch '"' :: body) (ch '"' :: r) (by simp) (by simp; omega)]
    rfl
  have hfirst : scan_token (init_scanner (ch '"' :: (body ++ ch '"' :: r)))
      = (⟨TOKEN_STRING, char_ptr.source 0, (body.length : Int) + 2, 1 + count_newlines body⟩,
          ⟨ch '"' :: (body ++ ch '"' :: r), 0, body.length + 2, 1 + count_newlines body⟩) := by
    simp only [init_scanner]
    rw [hscan]
    simp only [string, hloop, hend, advance, make_token]
    simp only [Bool.false_eq_true, if_false, Prod.mk.injEq, scanner_t.mk.injEq,
      token_t.mk.injEq, true_and, and_true]
    refine ⟨by push_cast; ring, by omega⟩
  rw [hfirst]
  refine ⟨rfl, ?_, ?_⟩
  · simp only [lexeme]
    have e : ch '"' :: (body ++ ch '"' :: r) = (ch '"' :: (body ++ [ch '"'])) ++ r := by simp
    have hn : ((body.length : Int) + 2).toNat = (ch '"' :: (body ++ [ch '"'])).length := by
      simp only [List.length_cons, List.length_append, List.length_singleton, List.length_nil]
      omega
    rw [List.drop_zero, hn, e, List.take_left']
    rfl
  · have e : ch '"' :: (body ++ ch '"' :: r) = (ch '"' :: (body ++ [ch '"'])) ++ r := by simp
    simp only
    rw [e]
    apply List.drop_left'
    simp

/-- C18 at the text `a\nb` and the remainder ` x`. -/
theorem scan_string_literal_witness :
    ((∀ c ∈ cstr "a\nb", c ≠ ch '"') ∧ (∀ c ∈ cstr "a\nb", c ≠ 0))
    ∧ scan_token (init_scanner (cstr "\"a\nb\" x"))
      = (⟨TOKEN_STRING, char_ptr.source 0, 5, 2⟩, ⟨cstr "\"a\nb\" x", 0, 5, 2⟩) :=
  ⟨by decide, (scan_string_literal (cstr "a\nb") (cstr " x") (by decide) (by decide)).1⟩

/-! ### Reads and moves stay in the buffer -/

theorem read_eq (s : scanner_t) (i : Nat) (h : i ≤ s.source.length) :
    read s i = some (char_at s i) := if_pos h

theorem is_at_end_checked_eq (s : scanner_t) (h : s.current ≤ s.source.length) :
    is_at_end_checked s = some (is_at_end s) := by
  simp only [is_at_end_checked, read_eq s _ h, Option.map_some', is_at_end]

theorem peek_checked_eq (s : scanner_t) (h : s.current ≤ s.source.length) :
    peek_checked s = some (peek s) := read_eq s _ h

theorem advance_checked_eq (s : scanner_t) (h : s.current < s.source.length) :
    advance_checked s = some (advance s) := by
  have h1 : s.current + 1 ≤ s.source.length := h
  simp only [advance_checked, move, if_pos h1, Option.some_bind]
  rw [read_eq _ _ (by simp only [Nat.add_sub_cancel]; omega)]
  simp only [Option.map_some', advance, Nat.add_sub_cancel]
  rfl

theorem is_at_end_lt (s : scanner_t) (h : is_at_end s = false) :
    s.current < s.source.length :=
  peek_ne_zero_lt s ((is_at_end_false_iff s).1 h)

theorem peek_next_checked_eq (s : scanner_t) (h : s.current ≤ s.source.length) :
    peek_next_checked s = some (peek_next s) := by
  simp only [peek_next_checked, is_at_end_checked_eq s h, Option.some_bind, peek_next]
  cases he : is_at_end s
  · have := is_at_end_lt s he
    simp only [Bool.false_eq_true, if_false]
    exact read_eq s _ this
  · simp only [if_true]

theorem match_checked_eq (s : scanner_t) (expected : Int) (h : s.current ≤ s.source.length) :
    match_checked s expected = some (match_ s expected) := by
  simp only [match_checked, is_at_end_checked_eq s h, Option.some_bind, match_]
  cases he : is_at_end s
  · have hlt : s.current + 1 ≤ s.source.length := is_at_end_lt s he
    simp only [Bool.false_eq_true, if_false, read_eq s _ h, Option.some_bind, move, if_pos hlt,
      Option.map_some']
    by_cases hc : char_at s s.current = expected
    · simp only [hc, ne_eq, not_true_eq_false, if_false]
    · simp only [ne_eq, hc, not_false_eq_true, if_true]
  · simp only [if_true]

theorem is_at_end_of_end (s : scanner_t) (h : remaining s = 0) : is_at_end s = true := by
  have hp := peek_of_end s h
  simp only [peek] at hp
  simp only [is_at_end, hp]
  rfl

theorem comment_loop_checked_eq (fuel : Nat) :
    ∀ s, line_inv s → remaining s ≤ fuel →
      comment_loop_checked (fuel + 1) s = some (comment_loop fuel s) := by
  induction fuel with
  | zero =>
    intro s h hr
    have he := is_at_end_of_end s (by omega)
    rw [comment_loop_checked]
    simp only [peek_checked_eq s h.1, is_at_end_checked_eq s h.1, Option.some_bind, he,
      comment_loop, Bool.not_true, Bool.false_eq_true, if_false, ite_self]
  | succ fuel ih =>
    intro s h hr
    rw [comment_loop_checked]
    simp only [peek_checked_eq s h.1, is_at_end_checked_eq s h.1, Option.some_bind]
    by_cases hn : peek s = ch '\n'
    · simp [comment_loop, hn]
    · cases he : is_at_end s
      · have h0 := (is_at_end_false_iff s).1 he
        have hlt := peek_ne_zero_lt s h0
        simp only [ne_eq, hn, not_false_eq_true, if_true, Bool.not_false,
          advance_checked_eq s hlt, Option.some_bind]
        rw [ih (advance s).2 ((adv_advance s h0 hn).2.2.2 h) (by rw [remaining_advance]; omega)]
        simp [comment_loop, hn, he]
      · simp [comment_loop, hn, he]

theorem digits_loop_checked_eq (fuel : Nat) :
    ∀ s, line_inv s → remaining s ≤ fuel →
      digits_loop_checked (fuel + 1) s = some (digits_loop fuel s) := by
  induction fuel with
  | zero =>
    intro s h hr
    have hp := peek_of_end s (by omega)
    rw [digits_loop_checked]
    simp only [peek_checked_eq s h.1, Option.some_bind, hp, digits_loop]
    rfl
  | succ fuel ih =>
    intro s h hr
    rw [digits_loop_checked]
    simp only [peek_checked_eq s h.1, Option.some_bind]
    cases hd : is_digit (peek s)
    · simp [digits_loop, hd]
    · have hne := is_digit_ne _ hd
      have hlt := peek_ne_zero_lt s hne.1
      simp only [if_true, advance_checked_eq s hlt, Option.some_bind]
      rw [ih (advance s).2 ((adv_advance s hne.1 hne.2).2.2.2 h)
        (by rw [remaining_advance]; omega)]
      simp [digits_loop, hd]

theorem identifier_loop_checked_eq (fuel : Nat) :
    ∀ s, line_inv s → remaining s ≤ fuel →
      identifier_loop_checked (fuel + 1) s = some (identifier_loop fuel s) := by
  induction fuel with
  | zero =>
    intro s h hr
    have hp := peek_of_end s (by omega)
    rw [identifier_loop_checked]
    simp only [peek_checked_eq s h.1, Option.some_bind, hp, identifier_loop]
    rfl
  | succ fuel ih =>
    intro s h hr
    rw [identifier_loop_checked]
    simp only [peek_checked_eq s h.1, Option.some_bind]
    cases ha : is_alpha (peek s)
    · cases hd : is_digit (peek s)
      · simp [identifier_loop, ha, hd]
      · have hne := is_digit_ne _ hd
        have hlt := peek_ne_zero_lt s hne.1
        simp only [Bool.false_eq_true, if_false, if_true, advance_checked_eq s hlt,
          Option.some_bind]
        rw [ih (advance s).2 ((adv_advance s hne.1 hne.2).2.2.2 h)
          (by rw [remaining_advance]; omega)]
        simp [identifier_loop, ha, hd]
    · have hne := is_alpha_ne _ ha
      have hlt := peek_ne_zero_lt s hne.1
      simp only [if_true, advance_checked_eq s hlt, Option.some_bind]
      rw [ih (advance s).2 ((adv_advance s hne.1 hne.2).2.2.2 h)
        (by rw [remaining_advance]; omega)]
      simp [identifier_loop, ha]

theorem string_loop_checked_eq (fuel : Nat) :
    ∀ s, line_inv s → remaining s ≤ fuel →
      string_loop_checked (fuel + 1) s = some (string_loop fuel s) := by
  induction fuel with
  | zero =>
    intro s h hr
    have he := is_at_end_of_end s (by omega)
    rw [string_loop_checked]
    simp only [peek_checked_eq s h.1, is_at_end_checked_eq s h.1, Option.some_bind, he,
      string_loop, Bool.not_true, Bool.false_eq_true, if_false, ite_self]
  | succ fuel ih =>
    intro s h hr
    rw [string_loop_checked]
    simp only [peek_checked_eq s h.1, is_at_end_checked_eq s h.1, Option.some_bind]
    by_cases hq : peek s = ch '"'
    · simp [string_loop, hq]
    · cases he : is_at_end s
      · have h0 := (is_at_end_false_iff s).1 he
        have hlt := peek_ne_zero_lt s h0
        simp only [ne_eq, hq, not_false_eq_true, if_true, Bool.not_false]
        by_cases hn : peek s = ch '\n'
        · have hadv := adv_newline s hn
          have hlt1 : ({ s with line := s.line + 1 } : scanner_t).current
              < ({ s with line := s.line + 1 } : scanner_t).source.length := hlt
          simp only [hn, if_true, advance_checked_eq _ hlt1, Option.some_bind]
          rw [ih _ (hadv.2.2.2 h) (by
            have := remaining_advance { s with line := s.line + 1 }
            have e : remaining { s with line := s.line + 1 } = remaining s := rfl
            omega)]
          simp [string_loop, he, hn, (by decide : ¬ ch '\n' = ch '"')]
        · simp only [hn, if_false, advance_checked_eq s hlt, Option.some_bind]
          rw [ih (advance s).2 ((adv_advance s h0 hn).2.2.2 h)
            (by rw [remaining_advance]; omega)]
          simp [string_loop, hq, he, hn]
      · simp [string_loop, hq, he]

theorem skip_whitespace_loop_checked_eq (fuel : Nat) :
    ∀ s, line_inv s → remaining s ≤ fuel →
      skip_whitespace_loop_checked (fuel + 1) s = some (skip_whitespace_loop fuel s) := by
  induction fuel with
  | zero =>
    intro s h hr
    have hp := peek_of_end s (by omega)
    rw [skip_whitespace_loop_checked]
    simp only [peek_checked_eq s h.1, Option.some_bind, hp, skip_whitespace_loop]
    rfl
  | succ fuel ih =>
    intro s h hr
    rw [skip_whitespace_loop_checked]
    simp only [peek_checked_eq s h.1, Option.some_bind]
    by_cases hb : peek s = ch ' ' ∨ peek s = ch '\r' ∨ peek s = ch '\t'
    · have hne : peek s ≠ 0 ∧ peek s ≠ ch '\n' := by
        rcases hb with hb | hb | hb <;> rw [hb] <;> decide
      have hlt := peek_ne_zero_lt s hne.1
      simp only [hb, if_true, advance_checked_eq s hlt, Option.some_bind]
      rw [ih (advance s).2 ((adv_advance s hne.1 hne.2).2.2.2 h)
        (by rw [remaining_advance]; omega)]
      simp only [skip_whitespace_loop, hb, if_true]
    · by_cases hn : peek s = ch '\n'
      · have hadv := adv_newline s hn
        have hlt : s.current < s.source.length :=
          peek_ne_zero_lt s (by rw [hn]; decide)
        have hlt1 : ({ s with line := s.line + 1 } : scanner_t).current
            < ({ s with line := s.line + 1 } : scanner_t).source.length := hlt
        rw [if_neg hb, if_pos hn, advance_checked_eq _ hlt1, Option.some_bind]
        rw [ih _ (hadv.2.2.2 h) (by
          have := remaining_advance { s with line := s.line + 1 }
          have e : remaining { s with line := s.line + 1 } = remaining s := rfl
          omega)]
        rw [skip_whitespace_loop]
        rw [if_neg hb, if_pos hn]
      · by_cases hs : peek s = ch '/'
        · rw [if_neg hb, if_neg hn, if_pos hs, peek_next_checked_eq s h.1, Option.some_bind]
          by_cases hs2 : peek_next s = ch '/'
          · have h0 : peek s ≠ 0 := by rw [hs]; decide
            have hprog := comment_loop_progress s h0 hn
            have hlt := peek_ne_zero_lt s h0
            have hr0 : 0 < remaining s := by simp only [remaining]; omega
            rw [if_pos hs2, comment_loop_checked_eq (remaining s) s h (Nat.le_refl _),
              Option.some_bind]
            rw [ih _ ((comment_loop_adv (remaining s) s).1.2.2.2 h) (by omega)]
            rw [skip_whitespace_loop]
            rw [if_neg hb, if_neg hn, if_pos hs, if_pos hs2]
          · rw [if_neg hs2, skip_whitespace_loop]
            rw [if_neg hb, if_neg hn, if_pos hs, if_neg hs2]
        · rw [if_neg hb, if_neg hn, if_neg hs, skip_whitespace_loop]
          rw [if_neg hb, if_neg hn, if_neg hs]

theorem skip_whitespace_checked_eq (s : scanner_t) (h : line_inv s) :
    skip_whitespace_checked s = some (skip_whitespace s) :=
  skip_whitespace_loop_checked_eq (remaining s) s h (Nat.le_refl _)

theorem string_checked_eq (s : scanner_t) (h : line_inv s) :
    string_checked s = some (string s) := by
  have h1 := (string_loop_adv (remaining s) s).2.2.2 h
  simp only [string_checked, string_loop_checked_eq (remaining s) s h (Nat.le_refl _),
    Option.some_bind, is_at_end_checked_eq _ h1.1, string]
  cases he : is_at_end (string_loop (remaining s) s)
  · simp only [Bool.false_eq_true, if_false, advance_checked_eq _ (is_at_end_lt _ he),
      Option.map_some']
  · simp only [if_true]

theorem number_checked_eq (s : scanner_t) (h : line_inv s) :
    number_checked s = some (number s) := by
  have h1 := (digits_loop_adv (remaining s) s).1.2.2.2 h
  simp only [number_checked, digits_loop_checked_eq (remaining s) s h (Nat.le_refl _),
    Option.some_bind, peek_checked_eq _ h1.1, number]
  by_cases hp : peek (digits_loop (remaining s) s) = ch '.'
  · simp only [hp, if_true, peek_next_checked_eq _ h1.1, Option.some_bind]
    cases hd : is_digit (peek_next (digits_loop (remaining s) s))
    · simp
    · have h0 : peek (digits_loop (remaining s) s) ≠ 0 := by rw [hp]; decide
      have hn : peek (digits_loop (remaining s) s) ≠ ch '\n' := by rw [hp]; decide
      have h2 := (adv_advance _ h0 hn).2.2.2 h1
      simp only [if_true, advance_checked_eq _ (peek_ne_zero_lt _ h0), Option.some_bind,
        digits_loop_checked_eq _ _ h2 (Nat.le_refl _), Option.map_some']
      simp
  · simp [hp]

theorem memcmp_checked_eq (s : scanner_t) (offset : Nat) (rest : String) (length : Nat)
    (h : offset + length ≤ s.source.length + 1) :
    memcmp_checked s offset rest length = some (memcmp_eq s offset rest length) := by
  have key : ∀ l : List Nat, (∀ i ∈ l, offset + i ≤ s.source.length) →
      l.foldr
        (fun i acc =>
          (read s (offset + i)).bind fun c =>
            acc.map fun b => (c == (cstr rest).getD i 0) && b)
        (some true)
        = some (l.all fun i => char_at s (offset + i) == (cstr rest).getD i 0) := by
    intro l
    induction l with
    | nil => intro _; rfl
    | cons a l ih =>
      intro hl
      simp only [List.foldr_cons, List.all_cons]
      rw [ih (fun i hi => hl i (List.mem_cons_of_mem _ hi)),
        read_eq s _ (hl a (List.mem_cons_self _ _))]
      rfl
  exact key (List.range length) (fun i hi => by
    have := List.mem_range.1 hi
    omega)

theorem check_keyword_checked_eq (s : scanner_t) (start length : Nat) (rest : String)
    (type : token_kind_t) (h : s.current ≤ s.source.length) :
    check_keyword_checked s start length rest type
      = some (check_keyword s start length rest type) := by
  simp only [check_keyword_checked, check_keyword]
  by_cases hl : (s.current : Int) - (s.start : Int) = (start : Int) + (length : Int)
  · rw [if_pos hl, memcmp_checked_eq s _ rest length (by omega)]
    simp [hl]
  · simp [hl]

theorem opt_ite {α : Type} (c : Prop) [Decidable c] (x y : Option α) (a b : α)
    (hx : c → x = some a) (hy : ¬ c → y = some b) :
    (if c then x else y) = some (if c then a else b) := by
  by_cases h : c
  · rw [if_pos h, if_pos h]; exact hx h
  · rw [if_neg h, if_neg h]; exact hy h

theorem identifier_type_checked_eq (s : scanner_t) (h : s.current ≤ s.source.length)
    (hst : s.start ≤ s.current) :
    identifier_type_checked s = some (identifier_type s) := by
  unfold identifier_type_checked identifier_type
  rw [read_eq s _ (by omega), Option.some_bind]
  dsimp only
  repeat' (with_reducible refine opt_ite _ _ _ _ _ (fun _ => ?_) (fun _ => ?_))
  all_goals first
    | exact check_keyword_checked_eq _ _ _ _ _ h
    | rfl
    | skip
  all_goals
    rename_i hgt
    rw [read_eq s _ (by omega), Option.some_bind]
    repeat' (with_reducible refine opt_ite _ _ _ _ _ (fun _ => ?_) (fun _ => ?_))
    all_goals first
      | exact check_keyword_checked_eq _ _ _ _ _ h
      | rfl

theorem identifier_checked_eq (s : scanner_t) (h : line_inv s) (hst : s.start ≤ s.current) :
    identifier_checked s = some (identifier s) := by
  have hadv := (identifier_loop_adv (remaining s) s).1
  have h1 := hadv.2.2.2 h
  simp only [identifier_checked, identifier_loop_checked_eq (remaining s) s h (Nat.le_refl _),
    Option.some_bind, identifier]
  rw [identifier_type_checked_eq _ h1.1 (by rw [hadv.2.1]; exact Nat.le_trans hst hadv.2.2.1)]
  rfl

theorem scan_token_checked_eq (s : scanner_t) (h : line_inv s) :
    scan_token_checked s = some (scan_token s) := by
  have hsk := skip_whitespace_loop_adv (remaining s) s
  have hex := skip_whitespace_exit s
  have h1 : line_inv (skip_whitespace s) := hsk.2.2.2 h
  unfold scan_token_checked scan_token
  rw [skip_whitespace_checked_eq s h, Option.some_bind]
  dsimp only
  generalize hs2 : ({ skip_whitespace s with start := (skip_whitespace s).current } : scanner_t)
    = s2
  have h2 : line_inv s2 := by rw [← hs2]; exact h1
  have hst : s2.start = s2.current := by rw [← hs2]
  have hpk : peek s2 = peek (skip_whitespace s) := by rw [← hs2]; rfl
  rw [is_at_end_checked_eq s2 h2.1, Option.some_bind]
  refine opt_ite _ _ _ _ _ (fun _ => rfl) (fun hend => ?_)
  simp only [Bool.not_eq_true] at hend
  have h0 := (is_at_end_false_iff s2).1 hend
  have ha : adv s2 (advance s2).2 := adv_advance s2 h0 (by rw [hpk]; exact hex.2.2.2.1)
  have h3 : line_inv (advance s2).2 := ha.2.2.2 h2
  have hst3 : (advance s2).2.start ≤ (advance s2).2.current := by
    rw [ha.2.1, hst]; exact ha.2.2.1
  rw [advance_checked_eq s2 (peek_ne_zero_lt s2 h0), Option.some_bind]
  repeat' (with_reducible refine opt_ite _ _ _ _ _ (fun _ => ?_) (fun _ => ?_))
  all_goals
    first
    | with_reducible rfl
    | exact number_checked_eq _ h3
    | exact identifier_checked_eq _ h3 hst3
    | exact string_checked_eq _ h3
    | (rw [match_checked_eq _ _ h3.1]; rfl)

/-- A read behind the terminator, and a move of the cursor behind it, are failures of the
checked scanner: `advance` at the terminator of the source `1`. -/
theorem advance_checked_at_end :
    advance_checked ⟨cstr "1", 0, 1, 1⟩ = none
    ∧ peek_checked ⟨cstr "1", 0, 2, 1⟩ = none
    ∧ peek_checked ⟨cstr "1", 0, 1, 1⟩ = some 0 := by decide

/-- C19: the scanner never reads or moves behind the terminator.  For every source and every
number `n` of calls of `scan_token` on it, the cursor is at an offset at most the length of
the source (the offset of the terminator), and the next call succeeds with every read of a
character (in `is_at_end`, `peek`, `peek_next`, `advance`, `match`, `identifier_type` and the
`memcmp` of `check_keyword`) and every move of the cursor checked to stay at or in front of
the terminator: the checked scanner returns what `scan_token` returns, and so do `n` checked
calls in a row. -/
theorem scan_in_bounds (src : List Int) (n : Nat) :
    (scan_state src n).current ≤ src.length
    ∧ scan_token_checked (scan_state src n) = some (scan_token (scan_state src n))
    ∧ scan_state_checked src n = some (scan_state src n) := by
  have hinv := scan_state_line_inv src
  refine ⟨?_, scan_token_checked_eq _ (hinv n).1, ?_⟩
  · have h := (hinv n).1.1
    rw [(hinv n).2] at h
    exact h
  · induction n with
    | zero => rfl
    | succ n ih =>
      rw [scan_state_checked, ih, Option.some_bind, scan_token_checked_eq _ (hinv n).1]
      rfl

end Scanner

/-! ## The disassembler -/

namespace Debug

open VM

theorem encode_length_pos (oc : op_code_t) (i : instruction_t) : 0 < (encode oc i).length := by
  cases i <;> simp [encode]

theorem get?_append_add {α : Type} (pre l : List α) (i : Nat) :
    (pre ++ l).get? (pre.length + i) = l.get? i := by
  simp [List.getElem?_append_right]

theorem get?_append_len {α : Type} (pre l : List α) :
    (pre ++ l).get? pre.length = l.get? 0 := get?_append_add pre l 0

/-- One step of the walk at the first byte of an instruction of an assembled chunk. -/
theorem disassemble_instruction_at {V : Type} (oc : op_code_t) (chunk : chunk_t V)
    (pre rest : List Nat) (i : instruction_t)
    (hcode : chunk.code = pre ++ (encode oc i ++ rest))
    (hlines : chunk.lines.length = chunk.code.length)
    (hok : instruction_ok oc chunk.constants.length i) :
    disassemble_instruction oc chunk pre.length = some (pre.length + (encode oc i).length) := by
  obtain ⟨⟨h1, h2, h3, h4, h5, h6⟩, ⟨h7, h8, h9, h10, h11⟩, ⟨h12, h13, h14, h15⟩,
    ⟨h16, h17, h18⟩, ⟨h19, h20⟩, h21⟩ := op_code_ne oc
  have hpos := encode_length_pos oc i
  have hlt : pre.length < chunk.lines.length := by
    rw [hlines, hcode]; simp only [List.length_append]; omega
  obtain ⟨ln, hln⟩ : ∃ ln, chunk.lines.get? pre.length = some ln :=
    ⟨_, List.get?_eq_get hlt⟩
  cases i with
  | constant index =>
    have hc0 : chunk.code.get? pre.length = some oc.OP_CONSTANT := by
      rw [hcode, get?_append_len]; rfl
    have hc1 : chunk.code.get? (pre.length + 1) = some index := by
      rw [hcode, get?_append_add]; rfl
    obtain ⟨v, hv⟩ : ∃ v, chunk.constants.get? index = some v :=
      ⟨_, List.get?_eq_get hok⟩
    simp only [disassemble_instruction, hln, hc0, constant_instruction, hc1, hv, encode]
    simp [*, Ne.symm]
  | simple byte =>
    have hc0 : chunk.code.get? pre.length = some byte := by
      rw [hcode, get?_append_len]; rfl
    have hb : byte ≠ oc.OP_CONSTANT := hok
    simp only [disassemble_instruction, hln, hc0, simple_instruction, encode, hb, if_false]
    split_ifs <;> rfl

theorem disassemble_loop_assembled {V : Type} (oc : op_code_t) (lines : List Int)
    (constants : List V) (is : List instruction_t) :
    ∀ (pre : List Nat) (visited : List (Nat × Nat)) (fuel : Nat),
      lines.length = (pre ++ assemble oc is).length →
      (∀ i ∈ is, instruction_ok oc constants.length i) → is.length < fuel →
      disassemble_loop oc ⟨pre ++ assemble oc is, lines, constants⟩ fuel pre.length visited
        = walk_t.finished (visited ++ spans oc pre.length is)
            (pre ++ assemble oc is).length := by
  induction is with
  | nil =>
    intro pre visited fuel _ _ hf
    cases fuel with
    | zero => omega
    | succ k => simp [disassemble_loop, assemble, spans]
  | cons i rest ih =>
    intro pre visited fuel hl hok hf
    cases fuel with
    | zero => omega
    | succ k =>
      have hpos := encode_length_pos oc i
      have hstep := disassemble_instruction_at oc
        (⟨pre ++ assemble oc (i :: rest), lines, constants⟩ : chunk_t V) pre (assemble oc rest) i
        rfl hl (hok i (List.mem_cons_self _ _))
      have hlt : pre.length < (pre ++ assemble oc (i :: rest)).length := by
        simp only [assemble, List.length_append]; omega
      have e : pre ++ assemble oc (i :: rest) = (pre ++ encode oc i) ++ assemble oc rest := by
        simp [assemble]
      have h := ih (pre ++ encode oc i) (visited ++ [(pre.length, pre.length + (encode oc i).length)])
        k (by rw [← e]; exact hl) (fun j hj => hok j (List.mem_cons_of_mem _ hj))
        (by simp only [List.length_cons] at hf; omega)
      simp only [disassemble_loop, hlt, if_true, hstep]
      rw [List.length_append] at h
      rw [e, h]
      simp [spans]

theorem spans_chain (oc : op_code_t) (is : List instruction_t) :
    ∀ offset, List.Chain' (fun a b : Nat × Nat => a.2 = b.1) (spans oc offset is)
      ∧ ∀ p ∈ (spans oc offset is).head?, p.1 = offset := by
  induction is with
  | nil => intro offset; simp [spans]
  | cons i rest ih =>
    intro offset
    refine ⟨?_, by simp [spans]⟩
    simp only [spans]
    rw [List.chain'_cons']
    exact ⟨fun p hp => ((ih _).2 p hp).symm, (ih _).1⟩

theorem spans_end (oc : op_code_t) (is : List instruction_t) :
    ∀ offset, ∀ p ∈ (spans oc offset is).getLast?, p.2 = offset + (assemble oc is).length := by
  induction is with
  | nil => intro offset; simp [spans]
  | cons i rest ih =>
    intro offset p hp
    cases rest with
    | nil =>
      simp only [spans, List.getLast?_singleton, Option.mem_def, Option.some.injEq] at hp
      subst hp
      simp [assemble]
    | cons j rest1 =>
      have h := ih (offset + (encode oc i).length) p
      simp only [spans, List.getLast?_cons_cons] at hp h
      rw [h hp]
      simp only [assemble, List.length_append]
      omega

/-- Every byte of an assembled sequence lies in exactly one span. -/
theorem spans_cover (oc : op_code_t) (is : List instruction_t) :
    ∀ offset j, offset ≤ j → j < offset + (assemble oc is).length →
      (∃ p ∈ spans oc offset is, p.1 ≤ j ∧ j < p.2)
      ∧ (∀ p ∈ spans oc offset is, ∀ q ∈ spans oc offset is,
          p.1 ≤ j → j < p.2 → q.1 ≤ j → j < q.2 → p = q)
      ∧ ∀ p ∈ spans oc offset is, offset ≤ p.1 := by
  induction is with
  | nil => intro offset j h1 h2; simp [assemble] at h2; omega
  | cons i rest ih =>
    intro offset j h1 h2
    have hpos := encode_length_pos oc i
    simp only [assemble, List.length_append] at h2
    have hge : ∀ p ∈ spans oc (offset + (encode oc i).length) rest,
        offset + (encode oc i).length ≤ p.1 := by
      cases rest with
      | nil => intro p hp; simp [spans] at hp
      | cons i1 rest1 =>
        intro p hp
        exact (ih (offset + (encode oc i).length) (offset + (encode oc i).length)
          (Nat.le_refl _) (by
            have := encode_length_pos oc i1
            simp only [assemble, List.length_append]; omega)).2.2 p hp
    by_cases hj : j < offset + (encode oc i).length
    · refine ⟨⟨_, List.mem_cons_self _ _, h1, hj⟩, ?_, ?_⟩
      · intro p hp q hq p1 p2 q1 q2
        simp only [spans, List.mem_cons] at hp hq
        rcases hp with rfl | hp
        · rcases hq with rfl | hq
          · rfl
          · have := hge q hq; omega
        · have := hge p hp; omega
      · intro p hp
        simp only [spans, List.mem_cons] at hp
        rcases hp with rfl | hp
        · exact Nat.le_refl _
        · have := hge p hp; omega
    · obtain ⟨⟨p, hp, hp1, hp2⟩, huniq, _⟩ :=
        ih (offset + (encode oc i).length) j (by omega) (by omega)
      refine ⟨⟨p, List.mem_cons_of_mem _ hp, hp1, hp2⟩, ?_, ?_⟩
      · intro a ha b hb a1 a2 b1 b2
        simp only [spans, List.mem_cons] at ha hb
        rcases ha with rfl | ha
        · simp only at a2; omega
        · rcases hb with rfl | hb
          · simp only at b2; omega
          · exact huniq a ha b hb a1 a2 b1 b2
      · intro a ha
        simp only [spans, List.mem_cons] at ha
        rcases ha with rfl | ha
        · exact Nat.le_refl _
        · have := hge a ha; omega

/-- In an assembled sequence a span is two bytes wide exactly where a `CONSTANT` begins. -/
theorem spans_width (oc : op_code_t) (is : List instruction_t)
    (hok : ∀ i ∈ is, ∀ b, i = instruction_t.simple b → b ≠ oc.OP_CONSTANT) :
    ∀ (pre : List Nat), ∀ p ∈ spans oc pre.length is,
      ((pre ++ assemble oc is).get? p.1 = some oc.OP_CONSTANT ∧ p.2 = p.1 + 2)
      ∨ ((pre ++ assemble oc is).get? p.1 ≠ some oc.OP_CONSTANT ∧ p.2 = p.1 + 1) := by
  induction is with
  | nil => intro pre p hp; simp [spans] at hp
  | cons i rest ih =>
    intro pre p hp
    simp only [spans, List.mem_cons] at hp
    rcases hp with rfl | hp
    · cases i with
      | constant index =>
        left
        rw [get?_append_len]
        exact ⟨rfl, rfl⟩
      | simple byte =>
        right
        have hb := hok _ (List.mem_cons_self _ _) byte rfl
        rw [get?_append_len]
        refine ⟨?_, rfl⟩
        simpa [assemble, encode] using hb
    · have h := ih (fun j hj => hok j (List.mem_cons_of_mem _ hj)) (pre ++ encode oc i) p
        (by simpa using hp)
      simpa [assemble] using h

/-- C16 as stated fails: on a chunk whose last byte is a `CONSTANT` without its operand byte
the walk does not end at the chunk's length: `constant_instruction` reads the operand behind
the end of the code (and would return an offset behind the length). -/
theorem disassemble_dangling_constant :
    disassemble_chunk listed_op_codes
        (⟨[0], [1], [value_t.number 1]⟩ : chunk_t (value_t Int)) 3
      = walk_t.undefined
    ∧ disassemble_chunk listed_op_codes
        (⟨[6, 0], [1, 1], [value_t.number 1]⟩ : chunk_t (value_t Int)) 3
      = walk_t.undefined := by
  decide

/-- C16 as amended: for every chunk that is a sequence of whole instructions (every `CONSTANT`
followed by its operand byte, which names a constant of the pool; one line per byte), the walk
of `disassemble_chunk`, given one iteration more than there are instructions, visits exactly
the spans of the instructions and ends with the offset equal to the chunk's length.  Each span
is two bytes wide where the code holds `CONSTANT` and one byte wide elsewhere, each span
begins where the one before it ends, and every byte of the code lies in exactly one span. -/
theorem disassemble_walk {V : Type} (oc : op_code_t) (is : List instruction_t)
    (lines : List Int) (constants : List V) (hl : lines.length = (assemble oc is).length)
    (hok : ∀ i ∈ is, instruction_ok oc constants.length i) (fuel : Nat)
    (hf : is.length < fuel) :
    disassemble_chunk oc ⟨assemble oc is, lines, constants⟩ fuel
        = walk_t.finished (spans oc 0 is) (assemble oc is).length
    ∧ (∀ p ∈ spans oc 0 is,
        ((assemble oc is).get? p.1 = some oc.OP_CONSTANT ∧ p.2 = p.1 + 2)
        ∨ ((assemble oc is).get? p.1 ≠ some oc.OP_CONSTANT ∧ p.2 = p.1 + 1))
    ∧ List.Chain' (fun a b : Nat × Nat => a.2 = b.1) (spans oc 0 is)
    ∧ (∀ p ∈ (spans oc 0 is).head?, p.1 = 0)
    ∧ (∀ p ∈ (spans oc 0 is).getLast?, p.2 = (assemble oc is).length)
    ∧ ∀ j, j < (assemble oc is).length →
        ∃ p ∈ spans oc 0 is, (p.1 ≤ j ∧ j < p.2)
          ∧ ∀ q ∈ spans oc 0 is, q.1 ≤ j → j < q.2 → q = p := by
  refine ⟨?_, ?_, (spans_chain oc is 0).1, (spans_chain oc is 0).2, ?_, ?_⟩
  · have h := disassemble_loop_assembled oc lines constants is [] [] fuel (by simpa using hl)
      hok hf
    simpa [disassemble_chunk] using h
  · have h := spans_width oc is (fun i hi b hb => by
      have := hok i hi
      rw [hb] at this
      exact this) []
    simpa using h
  · intro p hp
    have := spans_end oc is 0 p hp
    omega
  · intro j hj
    obtain ⟨⟨p, hp, hp1, hp2⟩, huniq, _⟩ := spans_cover oc is 0 j (Nat.zero_le _) (by omega)
    exact ⟨p, hp, ⟨hp1, hp2⟩, fun q hq q1 q2 => huniq q hq p hp q1 q2 hp1 hp2⟩

/-- C16 as amended, on the chunk `CONSTANT 0, NEGATE, RETURN`. -/
theorem disassemble_walk_witness :
    (([1, 1, 2, 2] : List Int).length
        = (assemble listed_op_codes [instruction_t.constant 0, instruction_t.simple 5,
            instruction_t.simple 6]).length
      ∧ [instruction_t.constant 0, instruction_t.simple 5, instruction_t.simple 6].length < 4)
    ∧ disassemble_chunk listed_op_codes
        (⟨[0, 0, 5, 6], [1, 1, 2, 2], [value_t.number 1]⟩ : chunk_t (value_t Int)) 4
      = walk_t.finished [(0, 2), (2, 3), (3, 4)] 4 :=
  ⟨by decide,
    (disassemble_walk listed_op_codes
      [instruction_t.constant 0, instruction_t.simple 5, instruction_t.simple 6] [1, 1, 2, 2]
      [value_t.number (1 : Int)] (by decide)
      (by
        intro i hi
        simp only [List.mem_cons, List.mem_singleton, List.not_mem_nil, or_false] at hi
        rcases hi with rfl | rfl | rfl <;> simp [instruction_ok, listed_op_codes])
      4 (by decide)).1⟩

end Debug

end Loxc
